import Mathlib

/-!
Verification of the `geospatial` crate's core pipeline: supercover line
rasterization (`rasterize_linestring`), marching-squares boundary-edge
extraction (`marching_squares`), and ring assembly
(`edges_to_multilinestring` with its helpers `adjcoords` and `aring`).

The embedding models `usize` values as `Nat`.  Panics (failed `assert!`,
out-of-bounds `ndarray` indexing, `usize` subtraction underflow, missing
`HashMap` key, out-of-bounds `Vec` indexing) are modelled as `Except` errors,
matching the debug-build semantics under which the crate's doctests run.
Loops that Rust writes as unbounded `loop`/`while` are modelled with an
explicit fuel parameter; exhausting fuel yields a distinguished error, so a
non-`fuel` result of the model is the behaviour of the Rust code.

`HashMap` iteration order never influences the observable values the claims
are about: per-label edge vectors and per-vertex adjacency vectors are filled
in deterministic insertion order, which the list model reproduces exactly.
-/

set_option maxRecDepth 4000

namespace Geospatial

/-- A lattice coordinate, mirroring `geo::Coord<usize>`. -/
structure Coord where
  x : Nat
  y : Nat
deriving DecidableEq, Repr

/-- A boundary edge as stored by the crate: an ordered pair of coordinates. -/
abbrev GEdge := Coord × Coord

/-- A labelled grid, mirroring `ndarray::Array2<T>`: dimensions plus a
row-major entry function (`val r c` is `grid[[r, c]]`). -/
structure Array2 (α : Type) where
  nrows : Nat
  ncols : Nat
  val : Nat → Nat → α

/-- The chronological sequence of `(label, edge)` pushes performed by
`marching_squares` (src/src/lib.rs lines 228-296): the border pass over the
top and bottom rows, the border pass over the left and right columns, the
interior double loop, the last-column pass and the last-row pass, in source
order. -/
def msPushes {α : Type} (g : Array2 α) [DecidableEq α] : List (α × GEdge) :=
  ((List.range g.ncols).flatMap fun c =>
      [(g.val 0 c, (⟨c, 0⟩, ⟨c + 1, 0⟩)),
       (g.val (g.nrows - 1) c, (⟨c, (g.nrows - 1) + 1⟩, ⟨c + 1, (g.nrows - 1) + 1⟩))])
  ++ ((List.range g.nrows).flatMap fun r =>
      [(g.val r 0, (⟨0, r⟩, ⟨0, r + 1⟩)),
       (g.val r (g.ncols - 1), (⟨(g.ncols - 1) + 1, r⟩, ⟨(g.ncols - 1) + 1, r + 1⟩))])
  ++ ((List.range (g.nrows - 1)).flatMap fun r =>
      (List.range (g.ncols - 1)).flatMap fun c =>
        (if g.val r c ≠ g.val r (c + 1) then
            [(g.val r c, (⟨c + 1, r⟩, ⟨c + 1, r + 1⟩)),
             (g.val r (c + 1), (⟨c + 1, r⟩, ⟨c + 1, r + 1⟩))]
         else [])
        ++ (if g.val r c ≠ g.val (r + 1) c then
            [(g.val r c, (⟨c, r + 1⟩, ⟨c + 1, r + 1⟩)),
             (g.val (r + 1) c, (⟨c, r + 1⟩, ⟨c + 1, r + 1⟩))]
         else []))
  ++ ((List.range (g.nrows - 1)).flatMap fun r =>
      if g.val r (g.ncols - 1) ≠ g.val (r + 1) (g.ncols - 1) then
        [(g.val r (g.ncols - 1), (⟨g.ncols - 1, r + 1⟩, ⟨(g.ncols - 1) + 1, r + 1⟩)),
         (g.val (r + 1) (g.ncols - 1), (⟨g.ncols - 1, r + 1⟩, ⟨(g.ncols - 1) + 1, r + 1⟩))]
      else [])
  ++ ((List.range (g.ncols - 1)).flatMap fun c =>
      if g.val (g.nrows - 1) c ≠ g.val (g.nrows - 1) (c + 1) then
        [(g.val (g.nrows - 1) c, (⟨c + 1, g.nrows - 1⟩, ⟨c + 1, (g.nrows - 1) + 1⟩)),
         (g.val (g.nrows - 1) (c + 1), (⟨c + 1, g.nrows - 1⟩, ⟨c + 1, (g.nrows - 1) + 1⟩))]
      else [])

/-- The edge list that `marching_squares` associates to the label `id`: the
`Vec` stored under key `id` in the returned `HashMap`, in push order.  A label
is a key of the Rust map exactly when this list is nonempty, since every
`entry(..).or_default()` is immediately followed by a push. -/
def marching_squares {α : Type} [DecidableEq α] (g : Array2 α) (id : α) : List GEdge :=
  (msPushes g).filterMap fun p => if p.1 = id then some p.2 else none

/-- Errors of the ring-assembly model: `fuel` stands for a computation that
ran out of modelling fuel (the Rust loop not having terminated yet), `degree`
for the `assert!` on adjacency-list lengths, and `panic` for every other
panic (index out of bounds, `usize` underflow, missing key). -/
inductive PErr where
  | fuel
  | degree
  | panic
deriving DecidableEq, Repr

/-- Checked `usize` subtraction: debug-build Rust panics on underflow. -/
def natSub (a b : Nat) : Except PErr Nat :=
  if b ≤ a then .ok (a - b) else .error .panic

/-- Checked `ndarray` access `grid[[r, c]]`: panics when out of bounds. -/
def Array2.get? {α : Type} (g : Array2 α) (r c : Nat) : Except PErr α :=
  if r < g.nrows ∧ c < g.ncols then .ok (g.val r c) else .error .panic

/-- The adjacency list of vertex `v` built from `edges`
(src/src/lib.rs lines 521-525): each edge `(a, b)` pushes `b` onto `a`'s
vector and then `a` onto `b`'s vector, in edge order. -/
def adjOf (edges : List GEdge) (v : Coord) : List Coord :=
  edges.flatMap fun e =>
    (if e.1 = v then [e.2] else []) ++ (if e.2 = v then [e.1] else [])

/-- The `adjcoords` helper (src/src/lib.rs lines 410-454): given the previous
vertex `p` and the knot vertex `c`, picks the two neighbours `[p, next]` that
continue the ring correctly, consulting the grid's labels.  All `usize`
subtractions and grid accesses are checked, in source evaluation order. -/
def adjcoords {α : Type} [DecidableEq α] (p c : Coord) (id : α) (g : Array2 α) :
    Except PErr (Coord × Coord) := do
  let row := c.y
  let col := c.x
  let cxm1 ← natSub c.x 1
  if p.x = cxm1 then
    let rm1 ← natSub row 1
    let cm1 ← natSub col 1
    let cell ← g.get? rm1 cm1
    if cell = id then pure (p, ⟨col, rm1⟩) else pure (p, ⟨col, row + 1⟩)
  else if p.x = c.x + 1 then
    let rm1 ← natSub row 1
    let cell ← g.get? rm1 col
    if cell = id then pure (p, ⟨col, rm1⟩) else pure (p, ⟨col, row + 1⟩)
  else
    let cym1 ← natSub c.y 1
    if p.y = cym1 then
      let rm1 ← natSub row 1
      let cm1 ← natSub col 1
      let cell ← g.get? rm1 cm1
      if cell = id then pure (p, ⟨cm1, row⟩) else pure (p, ⟨col + 1, row⟩)
    else
      let cm1 ← natSub col 1
      let cell ← g.get? row cm1
      if cell = id then pure (p, ⟨cm1, row⟩) else pure (p, ⟨col + 1, row⟩)

/-- The `HashMap` lookup `&adj[&cur]`: panics when `cur` is not a key, i.e.
when its adjacency list is empty. -/
def adjLookup (edges : List GEdge) (v : Coord) : Except PErr (List Coord) :=
  if adjOf edges v = [] then .error .panic else .ok (adjOf edges v)

/-- The accesses `n[0]`, `n[1]` on a neighbour vector: panic when the vector
has fewer than two entries. -/
def listGet2 (l : List Coord) : Except PErr (Coord × Coord) :=
  match l with
  | a :: b :: _ => .ok (a, b)
  | _ => .error .panic

/-- The main tracing loop of `aring` (src/src/lib.rs lines 481-505), with
state `(prev, cur)` and the ring accumulated so far.  Each iteration pushes
`cur`, looks up its neighbours (resolving degree-4 knots through
`adjcoords`), then either steps or breaks and closes the ring with `start`. -/
def aringLoop {α : Type} [DecidableEq α] (edges : List GEdge) (start : Coord) (id : α)
    (g : Array2 α) : Nat → Coord → Coord → List Coord → Except PErr (List Coord)
  | 0, _, _, _ => .error .fuel
  | fuel + 1, prev, cur, acc => do
    let acc' := acc ++ [cur]
    let nl ← adjLookup edges cur
    let n ← if nl.length = 4 then adjcoords prev cur id g else listGet2 nl
    if prev = n.1 ∧ n.2 ≠ start then
      aringLoop edges start id g fuel cur n.2 acc'
    else if prev = n.2 ∧ n.1 ≠ start then
      aringLoop edges start id g fuel cur n.1 acc'
    else
      .ok (acc' ++ [start])

/-- The `aring` helper (src/src/lib.rs lines 462-509): initialises
`prev := n[0]` (after resolving a degree-4 start through `adjcoords`, whose
possible panic is preserved) and runs the tracing loop. -/
def aring {α : Type} [DecidableEq α] (edges : List GEdge) (start : Coord) (id : α)
    (g : Array2 α) (fuel : Nat) : Except PErr (List Coord) := do
  let nl ← adjLookup edges start
  match nl with
  | [] => .error .panic
  | n0 :: _ =>
    if nl.length = 4 then do
      let _ ← adjcoords n0 start id g
      aringLoop edges start id g fuel n0 start []
    else
      aringLoop edges start id g fuel n0 start []

/-- The consecutive-pair windows `ring.windows(2)` of a coordinate list. -/
def windows2 {β : Type} : List β → List (β × β)
  | a :: b :: t => (a, b) :: windows2 (b :: t)
  | _ => []

/-- The `assert!` condition of `edges_to_multilinestring`
(src/src/lib.rs line 526): every adjacency list has length 2 or 4. -/
def degreesOk (edges : List GEdge) : Bool :=
  (edges.flatMap fun e => [e.1, e.2]).all fun v =>
    decide ((adjOf edges v).length = 2 ∨ (adjOf edges v).length = 4)

/-- Fuel given to one `aring` call.  Any terminating run of the Rust tracing
loop visits pairwise-distinct states `(prev, cur)` drawn from the endpoints
of the working edge set (a repeated state would repeat forever), so it takes
at most `(2·|edges| + 2)²` iterations; this bound therefore never truncates a
run the Rust code completes. -/
def aringFuel (edges : List GEdge) : Nat := (2 * edges.length + 2) ^ 2 + 2

/-- The `while edges.len() != 0` loop of `edges_to_multilinestring`
(src/src/lib.rs lines 517-536): assert the degree invariant, trace one ring
from the first endpoint of the first remaining edge, remove the ring's edges
(in either orientation) from the working set, and repeat. -/
def etmLoop {α : Type} [DecidableEq α] (id : α) (g : Array2 α) :
    Nat → List GEdge → Except PErr (List (List Coord))
  | 0, _ => .error .fuel
  | fuel + 1, edges =>
    if h : edges = [] then .ok []
    else if degreesOk edges then do
      let start := (edges.head h).1
      let ring ← aring edges start id g (aringFuel edges)
      let pairs := windows2 ring
      let edges' := edges.filter fun e => decide (¬ (e ∈ pairs ∨ (e.2, e.1) ∈ pairs))
      let rest ← etmLoop id g fuel edges'
      .ok (ring :: rest)
    else .error .degree

/-- `edges_to_multilinestring` (src/src/lib.rs lines 403-540): the list of
rings assembled from one label's unordered edge list, in extraction order. -/
def edges_to_multilinestring {α : Type} [DecidableEq α] (id : α) (edges : List GEdge)
    (g : Array2 α) (fuel : Nat) : Except PErr (List (List Coord)) :=
  etmLoop id g fuel edges

/-- Modelled from the spec: the `line_drawing::Supercover` traversal used by
`rasterize_linestring` is external-crate code, not part of this repository.
Following §4.1, it returns every grid cell the segment passes through, in
order: writing `nx, ny` for the axis spans, the walk repeatedly crosses
whichever grid line the segment meets first, stepping diagonally when the
segment passes exactly through a corner.  One inner step: the segment leaves
cell `(ix, iy)` (in axis steps from the start) through a vertical line when
`(1 + 2·ix)·ny < (1 + 2·iy)·nx`, through a horizontal line when `>`, and
exactly through a corner when equal. -/
def supercoverFrom (sx sy : Int) (nx ny : Nat) :
    Nat → Int → Int → Nat → Nat → List (Int × Int)
  | 0, _, _, _, _ => []
  | fuel + 1, x, y, ix, iy =>
    if ix < nx ∨ iy < ny then
      let d : Int := (1 + 2 * (ix : Int)) * (ny : Int) - (1 + 2 * (iy : Int)) * (nx : Int)
      if d = 0 then
        (x + sx, y + sy) :: supercoverFrom sx sy nx ny fuel (x + sx) (y + sy) (ix + 1) (iy + 1)
      else if d < 0 then
        (x + sx, y) :: supercoverFrom sx sy nx ny fuel (x + sx) y (ix + 1) iy
      else
        (x, y + sy) :: supercoverFrom sx sy nx ny fuel x (y + sy) ix (iy + 1)
    else []

/-- Modelled from the spec: the full supercover traversal from `a` to `b`,
starting cell included (§4.1; validated below against the crate's own
doctests for `rasterize_linestring`). -/
def supercover (a b : Int × Int) : List (Int × Int) :=
  let dx := b.1 - a.1
  let dy := b.2 - a.2
  let nx := dx.natAbs
  let ny := dy.natAbs
  let sx : Int := if dx < 0 then -1 else 1
  let sy : Int := if dy < 0 then -1 else 1
  a :: supercoverFrom sx sy nx ny (nx + ny) a.1 a.2 0 0

/-- The push with local deduplication from `rasterize_linestring`
(src/src/lib.rs lines 75-78): a cell is appended unless it equals the last
emitted cell. -/
def pushCell (out : List (Int × Int)) (c : Int × Int) : List (Int × Int) :=
  if out.getLast? = some c then out else out ++ [c]

/-- `rasterize_linestring` (src/src/lib.rs lines 68-82): concatenation of
per-segment supercover traversals over consecutive vertex pairs, with local
deduplication. -/
def rasterize_linestring (ls : List (Int × Int)) : List (Int × Int) :=
  (windows2 ls).foldl (fun out w => (supercover w.1 w.2).foldl pushCell out) []

/-- A concrete grid over `Nat` labels built from a list of rows (entries
outside the stated dimensions are irrelevant: no modelled operation reads
them). -/
def mkGrid (nr nc : Nat) (rows : List (List Nat)) : Array2 Nat :=
  { nrows := nr, ncols := nc, val := fun r c => (rows.getD r []).getD c 0 }

/-- The knot grid `[[0,1,0],[1,0,1],[0,1,0]]` from the spec and the crate's
doctests. -/
def knotGrid : Array2 Nat := mkGrid 3 3 [[0, 1, 0], [1, 0, 1], [0, 1, 0]]

/-- Claim C2: on the knot grid with label 1, ring assembly over the extracted
edges returns exactly four separate unit-square rings — one per label-1 cell,
none merged across the degree-4 knot vertices — and the first returned ring
is `[(1,0),(1,1),(2,1),(2,0),(1,0)]`, as the claim requires. -/
theorem c2_knot_rings :
    edges_to_multilinestring 1 (marching_squares knotGrid 1) knotGrid 10 =
      .ok [[⟨1, 0⟩, ⟨1, 1⟩, ⟨2, 1⟩, ⟨2, 0⟩, ⟨1, 0⟩],
           [⟨1, 3⟩, ⟨1, 2⟩, ⟨2, 2⟩, ⟨2, 3⟩, ⟨1, 3⟩],
           [⟨0, 1⟩, ⟨1, 1⟩, ⟨1, 2⟩, ⟨0, 2⟩, ⟨0, 1⟩],
           [⟨3, 1⟩, ⟨2, 1⟩, ⟨2, 2⟩, ⟨3, 2⟩, ⟨3, 1⟩]] := by
  rfl

/-- Claim C7: rasterizing the polyline `(0,0) → (2,0) → (2,2) → (0,0)`
returns exactly the seven cells
`(0,0),(1,0),(2,0),(2,1),(2,2),(1,1),(0,0)`, in that order. -/
theorem c7_rasterize_example :
    rasterize_linestring [(0, 0), (2, 0), (2, 2), (0, 0)] =
      [(0, 0), (1, 0), (2, 0), (2, 1), (2, 2), (1, 1), (0, 0)] := by
  rfl

/-- `pushCell` keeps the output free of equal consecutive cells. -/
theorem chain'_pushCell {out : List (Int × Int)} {c : Int × Int}
    (h : List.Chain' (fun a b => a ≠ b) out) :
    List.Chain' (fun a b => a ≠ b) (pushCell out c) := by
  unfold pushCell
  split
  · exact h
  · next hne =>
    refine List.chain'_append.2 ⟨h, List.chain'_singleton c, ?_⟩
    intro x hx y hy
    simp only [List.head?_cons, Option.mem_def, Option.some.injEq] at hy
    subst hy
    intro hxc
    exact hne (by rw [← hxc]; exact hx)

/-- Folding any cell sequence through `pushCell` preserves the
no-equal-consecutive-cells invariant. -/
theorem chain'_foldl_pushCell (l : List (Int × Int)) :
    ∀ out : List (Int × Int), List.Chain' (fun a b => a ≠ b) out →
      List.Chain' (fun a b => a ≠ b) (l.foldl pushCell out) := by
  induction l with
  | nil => intro out h; exact h
  | cons c t ih => intro out h; exact ih _ (chain'_pushCell h)

/-- Folding whole segments through `pushCell` preserves the
no-equal-consecutive-cells invariant. -/
theorem chain'_foldl_segments (ws : List ((Int × Int) × (Int × Int))) :
    ∀ out : List (Int × Int), List.Chain' (fun a b => a ≠ b) out →
      List.Chain' (fun a b => a ≠ b)
        (ws.foldl (fun out w => (supercover w.1 w.2).foldl pushCell out) out) := by
  induction ws with
  | nil => intro out h; exact h
  | cons w t ih =>
    intro out h
    rw [List.foldl_cons]
    exact ih _ (chain'_foldl_pushCell _ _ h)

/-- Claim C8: rasterization deduplicates only locally.  No two consecutive
cells of the output are ever equal (for every polyline), yet a cell revisited
later in the traversal appears again: in the doctest polyline the cell
`(0,0)` occurs twice in the output, separated by other cells. -/
theorem c8_local_dedup :
    (∀ ls : List (Int × Int),
        List.Chain' (fun a b => a ≠ b) (rasterize_linestring ls)) ∧
      2 ≤ (rasterize_linestring [(0, 0), (2, 0), (2, 2), (0, 0)]).count (0, 0) := by
  constructor
  · intro ls
    exact chain'_foldl_segments (windows2 ls) [] List.chain'_nil
  · decide

/-- Decidable test for a unit lattice edge (endpoints one grid unit apart,
horizontally or vertically, in either storage order). -/
def unitEdgeB (e : GEdge) : Bool :=
  decide ((e.2.x = e.1.x + 1 ∧ e.2.y = e.1.y) ∨ (e.2.x = e.1.x ∧ e.2.y = e.1.y + 1) ∨
    (e.1.x = e.2.x + 1 ∧ e.1.y = e.2.y) ∨ (e.1.x = e.2.x ∧ e.1.y = e.2.y + 1))

/-- A duplicated unit edge repeated around the border vertex `(0,1)`: every
vertex of its adjacency map has degree 2 or 4, yet knot handling underflows. -/
def c4edges : List GEdge := [(⟨0, 0⟩, ⟨0, 1⟩), (⟨0, 0⟩, ⟨0, 1⟩), (⟨0, 1⟩, ⟨0, 2⟩), (⟨0, 1⟩, ⟨0, 2⟩)]

/-- Claim C4 is false as stated: `c4edges` is a list of unit edges whose
adjacency map has every vertex of degree 2 or 4 (so the claim predicts no
abort), yet ring assembly aborts — the degree-4 vertex `(0,1)` sends the
tracer into `adjcoords`, where the `usize` subtraction `c.x - 1` underflows.
The abort is a `panic`, not the `degree` assertion. -/
theorem c4_counterexample :
    c4edges.all unitEdgeB = true ∧ degreesOk c4edges = true ∧
      edges_to_multilinestring 0 c4edges (mkGrid 1 1 [[0]]) 10 = .error .panic := by
  exact ⟨by decide, by decide, by rfl⟩

/-- Claim C4, amended: if some vertex of the adjacency map built from the
input edge list has degree outside `{2, 4}`, the assembler aborts through the
degree assertion before producing any ring.  (The converse direction of the
original claim is refuted by `c4_counterexample`: an all-degrees-valid input
can still abort inside knot disambiguation.) -/
theorem c4_degree_abort {α : Type} [DecidableEq α] (id : α) (g : Array2 α)
    (edges : List GEdge) (fuel : Nat) (h1 : edges ≠ [])
    (h2 : ∃ v ∈ edges.flatMap fun e => [e.1, e.2],
        ¬ ((adjOf edges v).length = 2 ∨ (adjOf edges v).length = 4)) :
    edges_to_multilinestring id edges g (fuel + 1) = .error .degree := by
  have hd : ¬ (degreesOk edges = true) := by
    rw [degreesOk, List.all_eq_true]
    intro hall
    obtain ⟨v, hv, hp⟩ := h2
    exact hp (by simpa using hall v hv)
  unfold edges_to_multilinestring etmLoop
  rw [dif_neg h1, if_neg hd]

/-- A single unit edge, giving two degree-1 vertices. -/
def c4wEdges : List GEdge := [(⟨0, 0⟩, ⟨1, 0⟩)]

/-- Witness for `c4_degree_abort` at a concrete malformed input. -/
theorem c4_degree_abort_witness :
    (c4wEdges ≠ [] ∧ ∃ v ∈ c4wEdges.flatMap fun e => [e.1, e.2],
        ¬ ((adjOf c4wEdges v).length = 2 ∨ (adjOf c4wEdges v).length = 4)) ∧
      edges_to_multilinestring 0 c4wEdges (mkGrid 1 1 [[0]]) 1 = .error .degree :=
  ⟨⟨by decide, by decide⟩,
    c4_degree_abort 0 (mkGrid 1 1 [[0]]) c4wEdges 0 (by decide) (by decide)⟩

/-- The same unit edge listed twice: adjacency degrees are all 2. -/
def c5edges : List GEdge := [(⟨5, 5⟩, ⟨5, 6⟩), (⟨5, 5⟩, ⟨5, 6⟩)]

/-- Claim C5 is false as stated: `c5edges` is a list of unit edges whose
adjacency map has every vertex of degree 2, yet the assembler terminates
after extracting one completed ring — more than the claimed bound of
`|edges| / 4 = 0` ring extractions — and that ring removes only the two
duplicate copies of a single edge, not the claimed minimum of four edges. -/
theorem c5_counterexample :
    c5edges.all unitEdgeB = true ∧ degreesOk c5edges = true ∧
      edges_to_multilinestring 0 c5edges (mkGrid 1 1 [[0]]) 10 =
        .ok [[⟨5, 5⟩, ⟨5, 6⟩, ⟨5, 5⟩]] ∧
      c5edges.length / 4 < 1 := by
  exact ⟨by decide, by decide, by rfl, by decide⟩

/-- A filtered list that is not the whole list is strictly shorter. -/
theorem filter_length_lt {β : Type} (p : β → Bool) :
    ∀ l : List β, l.filter p ≠ l → (l.filter p).length < l.length := by
  intro l
  induction l with
  | nil => intro h; exact absurd rfl h
  | cons a t ih =>
    intro h
    by_cases hpa : p a = true
    · rw [List.filter_cons_of_pos hpa] at h ⊢
      have ht : t.filter p ≠ t := fun he => h (by rw [he])
      simpa using Nat.succ_lt_succ (ih ht)
    · rw [List.filter_cons_of_neg hpa] at h ⊢
      exact Nat.lt_succ_of_le (List.length_filter_le p t)

/-- If one pass of the assembler loop removes no edge, the loop never
finishes: with the working set unchanged every later pass recomputes the same
ring, so no amount of fuel yields a result. -/
theorem etmLoop_no_progress {α : Type} [DecidableEq α] (id : α) (g : Array2 α)
    (edges : List GEdge) (hne : edges ≠ []) (hdeg : degreesOk edges = true)
    (ring : List Coord)
    (hring : aring edges (edges.head hne).1 id g (aringFuel edges) = .ok ring)
    (hfix : (edges.filter fun e =>
        decide (¬ (e ∈ windows2 ring ∨ (e.2, e.1) ∈ windows2 ring))) = edges) :
    ∀ fuel rings, etmLoop id g fuel edges ≠ .ok rings := by
  intro fuel
  induction fuel with
  | zero => intro rings h; exact absurd h (by simp [etmLoop])
  | succ n ih =>
    intro rings h
    rw [etmLoop, dif_neg hne, if_pos hdeg] at h
    simp only [bind, Except.bind, hring, hfix] at h
    cases hr : etmLoop id g n edges with
    | error e => rw [hr] at h; exact absurd h (by simp)
    | ok rest => exact ih rest hr

/-- Claim C5, amended: whenever the assembler returns at all, every completed
ring has removed at least one edge from the working set (the set strictly
shrinks on every iteration), so the number of rings returned is at most the
number of input edges.  The per-ring lower bound of four edges and the
`|edges| / 4` bound of the original claim fail (`c5_counterexample`), and for
degree-valid edge sets inconsistent with the grid the loop need not
terminate at all. -/
theorem c5_ring_count {α : Type} [DecidableEq α] (id : α) (g : Array2 α) :
    ∀ (fuel : Nat) (edges : List GEdge) (rings : List (List Coord)),
      edges_to_multilinestring id edges g fuel = .ok rings →
        rings.length ≤ edges.length := by
  intro fuel
  induction fuel with
  | zero => intro edges rings h; exact absurd h (by simp [edges_to_multilinestring, etmLoop])
  | succ n ih =>
    intro edges rings h
    rw [edges_to_multilinestring, etmLoop] at h
    by_cases hne : edges = []
    · rw [dif_pos hne] at h
      cases h
      simp
    · rw [dif_neg hne] at h
      by_cases hdeg : degreesOk edges = true
      · rw [if_pos hdeg] at h
        simp only [bind, Except.bind] at h
        cases ha : aring edges (edges.head hne).1 id g (aringFuel edges) with
        | error e => simp only [ha] at h; exact absurd h (by simp)
        | ok ring =>
          simp only [ha] at h
          cases he : etmLoop id g n (edges.filter fun e =>
              decide (¬ (e ∈ windows2 ring ∨ (e.2, e.1) ∈ windows2 ring))) with
          | error e => simp only [he] at h; exact absurd h (by simp)
          | ok rest =>
            simp only [he] at h
            simp only [Except.ok.injEq] at h
            subst h
            by_cases hfix : (edges.filter fun e =>
                decide (¬ (e ∈ windows2 ring ∨ (e.2, e.1) ∈ windows2 ring))) = edges
            · exact absurd (hfix ▸ he)
                (etmLoop_no_progress id g edges hne hdeg ring ha hfix n rest)
            · have hlt := filter_length_lt _ edges hfix
              have hr := ih _ rest he
              simp only [List.length_cons]
              exact Nat.succ_le_of_lt (Nat.lt_of_le_of_lt hr hlt)
      · rw [if_neg hdeg] at h
        exact absurd h (by simp)

/-- Witness for `c5_ring_count` at a concrete successful run. -/
theorem c5_ring_count_witness :
    edges_to_multilinestring 0 (marching_squares (mkGrid 1 1 [[0]]) 0) (mkGrid 1 1 [[0]]) 10 =
      .ok [[⟨0, 0⟩, ⟨0, 1⟩, ⟨1, 1⟩, ⟨1, 0⟩, ⟨0, 0⟩]] ∧
      ([[⟨0, 0⟩, ⟨0, 1⟩, ⟨1, 1⟩, ⟨1, 0⟩, ⟨0, 0⟩]] : List (List Coord)).length ≤
        (marching_squares (mkGrid 1 1 [[0]]) 0).length :=
  ⟨by rfl, c5_ring_count 0 (mkGrid 1 1 [[0]]) 10 _ _ (by rfl)⟩

section Characterization

variable {α : Type} [DecidableEq α]

/-- Phase 1 of `msPushes`: outer edges of the top and bottom rows. -/
def ph1 (g : Array2 α) : List (α × GEdge) :=
  (List.range g.ncols).flatMap fun c =>
    [(g.val 0 c, (⟨c, 0⟩, ⟨c + 1, 0⟩)),
     (g.val (g.nrows - 1) c, (⟨c, (g.nrows - 1) + 1⟩, ⟨c + 1, (g.nrows - 1) + 1⟩))]

/-- Phase 2 of `msPushes`: outer edges of the left and right columns. -/
def ph2 (g : Array2 α) : List (α × GEdge) :=
  (List.range g.nrows).flatMap fun r =>
    [(g.val r 0, (⟨0, r⟩, ⟨0, r + 1⟩)),
     (g.val r (g.ncols - 1), (⟨(g.ncols - 1) + 1, r⟩, ⟨(g.ncols - 1) + 1, r + 1⟩))]

/-- Phase 3 of `msPushes`: the interior double loop. -/
def ph3 (g : Array2 α) : List (α × GEdge) :=
  (List.range (g.nrows - 1)).flatMap fun r =>
    (List.range (g.ncols - 1)).flatMap fun c =>
      (if g.val r c ≠ g.val r (c + 1) then
          [(g.val r c, (⟨c + 1, r⟩, ⟨c + 1, r + 1⟩)),
           (g.val r (c + 1), (⟨c + 1, r⟩, ⟨c + 1, r + 1⟩))]
       else [])
      ++ (if g.val r c ≠ g.val (r + 1) c then
          [(g.val r c, (⟨c, r + 1⟩, ⟨c + 1, r + 1⟩)),
           (g.val (r + 1) c, (⟨c, r + 1⟩, ⟨c + 1, r + 1⟩))]
       else [])

/-- Phase 4 of `msPushes`: the last-column pass. -/
def ph4 (g : Array2 α) : List (α × GEdge) :=
  (List.range (g.nrows - 1)).flatMap fun r =>
    if g.val r (g.ncols - 1) ≠ g.val (r + 1) (g.ncols - 1) then
      [(g.val r (g.ncols - 1), (⟨g.ncols - 1, r + 1⟩, ⟨(g.ncols - 1) + 1, r + 1⟩)),
       (g.val (r + 1) (g.ncols - 1), (⟨g.ncols - 1, r + 1⟩, ⟨(g.ncols - 1) + 1, r + 1⟩))]
    else []

/-- Phase 5 of `msPushes`: the last-row pass. -/
def ph5 (g : Array2 α) : List (α × GEdge) :=
  (List.range (g.ncols - 1)).flatMap fun c =>
    if g.val (g.nrows - 1) c ≠ g.val (g.nrows - 1) (c + 1) then
      [(g.val (g.nrows - 1) c, (⟨c + 1, g.nrows - 1⟩, ⟨c + 1, (g.nrows - 1) + 1⟩)),
       (g.val (g.nrows - 1) (c + 1), (⟨c + 1, g.nrows - 1⟩, ⟨c + 1, (g.nrows - 1) + 1⟩))]
    else []

theorem msPushes_eq (g : Array2 α) :
    msPushes g = ph1 g ++ ph2 g ++ ph3 g ++ ph4 g ++ ph5 g := by
  unfold msPushes ph1 ph2 ph3 ph4 ph5
  rfl

/-- The number of pushes of the pair `(id, e)` in a push list. -/
def lcount (id : α) (e : GEdge) (l : List (α × GEdge)) : Nat :=
  l.countP fun p => decide (p.1 = id ∧ p.2 = e)

theorem count_eq_lcount (g : Array2 α) (id : α) (e : GEdge) :
    (marching_squares g id).count e = lcount id e (msPushes g) := by
  rw [marching_squares, lcount]
  generalize msPushes g = l
  induction l with
  | nil => rfl
  | cons p t ih =>
    rcases p with ⟨a, ed⟩
    rw [List.filterMap_cons, List.countP_cons]
    by_cases ha : a = id
    · rw [if_pos ha, List.count_cons, ih]
      by_cases he : ed = e
      · simp [ha, he]
      · simp [ha, he, fun h : e = ed => he h.symm]
    · rw [if_neg ha, ih]
      simp [ha]

theorem lcount_append (id : α) (e : GEdge) (l₁ l₂ : List (α × GEdge)) :
    lcount id e (l₁ ++ l₂) = lcount id e l₁ + lcount id e l₂ :=
  List.countP_append _ _ _

theorem lcount_flatMap {β : Type} (id : α) (e : GEdge) (l : List β) (f : β → List (α × GEdge)) :
    lcount id e (l.flatMap f) = (l.map fun b => lcount id e (f b)).sum := by
  induction l with
  | nil => rfl
  | cons b t ih => rw [List.flatMap_cons, lcount_append, List.map_cons, List.sum_cons, ih]

/-- Summing an indicator pinned to one index over `List.range`. -/
theorem sum_range_ind (m i0 : Nat) (Q : Nat → Prop) [DecidablePred Q] (v : Nat) :
    ((List.range m).map fun c => if c = i0 ∧ Q c then v else 0).sum =
      if i0 < m ∧ Q i0 then v else 0 := by
  induction m with
  | zero => simp
  | succ k ih =>
    rw [List.range_succ, List.map_append, List.sum_append, ih]
    by_cases hik : i0 < k
    · have : ¬ k = i0 := by omega
      simp only [List.map_cons, List.map_nil, List.sum_cons, List.sum_nil, this, false_and,
        if_false, add_zero]
      by_cases hq : Q i0
      · rw [if_pos ⟨hik, hq⟩, if_pos ⟨by omega, hq⟩]
      · rw [if_neg fun h => hq h.2, if_neg fun h => hq h.2]
    · by_cases hk : i0 = k
      · subst hk
        simp only [List.map_cons, List.map_nil, List.sum_cons, List.sum_nil, true_and,
          if_neg (fun h : i0 < i0 ∧ Q i0 => absurd h.1 (by omega)), zero_add, add_zero]
        by_cases hq : Q i0
        · rw [if_pos hq, if_pos ⟨by omega, hq⟩]
        · rw [if_neg hq, if_neg fun h => hq h.2]
      · have h1 : ¬ (i0 < k ∧ Q i0) := fun h => hik h.1
        have h2 : ¬ (i0 < k + 1 ∧ Q i0) := fun h => absurd (by omega : i0 = k) hk
        have h3 : ¬ k = i0 := fun h => hk h.symm
        simp [h1, h2, h3]

theorem sum_map_add {β : Type} (l : List β) (f g : β → Nat) :
    (l.map fun b => f b + g b).sum = (l.map f).sum + (l.map g).sum := by
  induction l with
  | nil => rfl
  | cons b t ih => simp only [List.map_cons, List.sum_cons, ih]; omega

theorem ind_pin {A : Prop} [Decidable A] {c j : Nat} (h : A → c = j) :
    (if A then (1 : Nat) else 0) = if c = j ∧ A then 1 else 0 := by
  by_cases ha : A
  · rw [if_pos ha, if_pos ⟨h ha, ha⟩]
  · rw [if_neg ha, if_neg fun hh => ha hh.2]

theorem lcount_pair (id : α) (e : GEdge) (a₁ a₂ : α) (e₁ e₂ : GEdge) :
    lcount id e [(a₁, e₁), (a₂, e₂)] =
      (if a₁ = id ∧ e₁ = e then 1 else 0) + (if a₂ = id ∧ e₂ = e then 1 else 0) := by
  rw [lcount, List.countP_cons, List.countP_cons, List.countP_nil]
  simp only [decide_eq_true_eq]
  omega

theorem lcount_if (id : α) (e : GEdge) (P : Prop) [Decidable P] (l : List (α × GEdge)) :
    lcount id e (if P then l else []) = if P then lcount id e l else 0 := by
  split <;> rfl

theorem lcount_ph1 (g : Array2 α) (id : α) (e : GEdge) :
    lcount id e (ph1 g) =
      (if e.1.x < g.ncols ∧
          (g.val 0 e.1.x = id ∧ ((⟨e.1.x, 0⟩, ⟨e.1.x + 1, 0⟩) : GEdge) = e) then 1 else 0)
      + (if e.1.x < g.ncols ∧
          (g.val (g.nrows - 1) e.1.x = id ∧
            ((⟨e.1.x, (g.nrows - 1) + 1⟩, ⟨e.1.x + 1, (g.nrows - 1) + 1⟩) : GEdge) = e)
          then 1 else 0) := by
  rw [ph1, lcount_flatMap]
  have hc : ∀ c ∈ List.range g.ncols,
      lcount id e [(g.val 0 c, ((⟨c, 0⟩, ⟨c + 1, 0⟩) : GEdge)),
        (g.val (g.nrows - 1) c, (⟨c, (g.nrows - 1) + 1⟩, ⟨c + 1, (g.nrows - 1) + 1⟩))] =
      (if c = e.1.x ∧ (g.val 0 c = id ∧ ((⟨c, 0⟩, ⟨c + 1, 0⟩) : GEdge) = e) then 1 else 0)
      + (if c = e.1.x ∧ (g.val (g.nrows - 1) c = id ∧
          ((⟨c, (g.nrows - 1) + 1⟩, ⟨c + 1, (g.nrows - 1) + 1⟩) : GEdge) = e) then 1 else 0) := by
    intro c _
    rw [lcount_pair]
    congr 1
    · exact ind_pin fun h => by rw [← h.2]
    · exact ind_pin fun h => by rw [← h.2]
  rw [List.map_congr_left hc, sum_map_add, sum_range_ind, sum_range_ind]

theorem lcount_ph2 (g : Array2 α) (id : α) (e : GEdge) :
    lcount id e (ph2 g) =
      (if e.1.y < g.nrows ∧
          (g.val e.1.y 0 = id ∧ ((⟨0, e.1.y⟩, ⟨0, e.1.y + 1⟩) : GEdge) = e) then 1 else 0)
      + (if e.1.y < g.nrows ∧
          (g.val e.1.y (g.ncols - 1) = id ∧
            ((⟨(g.ncols - 1) + 1, e.1.y⟩, ⟨(g.ncols - 1) + 1, e.1.y + 1⟩) : GEdge) = e)
          then 1 else 0) := by
  rw [ph2, lcount_flatMap]
  have hc : ∀ r ∈ List.range g.nrows,
      lcount id e [(g.val r 0, ((⟨0, r⟩, ⟨0, r + 1⟩) : GEdge)),
        (g.val r (g.ncols - 1), (⟨(g.ncols - 1) + 1, r⟩, ⟨(g.ncols - 1) + 1, r + 1⟩))] =
      (if r = e.1.y ∧ (g.val r 0 = id ∧ ((⟨0, r⟩, ⟨0, r + 1⟩) : GEdge) = e) then 1 else 0)
      + (if r = e.1.y ∧ (g.val r (g.ncols - 1) = id ∧
          ((⟨(g.ncols - 1) + 1, r⟩, ⟨(g.ncols - 1) + 1, r + 1⟩) : GEdge) = e) then 1 else 0) := by
    intro r _
    rw [lcount_pair]
    congr 1
    · exact ind_pin fun h => by rw [← h.2]
    · exact ind_pin fun h => by rw [← h.2]
  rw [List.map_congr_left hc, sum_map_add, sum_range_ind, sum_range_ind]

theorem if_add_distrib {P A B : Prop} [Decidable P] [Decidable A] [Decidable B] :
    (if P then ((if A then (1 : Nat) else 0) + (if B then 1 else 0)) else 0) =
      (if P ∧ A then 1 else 0) + (if P ∧ B then 1 else 0) := by
  by_cases hp : P <;> simp [hp]

theorem lcount_ph4 (g : Array2 α) (id : α) (e : GEdge) :
    lcount id e (ph4 g) =
      (if e.1.y - 1 < g.nrows - 1 ∧
          (g.val (e.1.y - 1) (g.ncols - 1) ≠ g.val ((e.1.y - 1) + 1) (g.ncols - 1) ∧
            (g.val (e.1.y - 1) (g.ncols - 1) = id ∧
              ((⟨g.ncols - 1, (e.1.y - 1) + 1⟩, ⟨(g.ncols - 1) + 1, (e.1.y - 1) + 1⟩) : GEdge) = e))
        then 1 else 0)
      + (if e.1.y - 1 < g.nrows - 1 ∧
          (g.val (e.1.y - 1) (g.ncols - 1) ≠ g.val ((e.1.y - 1) + 1) (g.ncols - 1) ∧
            (g.val ((e.1.y - 1) + 1) (g.ncols - 1) = id ∧
              ((⟨g.ncols - 1, (e.1.y - 1) + 1⟩, ⟨(g.ncols - 1) + 1, (e.1.y - 1) + 1⟩) : GEdge) = e))
        then 1 else 0) := by
  rw [ph4, lcount_flatMap]
  have hc : ∀ r ∈ List.range (g.nrows - 1),
      lcount id e (if g.val r (g.ncols - 1) ≠ g.val (r + 1) (g.ncols - 1) then
        [(g.val r (g.ncols - 1), ((⟨g.ncols - 1, r + 1⟩, ⟨(g.ncols - 1) + 1, r + 1⟩) : GEdge)),
         (g.val (r + 1) (g.ncols - 1), (⟨g.ncols - 1, r + 1⟩, ⟨(g.ncols - 1) + 1, r + 1⟩))]
        else []) =
      (if r = e.1.y - 1 ∧
          (g.val r (g.ncols - 1) ≠ g.val (r + 1) (g.ncols - 1) ∧
            (g.val r (g.ncols - 1) = id ∧
              ((⟨g.ncols - 1, r + 1⟩, ⟨(g.ncols - 1) + 1, r + 1⟩) : GEdge) = e)) then 1 else 0)
      + (if r = e.1.y - 1 ∧
          (g.val r (g.ncols - 1) ≠ g.val (r + 1) (g.ncols - 1) ∧
            (g.val (r + 1) (g.ncols - 1) = id ∧
              ((⟨g.ncols - 1, r + 1⟩, ⟨(g.ncols - 1) + 1, r + 1⟩) : GEdge) = e)) then 1 else 0) := by
    intro r _
    rw [lcount_if, lcount_pair, if_add_distrib]
    congr 1
    · rw [ind_pin (c := r) (j := e.1.y - 1)
        (fun h => by rw [← h.2.2]; show r = r + 1 - 1; omega)]
    · rw [ind_pin (c := r) (j := e.1.y - 1)
        (fun h => by rw [← h.2.2]; show r = r + 1 - 1; omega)]
  rw [List.map_congr_left hc, sum_map_add, sum_range_ind, sum_range_ind]

theorem lcount_ph5 (g : Array2 α) (id : α) (e : GEdge) :
    lcount id e (ph5 g) =
      (if e.1.x - 1 < g.ncols - 1 ∧
          (g.val (g.nrows - 1) (e.1.x - 1) ≠ g.val (g.nrows - 1) ((e.1.x - 1) + 1) ∧
            (g.val (g.nrows - 1) (e.1.x - 1) = id ∧
              ((⟨(e.1.x - 1) + 1, g.nrows - 1⟩, ⟨(e.1.x - 1) + 1, (g.nrows - 1) + 1⟩) : GEdge) = e))
        then 1 else 0)
      + (if e.1.x - 1 < g.ncols - 1 ∧
          (g.val (g.nrows - 1) (e.1.x - 1) ≠ g.val (g.nrows - 1) ((e.1.x - 1) + 1) ∧
            (g.val (g.nrows - 1) ((e.1.x - 1) + 1) = id ∧
              ((⟨(e.1.x - 1) + 1, g.nrows - 1⟩, ⟨(e.1.x - 1) + 1, (g.nrows - 1) + 1⟩) : GEdge) = e))
        then 1 else 0) := by
  rw [ph5, lcount_flatMap]
  have hc : ∀ c ∈ List.range (g.ncols - 1),
      lcount id e (if g.val (g.nrows - 1) c ≠ g.val (g.nrows - 1) (c + 1) then
        [(g.val (g.nrows - 1) c, ((⟨c + 1, g.nrows - 1⟩, ⟨c + 1, (g.nrows - 1) + 1⟩) : GEdge)),
         (g.val (g.nrows - 1) (c + 1), (⟨c + 1, g.nrows - 1⟩, ⟨c + 1, (g.nrows - 1) + 1⟩))]
        else []) =
      (if c = e.1.x - 1 ∧
          (g.val (g.nrows - 1) c ≠ g.val (g.nrows - 1) (c + 1) ∧
            (g.val (g.nrows - 1) c = id ∧
              ((⟨c + 1, g.nrows - 1⟩, ⟨c + 1, (g.nrows - 1) + 1⟩) : GEdge) = e)) then 1 else 0)
      + (if c = e.1.x - 1 ∧
          (g.val (g.nrows - 1) c ≠ g.val (g.nrows - 1) (c + 1) ∧
            (g.val (g.nrows - 1) (c + 1) = id ∧
              ((⟨c + 1, g.nrows - 1⟩, ⟨c + 1, (g.nrows - 1) + 1⟩) : GEdge) = e)) then 1 else 0) := by
    intro c _
    rw [lcount_if, lcount_pair, if_add_distrib]
    congr 1
    · rw [ind_pin (c := c) (j := e.1.x - 1)
        (fun h => by rw [← h.2.2]; show c = c + 1 - 1; omega)]
    · rw [ind_pin (c := c) (j := e.1.x - 1)
        (fun h => by rw [← h.2.2]; show c = c + 1 - 1; omega)]
  rw [List.map_congr_left hc, sum_map_add, sum_range_ind, sum_range_ind]

theorem lcount_ph3 (g : Array2 α) (id : α) (e : GEdge) :
    lcount id e (ph3 g) =
      ((if e.1.y < g.nrows - 1 ∧ (e.1.x - 1 < g.ncols - 1 ∧
          (g.val e.1.y (e.1.x - 1) ≠ g.val e.1.y ((e.1.x - 1) + 1) ∧
            (g.val e.1.y (e.1.x - 1) = id ∧
              ((⟨(e.1.x - 1) + 1, e.1.y⟩, ⟨(e.1.x - 1) + 1, e.1.y + 1⟩) : GEdge) = e)))
        then 1 else 0)
      + (if e.1.y < g.nrows - 1 ∧ (e.1.x - 1 < g.ncols - 1 ∧
          (g.val e.1.y (e.1.x - 1) ≠ g.val e.1.y ((e.1.x - 1) + 1) ∧
            (g.val e.1.y ((e.1.x - 1) + 1) = id ∧
              ((⟨(e.1.x - 1) + 1, e.1.y⟩, ⟨(e.1.x - 1) + 1, e.1.y + 1⟩) : GEdge) = e)))
        then 1 else 0))
      + ((if e.1.y - 1 < g.nrows - 1 ∧ (e.1.x < g.ncols - 1 ∧
          (g.val (e.1.y - 1) e.1.x ≠ g.val ((e.1.y - 1) + 1) e.1.x ∧
            (g.val (e.1.y - 1) e.1.x = id ∧
              ((⟨e.1.x, (e.1.y - 1) + 1⟩, ⟨e.1.x + 1, (e.1.y - 1) + 1⟩) : GEdge) = e)))
        then 1 else 0)
      + (if e.1.y - 1 < g.nrows - 1 ∧ (e.1.x < g.ncols - 1 ∧
          (g.val (e.1.y - 1) e.1.x ≠ g.val ((e.1.y - 1) + 1) e.1.x ∧
            (g.val ((e.1.y - 1) + 1) e.1.x = id ∧
              ((⟨e.1.x, (e.1.y - 1) + 1⟩, ⟨e.1.x + 1, (e.1.y - 1) + 1⟩) : GEdge) = e)))
        then 1 else 0)) := by
  rw [ph3, lcount_flatMap]
  have hr : ∀ r ∈ List.range (g.nrows - 1),
      lcount id e ((List.range (g.ncols - 1)).flatMap fun c =>
        (if g.val r c ≠ g.val r (c + 1) then
            [(g.val r c, ((⟨c + 1, r⟩, ⟨c + 1, r + 1⟩) : GEdge)),
             (g.val r (c + 1), (⟨c + 1, r⟩, ⟨c + 1, r + 1⟩))]
         else [])
        ++ (if g.val r c ≠ g.val (r + 1) c then
            [(g.val r c, ((⟨c, r + 1⟩, ⟨c + 1, r + 1⟩) : GEdge)),
             (g.val (r + 1) c, (⟨c, r + 1⟩, ⟨c + 1, r + 1⟩))]
         else [])) =
      ((if r = e.1.y ∧ (e.1.x - 1 < g.ncols - 1 ∧
          (g.val r (e.1.x - 1) ≠ g.val r ((e.1.x - 1) + 1) ∧
            (g.val r (e.1.x - 1) = id ∧
              ((⟨(e.1.x - 1) + 1, r⟩, ⟨(e.1.x - 1) + 1, r + 1⟩) : GEdge) = e)))
        then 1 else 0)
      + (if r = e.1.y ∧ (e.1.x - 1 < g.ncols - 1 ∧
          (g.val r (e.1.x - 1) ≠ g.val r ((e.1.x - 1) + 1) ∧
            (g.val r ((e.1.x - 1) + 1) = id ∧
              ((⟨(e.1.x - 1) + 1, r⟩, ⟨(e.1.x - 1) + 1, r + 1⟩) : GEdge) = e)))
        then 1 else 0))
      + ((if r = e.1.y - 1 ∧ (e.1.x < g.ncols - 1 ∧
          (g.val r e.1.x ≠ g.val (r + 1) e.1.x ∧
            (g.val r e.1.x = id ∧
              ((⟨e.1.x, r + 1⟩, ⟨e.1.x + 1, r + 1⟩) : GEdge) = e)))
        then 1 else 0)
      + (if r = e.1.y - 1 ∧ (e.1.x < g.ncols - 1 ∧
          (g.val r e.1.x ≠ g.val (r + 1) e.1.x ∧
            (g.val (r + 1) e.1.x = id ∧
              ((⟨e.1.x, r + 1⟩, ⟨e.1.x + 1, r + 1⟩) : GEdge) = e)))
        then 1 else 0)) := by
    intro r _
    rw [lcount_flatMap]
    have hcc : ∀ c ∈ List.range (g.ncols - 1),
        lcount id e ((if g.val r c ≠ g.val r (c + 1) then
            [(g.val r c, ((⟨c + 1, r⟩, ⟨c + 1, r + 1⟩) : GEdge)),
             (g.val r (c + 1), (⟨c + 1, r⟩, ⟨c + 1, r + 1⟩))]
          else [])
          ++ (if g.val r c ≠ g.val (r + 1) c then
            [(g.val r c, ((⟨c, r + 1⟩, ⟨c + 1, r + 1⟩) : GEdge)),
             (g.val (r + 1) c, (⟨c, r + 1⟩, ⟨c + 1, r + 1⟩))]
          else [])) =
        ((if c = e.1.x - 1 ∧
            (g.val r c ≠ g.val r (c + 1) ∧
              (g.val r c = id ∧ ((⟨c + 1, r⟩, ⟨c + 1, r + 1⟩) : GEdge) = e)) then 1 else 0)
        + (if c = e.1.x - 1 ∧
            (g.val r c ≠ g.val r (c + 1) ∧
              (g.val r (c + 1) = id ∧ ((⟨c + 1, r⟩, ⟨c + 1, r + 1⟩) : GEdge) = e)) then 1 else 0))
        + ((if c = e.1.x ∧
            (g.val r c ≠ g.val (r + 1) c ∧
              (g.val r c = id ∧ ((⟨c, r + 1⟩, ⟨c + 1, r + 1⟩) : GEdge) = e)) then 1 else 0)
        + (if c = e.1.x ∧
            (g.val r c ≠ g.val (r + 1) c ∧
              (g.val (r + 1) c = id ∧ ((⟨c, r + 1⟩, ⟨c + 1, r + 1⟩) : GEdge) = e)) then 1 else 0)) := by
      intro c _
      rw [lcount_append, lcount_if, lcount_if, lcount_pair, lcount_pair,
        if_add_distrib, if_add_distrib]
      congr 1
      · congr 1
        · rw [ind_pin (c := c) (j := e.1.x - 1)
            (fun h => by rw [← h.2.2]; show c = c + 1 - 1; omega)]
        · rw [ind_pin (c := c) (j := e.1.x - 1)
            (fun h => by rw [← h.2.2]; show c = c + 1 - 1; omega)]
      · congr 1
        · rw [ind_pin (c := c) (j := e.1.x)
            (fun h => by rw [← h.2.2])]
        · rw [ind_pin (c := c) (j := e.1.x)
            (fun h => by rw [← h.2.2])]
    rw [List.map_congr_left hcc, sum_map_add, sum_map_add, sum_map_add,
      sum_range_ind, sum_range_ind, sum_range_ind, sum_range_ind]
    congr 1
    · congr 1
      · rw [ind_pin (c := r) (j := e.1.y)
          (fun h => by rw [← h.2.2.2])]
      · rw [ind_pin (c := r) (j := e.1.y)
          (fun h => by rw [← h.2.2.2])]
    · congr 1
      · rw [ind_pin (c := r) (j := e.1.y - 1)
          (fun h => by rw [← h.2.2.2]; show r = r + 1 - 1; omega)]
      · rw [ind_pin (c := r) (j := e.1.y - 1)
          (fun h => by rw [← h.2.2.2]; show r = r + 1 - 1; omega)]
  rw [List.map_congr_left hr, sum_map_add, sum_map_add, sum_map_add,
    sum_range_ind, sum_range_ind, sum_range_ind, sum_range_ind]

/-- The cell above a horizontal edge starting at `(x, y)` carries `id`. -/
def upCell (g : Array2 α) (id : α) (x y : Nat) : Prop :=
  1 ≤ y ∧ y ≤ g.nrows ∧ x < g.ncols ∧ g.val (y - 1) x = id

/-- The cell below a horizontal edge starting at `(x, y)` carries `id`. -/
def dnCell (g : Array2 α) (id : α) (x y : Nat) : Prop :=
  y < g.nrows ∧ x < g.ncols ∧ g.val y x = id

/-- The cell left of a vertical edge starting at `(x, y)` carries `id`. -/
def ltCell (g : Array2 α) (id : α) (x y : Nat) : Prop :=
  1 ≤ x ∧ x ≤ g.ncols ∧ y < g.nrows ∧ g.val y (x - 1) = id

/-- The cell right of a vertical edge starting at `(x, y)` carries `id`. -/
def rtCell (g : Array2 α) (id : α) (x y : Nat) : Prop :=
  x < g.ncols ∧ y < g.nrows ∧ g.val y x = id

instance (g : Array2 α) (id : α) (x y : Nat) : Decidable (upCell g id x y) := by
  unfold upCell; infer_instance

instance (g : Array2 α) (id : α) (x y : Nat) : Decidable (dnCell g id x y) := by
  unfold dnCell; infer_instance

instance (g : Array2 α) (id : α) (x y : Nat) : Decidable (ltCell g id x y) := by
  unfold ltCell; infer_instance

instance (g : Array2 α) (id : α) (x y : Nat) : Decidable (rtCell g id x y) := by
  unfold rtCell; infer_instance

theorem count_ms_horizontal (g : Array2 α) (hn : 1 ≤ g.nrows) (hm : 1 ≤ g.ncols)
    (id : α) (x y : Nat) :
    (marching_squares g id).count ((⟨x, y⟩, ⟨x + 1, y⟩) : GEdge) =
      if Xor' (upCell g id x y) (dnCell g id x y) then 1 else 0 := by
  have hnn : g.nrows - 1 + 1 = g.nrows := Nat.succ_pred_eq_of_pos hn
  have hmm2 : g.ncols - 1 + 1 = g.ncols := Nat.succ_pred_eq_of_pos hm
  rw [count_eq_lcount, msPushes_eq, lcount_append, lcount_append, lcount_append, lcount_append,
    lcount_ph1, lcount_ph2, lcount_ph3, lcount_ph4, lcount_ph5]
  simp only [hnn, hmm2, Prod.mk.injEq, Coord.mk.injEq]
  rw [if_neg (show ¬ (y < g.nrows ∧ g.val y 0 = id ∧ (0 = x ∧ True) ∧ 0 = x + 1 ∧ y + 1 = y)
        from fun h => by obtain ⟨-, -, -, h4, -⟩ := h; omega),
    if_neg (show ¬ (y < g.nrows ∧ g.val y (g.ncols - 1) = id ∧ (g.ncols = x ∧ True) ∧
          g.ncols = x + 1 ∧ y + 1 = y)
        from fun h => by obtain ⟨-, -, -, -, h5⟩ := h; omega),
    if_neg (show ¬ (y < g.nrows - 1 ∧ x - 1 < g.ncols - 1 ∧
          g.val y (x - 1) ≠ g.val y (x - 1 + 1) ∧ g.val y (x - 1) = id ∧
          (x - 1 + 1 = x ∧ True) ∧ x - 1 + 1 = x + 1 ∧ y + 1 = y)
        from fun h => by obtain ⟨-, -, -, -, -, -, h7⟩ := h; omega),
    if_neg (show ¬ (y < g.nrows - 1 ∧ x - 1 < g.ncols - 1 ∧
          g.val y (x - 1) ≠ g.val y (x - 1 + 1) ∧ g.val y (x - 1 + 1) = id ∧
          (x - 1 + 1 = x ∧ True) ∧ x - 1 + 1 = x + 1 ∧ y + 1 = y)
        from fun h => by obtain ⟨-, -, -, -, -, -, h7⟩ := h; omega),
    if_neg (show ¬ (x - 1 < g.ncols - 1 ∧
          g.val (g.nrows - 1) (x - 1) ≠ g.val (g.nrows - 1) (x - 1 + 1) ∧
          g.val (g.nrows - 1) (x - 1) = id ∧ (x - 1 + 1 = x ∧ g.nrows - 1 = y) ∧
          x - 1 + 1 = x + 1 ∧ g.nrows = y)
        from fun h => by obtain ⟨-, -, -, ⟨h4, -⟩, h5, -⟩ := h; omega),
    if_neg (show ¬ (x - 1 < g.ncols - 1 ∧
          g.val (g.nrows - 1) (x - 1) ≠ g.val (g.nrows - 1) (x - 1 + 1) ∧
          g.val (g.nrows - 1) (x - 1 + 1) = id ∧ (x - 1 + 1 = x ∧ g.nrows - 1 = y) ∧
          x - 1 + 1 = x + 1 ∧ g.nrows = y)
        from fun h => by obtain ⟨-, -, -, ⟨h4, -⟩, h5, -⟩ := h; omega)]
  simp only [add_zero, zero_add]
  rcases Nat.lt_or_ge y 1 with hy0 | hy1
  · have hy : y = 0 := by omega
    subst hy
    have hpos : 0 < g.nrows := hn
    have hnz : ¬ g.nrows = 0 := by omega
    by_cases hx : x < g.ncols <;> by_cases ha : g.val 0 x = id <;>
      simp [upCell, dnCell, Xor', hx, ha, hpos, hnz]
  · have hyy : y - 1 + 1 = y := by omega
    rw [hyy]
    rcases Nat.lt_trichotomy y g.nrows with hylt | hyeq | hygt
    · have f1 : y - 1 < g.nrows - 1 := by omega
      have f3 : y ≤ g.nrows := by omega
      have fn0 : ¬ ((0 : Nat) = y) := by omega
      have fnn : ¬ (g.nrows = y) := by omega
      rcases Nat.lt_trichotomy x (g.ncols - 1) with hxlt | hxeq | hxgt
      · have f5 : ¬ (g.ncols = x + 1) := by omega
        have f6 : x < g.ncols := by omega
        by_cases ha : g.val (y - 1) x = id <;> by_cases hb : g.val y x = id
        · simp [upCell, dnCell, Xor', ha, hb, f1, hxlt, hy1, f3, hylt, f6, fn0, fnn, f5]
        · have hb' : ¬ (id = g.val y x) := fun h => hb h.symm
          simp [upCell, dnCell, Xor', ha, hb, hb', f1, hxlt, hy1, f3, hylt, f6, fn0, fnn, f5]
        · have ha' : ¬ (id = g.val (y - 1) x) := fun h => ha h.symm
          simp [upCell, dnCell, Xor', ha, ha', hb, f1, hxlt, hy1, f3, hylt, f6, fn0, fnn, f5]
        · simp [upCell, dnCell, Xor', ha, hb, f1, hxlt, hy1, f3, hylt, f6, fn0, fnn, f5]
      · subst hxeq
        have f6 : g.ncols - 1 < g.ncols := by omega
        have f7 : ¬ (g.ncols - 1 < g.ncols - 1) := by omega
        by_cases ha : g.val (y - 1) (g.ncols - 1) = id <;>
          by_cases hb : g.val y (g.ncols - 1) = id
        · simp [upCell, dnCell, Xor', ha, hb, f1, f7, hy1, f3, hylt, f6, fn0, fnn, hmm2]
        · have hb' : ¬ (id = g.val y (g.ncols - 1)) := fun h => hb h.symm
          simp [upCell, dnCell, Xor', ha, hb, hb', f1, f7, hy1, f3, hylt, f6, fn0, fnn, hmm2]
        · have ha' : ¬ (id = g.val (y - 1) (g.ncols - 1)) := fun h => ha h.symm
          simp [upCell, dnCell, Xor', ha, ha', hb, f1, f7, hy1, f3, hylt, f6, fn0, fnn, hmm2]
        · simp [upCell, dnCell, Xor', ha, hb, f1, f7, hy1, f3, hylt, f6, fn0, fnn, hmm2]
      · have f7 : ¬ (x < g.ncols - 1) := by omega
        have f10 : ¬ (x < g.ncols) := by omega
        have f5 : ¬ (g.ncols = x + 1) := by omega
        simp [upCell, dnCell, Xor', f7, f10, f5, fn0, fnn]
    · subst hyeq
      have f11 : ¬ (g.nrows - 1 < g.nrows - 1) := by omega
      have fn0 : ¬ ((0 : Nat) = g.nrows) := by omega
      have f12 : ¬ (g.nrows < g.nrows) := by omega
      by_cases hx : x < g.ncols <;> by_cases ha : g.val (g.nrows - 1) x = id <;>
        simp [upCell, dnCell, Xor', hx, ha, f11, fn0, f12, hn, le_refl]
    · have fn0 : ¬ ((0 : Nat) = y) := by omega
      have fnn : ¬ (g.nrows = y) := by omega
      have f13 : ¬ (y - 1 < g.nrows - 1) := by omega
      have f14 : ¬ (y ≤ g.nrows) := by omega
      have f15 : ¬ (y < g.nrows) := by omega
      simp [upCell, dnCell, Xor', fn0, fnn, f13, f14, f15]

theorem count_ms_vertical {α : Type} [DecidableEq α] (g : Array2 α) (hn : 1 ≤ g.nrows)
    (hm : 1 ≤ g.ncols) (id : α) (x y : Nat) :
    (marching_squares g id).count ((⟨x, y⟩, ⟨x, y + 1⟩) : GEdge) =
      if Xor' (ltCell g id x y) (rtCell g id x y) then 1 else 0 := by
  have hnn : g.nrows - 1 + 1 = g.nrows := Nat.succ_pred_eq_of_pos hn
  have hmm2 : g.ncols - 1 + 1 = g.ncols := Nat.succ_pred_eq_of_pos hm
  rw [count_eq_lcount, msPushes_eq, lcount_append, lcount_append, lcount_append, lcount_append,
    lcount_ph1, lcount_ph2, lcount_ph3, lcount_ph4, lcount_ph5]
  simp only [hnn, hmm2, Prod.mk.injEq, Coord.mk.injEq]
  rw [if_neg (show ¬ (x < g.ncols ∧ g.val 0 x = id ∧ (True ∧ 0 = y) ∧ x + 1 = x ∧ 0 = y + 1)
        from fun h => by obtain ⟨-, -, -, h4, -⟩ := h; omega),
    if_neg (show ¬ (x < g.ncols ∧ g.val (g.nrows - 1) x = id ∧ (True ∧ g.nrows = y) ∧
          x + 1 = x ∧ g.nrows = y + 1)
        from fun h => by obtain ⟨-, -, -, h4, -⟩ := h; omega),
    if_neg (show ¬ (y - 1 < g.nrows - 1 ∧ x < g.ncols - 1 ∧
          g.val (y - 1) x ≠ g.val (y - 1 + 1) x ∧ g.val (y - 1) x = id ∧
          (True ∧ y - 1 + 1 = y) ∧ x + 1 = x ∧ y - 1 + 1 = y + 1)
        from fun h => by obtain ⟨-, -, -, -, -, h6, -⟩ := h; omega),
    if_neg (show ¬ (y - 1 < g.nrows - 1 ∧ x < g.ncols - 1 ∧
          g.val (y - 1) x ≠ g.val (y - 1 + 1) x ∧ g.val (y - 1 + 1) x = id ∧
          (True ∧ y - 1 + 1 = y) ∧ x + 1 = x ∧ y - 1 + 1 = y + 1)
        from fun h => by obtain ⟨-, -, -, -, -, h6, -⟩ := h; omega),
    if_neg (show ¬ (y - 1 < g.nrows - 1 ∧
          g.val (y - 1) (g.ncols - 1) ≠ g.val (y - 1 + 1) (g.ncols - 1) ∧
          g.val (y - 1) (g.ncols - 1) = id ∧ (g.ncols - 1 = x ∧ y - 1 + 1 = y) ∧
          g.ncols = x ∧ y - 1 + 1 = y + 1)
        from fun h => by obtain ⟨-, -, -, ⟨-, h4⟩, -, h6⟩ := h; omega),
    if_neg (show ¬ (y - 1 < g.nrows - 1 ∧
          g.val (y - 1) (g.ncols - 1) ≠ g.val (y - 1 + 1) (g.ncols - 1) ∧
          g.val (y - 1 + 1) (g.ncols - 1) = id ∧ (g.ncols - 1 = x ∧ y - 1 + 1 = y) ∧
          g.ncols = x ∧ y - 1 + 1 = y + 1)
        from fun h => by obtain ⟨-, -, -, ⟨-, h4⟩, -, h6⟩ := h; omega)]
  simp only [add_zero, zero_add]
  rcases Nat.lt_or_ge x 1 with hx0 | hx1
  · have hx : x = 0 := by omega
    subst hx
    have hpos : 0 < g.ncols := hm
    have hmz : ¬ g.ncols = 0 := by omega
    by_cases hy : y < g.nrows <;> by_cases ha : g.val y 0 = id <;>
      simp [ltCell, rtCell, Xor', hy, ha, hpos, hmz]
  · have hxx : x - 1 + 1 = x := by omega
    rw [hxx]
    rcases Nat.lt_trichotomy x g.ncols with hxlt | hxeq | hxgt
    · have f1 : x - 1 < g.ncols - 1 := by omega
      have f3 : x ≤ g.ncols := by omega
      have fn0 : ¬ ((0 : Nat) = x) := by omega
      have fnm : ¬ (g.ncols = x) := by omega
      rcases Nat.lt_trichotomy y (g.nrows - 1) with hylt | hyeq | hygt
      · have f5 : ¬ (g.nrows - 1 = y) := by omega
        have f6 : y < g.nrows := by omega
        by_cases ha : g.val y (x - 1) = id <;> by_cases hb : g.val y x = id
        · simp [ltCell, rtCell, Xor', ha, hb, f1, hylt, hx1, f3, hxlt, f6, fn0, fnm, f5]
        · have hb' : ¬ (id = g.val y x) := fun h => hb h.symm
          simp [ltCell, rtCell, Xor', ha, hb, hb', f1, hylt, hx1, f3, hxlt, f6, fn0, fnm, f5]
        · have ha' : ¬ (id = g.val y (x - 1)) := fun h => ha h.symm
          simp [ltCell, rtCell, Xor', ha, ha', hb, f1, hylt, hx1, f3, hxlt, f6, fn0, fnm, f5]
        · simp [ltCell, rtCell, Xor', ha, hb, f1, hylt, hx1, f3, hxlt, f6, fn0, fnm, f5]
      · have f7 : ¬ (y < g.nrows - 1) := by omega
        have f6 : y < g.nrows := by omega
        subst hyeq
        by_cases ha : g.val (g.nrows - 1) (x - 1) = id <;>
          by_cases hb : g.val (g.nrows - 1) x = id
        · simp [ltCell, rtCell, Xor', ha, hb, f1, f7, hx1, f3, hxlt, f6, fn0, fnm, hnn]
        · have hb' : ¬ (id = g.val (g.nrows - 1) x) := fun h => hb h.symm
          simp [ltCell, rtCell, Xor', ha, hb, hb', f1, f7, hx1, f3, hxlt, f6, fn0, fnm, hnn]
        · have ha' : ¬ (id = g.val (g.nrows - 1) (x - 1)) := fun h => ha h.symm
          simp [ltCell, rtCell, Xor', ha, ha', hb, f1, f7, hx1, f3, hxlt, f6, fn0, fnm, hnn]
        · simp [ltCell, rtCell, Xor', ha, hb, f1, f7, hx1, f3, hxlt, f6, fn0, fnm, hnn]
      · have f7 : ¬ (y < g.nrows - 1) := by omega
        have f8 : ¬ (g.nrows - 1 = y) := by omega
        have f9 : ¬ (y < g.nrows) := by omega
        simp [ltCell, rtCell, Xor', f7, f8, f9, fn0, fnm]
    · subst hxeq
      have f10 : ¬ (g.ncols - 1 < g.ncols - 1) := by omega
      have fn0 : ¬ ((0 : Nat) = g.ncols) := by omega
      have f12 : ¬ (g.ncols < g.ncols) := by omega
      by_cases hy : y < g.nrows <;> by_cases ha : g.val y (g.ncols - 1) = id <;>
        simp [ltCell, rtCell, Xor', hy, ha, f10, fn0, f12, hm, le_refl]
    · have fn0 : ¬ ((0 : Nat) = x) := by omega
      have fnm : ¬ (g.ncols = x) := by omega
      have f13 : ¬ (x - 1 < g.ncols - 1) := by omega
      have f14 : ¬ (x ≤ g.ncols) := by omega
      have f15 : ¬ (x < g.ncols) := by omega
      simp [ltCell, rtCell, Xor', fn0, fnm, f13, f14, f15]

theorem count_ms_other {α : Type} [DecidableEq α] (g : Array2 α) (id : α) (e : GEdge)
    (h1 : e.2 ≠ ⟨e.1.x + 1, e.1.y⟩) (h2 : e.2 ≠ ⟨e.1.x, e.1.y + 1⟩) :
    (marching_squares g id).count e = 0 := by
  rw [count_eq_lcount, msPushes_eq, lcount_append, lcount_append, lcount_append, lcount_append,
    lcount_ph1, lcount_ph2, lcount_ph3, lcount_ph4, lcount_ph5]
  rw [if_neg (fun h : _ ∧ _ => h1 (by rw [← h.2.2])),
    if_neg (fun h : _ ∧ _ => h1 (by rw [← h.2.2])),
    if_neg (fun h : _ ∧ _ => h2 (by rw [← h.2.2])),
    if_neg (fun h : _ ∧ _ => h2 (by rw [← h.2.2])),
    if_neg (fun h : _ ∧ _ => h2 (by rw [← h.2.2.2.2])),
    if_neg (fun h : _ ∧ _ => h2 (by rw [← h.2.2.2.2])),
    if_neg (fun h : _ ∧ _ => h1 (by rw [← h.2.2.2.2])),
    if_neg (fun h : _ ∧ _ => h1 (by rw [← h.2.2.2.2])),
    if_neg (fun h : _ ∧ _ => h1 (by rw [← h.2.2.2])),
    if_neg (fun h : _ ∧ _ => h1 (by rw [← h.2.2.2])),
    if_neg (fun h : _ ∧ _ => h2 (by rw [← h.2.2.2])),
    if_neg (fun h : _ ∧ _ => h2 (by rw [← h.2.2.2]))]

theorem mem_ms_horizontal_iff (g : Array2 α) (hn : 1 ≤ g.nrows) (hm : 1 ≤ g.ncols)
    (id : α) (x y : Nat) :
    ((⟨x, y⟩, ⟨x + 1, y⟩) : GEdge) ∈ marching_squares g id ↔
      Xor' (upCell g id x y) (dnCell g id x y) := by
  rw [← List.count_pos_iff, count_ms_horizontal g hn hm]
  split
  · next h => simpa using h
  · next h => simpa using h

theorem mem_ms_vertical_iff (g : Array2 α) (hn : 1 ≤ g.nrows) (hm : 1 ≤ g.ncols)
    (id : α) (x y : Nat) :
    ((⟨x, y⟩, ⟨x, y + 1⟩) : GEdge) ∈ marching_squares g id ↔
      Xor' (ltCell g id x y) (rtCell g id x y) := by
  rw [← List.count_pos_iff, count_ms_vertical g hn hm]
  split
  · next h => simpa using h
  · next h => simpa using h

theorem not_mem_ms_other (g : Array2 α) (id : α) (e : GEdge)
    (h1 : e.2 ≠ ⟨e.1.x + 1, e.1.y⟩) (h2 : e.2 ≠ ⟨e.1.x, e.1.y + 1⟩) :
    e ∉ marching_squares g id := by
  intro hmem
  have := List.count_pos_iff.2 hmem
  rw [count_ms_other g id e h1 h2] at this
  omega

/-- Every edge of a label's list has exactly-one-id-side; in particular each
edge occurs at most once in the list (the multiset has no duplicates). -/
theorem count_ms_le_one (g : Array2 α) (hn : 1 ≤ g.nrows) (hm : 1 ≤ g.ncols)
    (id : α) (e : GEdge) :
    (marching_squares g id).count e ≤ 1 := by
  have he : e = ((⟨e.1.x, e.1.y⟩ : Coord), e.2) := rfl
  by_cases h1 : e.2 = ⟨e.1.x + 1, e.1.y⟩
  · rw [he, h1, count_ms_horizontal g hn hm]
    split <;> omega
  · by_cases h2 : e.2 = ⟨e.1.x, e.1.y + 1⟩
    · rw [he, h2, count_ms_vertical g hn hm]
      split <;> omega
    · rw [count_ms_other g id e h1 h2]
      omega

/-- Claim C6: the edge-attribution rule of `marching_squares`.  (1) The unit
edge between two horizontally adjacent cells with differing labels is in both
cells' labels' lists; (2) likewise for vertically adjacent cells; (3) each
top/bottom border edge is in the bordering cell's own label's list and in no
other label's list; (4) likewise for left/right border edges; (5) a label
whose list is nonempty (a key of the result map) occurs in the grid, so no
"outside" label is ever materialized. -/
theorem c6_edge_attribution {α : Type} [DecidableEq α] (g : Array2 α)
    (hn : 1 ≤ g.nrows) (hm : 1 ≤ g.ncols) :
    (∀ r c, r < g.nrows → c + 1 < g.ncols → g.val r c ≠ g.val r (c + 1) →
      ((⟨c + 1, r⟩, ⟨c + 1, r + 1⟩) : GEdge) ∈ marching_squares g (g.val r c) ∧
      ((⟨c + 1, r⟩, ⟨c + 1, r + 1⟩) : GEdge) ∈ marching_squares g (g.val r (c + 1))) ∧
    (∀ r c, r + 1 < g.nrows → c < g.ncols → g.val r c ≠ g.val (r + 1) c →
      ((⟨c, r + 1⟩, ⟨c + 1, r + 1⟩) : GEdge) ∈ marching_squares g (g.val r c) ∧
      ((⟨c, r + 1⟩, ⟨c + 1, r + 1⟩) : GEdge) ∈ marching_squares g (g.val (r + 1) c)) ∧
    (∀ c, c < g.ncols →
      (((⟨c, 0⟩, ⟨c + 1, 0⟩) : GEdge) ∈ marching_squares g (g.val 0 c) ∧
        ∀ id, id ≠ g.val 0 c → ((⟨c, 0⟩, ⟨c + 1, 0⟩) : GEdge) ∉ marching_squares g id) ∧
      (((⟨c, g.nrows⟩, ⟨c + 1, g.nrows⟩) : GEdge) ∈ marching_squares g (g.val (g.nrows - 1) c) ∧
        ∀ id, id ≠ g.val (g.nrows - 1) c →
          ((⟨c, g.nrows⟩, ⟨c + 1, g.nrows⟩) : GEdge) ∉ marching_squares g id)) ∧
    (∀ r, r < g.nrows →
      (((⟨0, r⟩, ⟨0, r + 1⟩) : GEdge) ∈ marching_squares g (g.val r 0) ∧
        ∀ id, id ≠ g.val r 0 → ((⟨0, r⟩, ⟨0, r + 1⟩) : GEdge) ∉ marching_squares g id) ∧
      (((⟨g.ncols, r⟩, ⟨g.ncols, r + 1⟩) : GEdge) ∈ marching_squares g (g.val r (g.ncols - 1)) ∧
        ∀ id, id ≠ g.val r (g.ncols - 1) →
          ((⟨g.ncols, r⟩, ⟨g.ncols, r + 1⟩) : GEdge) ∉ marching_squares g id)) ∧
    (∀ id : α, marching_squares g id ≠ [] →
      ∃ r c, r < g.nrows ∧ c < g.ncols ∧ g.val r c = id) := by
  refine ⟨?_, ?_, ?_, ?_, ?_⟩
  · intro r c hr hc hne
    constructor
    · rw [mem_ms_vertical_iff g hn hm]
      exact Or.inl ⟨⟨by omega, by omega, hr, by simp⟩,
        fun hrt => hne (hrt.2.2.symm ▸ by simp)⟩
    · rw [mem_ms_vertical_iff g hn hm]
      exact Or.inr ⟨⟨hc, hr, rfl⟩, fun hlt => hne (by simpa using hlt.2.2.2)⟩
  · intro r c hr hc hne
    constructor
    · rw [mem_ms_horizontal_iff g hn hm]
      exact Or.inl ⟨⟨by omega, by omega, hc, by simp⟩,
        fun hdn => hne (hdn.2.2.symm ▸ by simp)⟩
    · rw [mem_ms_horizontal_iff g hn hm]
      exact Or.inr ⟨⟨hr, hc, rfl⟩, fun hup => hne (by simpa using hup.2.2.2)⟩
  · intro c hc
    constructor
    · constructor
      · rw [mem_ms_horizontal_iff g hn hm]
        exact Or.inr ⟨⟨hn, hc, rfl⟩, fun hup => by
          have := hup.1
          omega⟩
      · intro id hid
        rw [mem_ms_horizontal_iff g hn hm]
        rintro (⟨hup, -⟩ | ⟨hdn, -⟩)
        · have := hup.1
          omega
        · exact hid hdn.2.2.symm
    · constructor
      · rw [mem_ms_horizontal_iff g hn hm]
        exact Or.inl ⟨⟨hn, le_refl _, hc, rfl⟩, fun hdn => by
          have := hdn.1
          omega⟩
      · intro id hid
        rw [mem_ms_horizontal_iff g hn hm]
        rintro (⟨hup, -⟩ | ⟨hdn, -⟩)
        · exact hid hup.2.2.2.symm
        · have := hdn.1
          omega
  · intro r hr
    constructor
    · constructor
      · rw [mem_ms_vertical_iff g hn hm]
        exact Or.inr ⟨⟨hm, hr, rfl⟩, fun hlt => by
          have := hlt.1
          omega⟩
      · intro id hid
        rw [mem_ms_vertical_iff g hn hm]
        rintro (⟨hlt, -⟩ | ⟨hrt, -⟩)
        · have := hlt.1
          omega
        · exact hid hrt.2.2.symm
    · constructor
      · rw [mem_ms_vertical_iff g hn hm]
        exact Or.inl ⟨⟨hm, le_refl _, hr, rfl⟩, fun hrt => by
          have := hrt.1
          omega⟩
      · intro id hid
        rw [mem_ms_vertical_iff g hn hm]
        rintro (⟨hlt, -⟩ | ⟨hrt, -⟩)
        · exact hid hlt.2.2.2.symm
        · have := hrt.1
          omega
  · intro id hne
    obtain ⟨e, he⟩ := List.exists_mem_of_ne_nil _ hne
    have heq : e = ((⟨e.1.x, e.1.y⟩ : Coord), e.2) := rfl
    by_cases h1 : e.2 = ⟨e.1.x + 1, e.1.y⟩
    · rw [heq, h1, mem_ms_horizontal_iff g hn hm] at he
      rcases he with ⟨hup, -⟩ | ⟨hdn, -⟩
      · exact ⟨e.1.y - 1, e.1.x, by have h3 := hup.1; have h4 := hup.2.1; omega,
          hup.2.2.1, hup.2.2.2⟩
      · exact ⟨e.1.y, e.1.x, hdn.1, hdn.2.1, hdn.2.2⟩
    · by_cases h2 : e.2 = ⟨e.1.x, e.1.y + 1⟩
      · rw [heq, h2, mem_ms_vertical_iff g hn hm] at he
        rcases he with ⟨hlt, -⟩ | ⟨hrt, -⟩
        · exact ⟨e.1.y, e.1.x - 1, hlt.2.2.1,
            by have h3 := hlt.1; have h4 := hlt.2.1; omega, hlt.2.2.2⟩
        · exact ⟨e.1.y, e.1.x, hrt.2.1, hrt.1, hrt.2.2⟩
      · exact absurd he (not_mem_ms_other g id e h1 h2)

/-- A label occurring anywhere in the grid has at least one boundary edge:
walk up the column from the cell to the first row where the label run starts;
either the grid border or the differing cell above yields an edge. -/
theorem ms_nonempty_of_cell {α : Type} [DecidableEq α] (g : Array2 α)
    (hn : 1 ≤ g.nrows) (hm : 1 ≤ g.ncols) (id : α) :
    ∀ r, r < g.nrows → ∀ c, c < g.ncols → g.val r c = id →
      marching_squares g id ≠ [] := by
  intro r
  induction r using Nat.strong_induction_on with
  | _ r ih =>
    intro hr c hc hval
    match r, hval with
    | 0, hval =>
      refine List.ne_nil_of_mem (a := ((⟨c, 0⟩, ⟨c + 1, 0⟩) : GEdge)) ?_
      rw [mem_ms_horizontal_iff g hn hm]
      exact Or.inr ⟨⟨hn, hc, hval⟩, fun hup => by have := hup.1; omega⟩
    | r' + 1, hval =>
      by_cases hup : g.val r' c = id
      · exact ih r' (by omega) (by omega) c hc hup
      · refine List.ne_nil_of_mem (a := ((⟨c, r' + 1⟩, ⟨c + 1, r' + 1⟩) : GEdge)) ?_
        rw [mem_ms_horizontal_iff g hn hm]
        exact Or.inr ⟨⟨hr, hc, hval⟩,
          fun hupc => hup (by simpa using hupc.2.2.2)⟩

/-- Claim C10: for a grid with at least one row and one column, the key set
of the map returned by `marching_squares` is exactly the set of labels
occurring in the grid.  A label is a key of the Rust `HashMap` exactly when
its edge list is nonempty (every `entry(..).or_default()` is immediately
followed by a push), so the statement reads: the list of a label is nonempty
iff the label occurs in a cell. -/
theorem c10_keys_are_grid_labels {α : Type} [DecidableEq α] (g : Array2 α)
    (hn : 1 ≤ g.nrows) (hm : 1 ≤ g.ncols) (id : α) :
    marching_squares g id ≠ [] ↔
      ∃ r c, r < g.nrows ∧ c < g.ncols ∧ g.val r c = id := by
  constructor
  · intro hne
    obtain ⟨e, he⟩ := List.exists_mem_of_ne_nil _ hne
    have heq : e = ((⟨e.1.x, e.1.y⟩ : Coord), e.2) := rfl
    by_cases h1 : e.2 = ⟨e.1.x + 1, e.1.y⟩
    · rw [heq, h1, mem_ms_horizontal_iff g hn hm] at he
      rcases he with ⟨hup, -⟩ | ⟨hdn, -⟩
      · exact ⟨e.1.y - 1, e.1.x, by have h3 := hup.1; have h4 := hup.2.1; omega,
          hup.2.2.1, hup.2.2.2⟩
      · exact ⟨e.1.y, e.1.x, hdn.1, hdn.2.1, hdn.2.2⟩
    · by_cases h2 : e.2 = ⟨e.1.x, e.1.y + 1⟩
      · rw [heq, h2, mem_ms_vertical_iff g hn hm] at he
        rcases he with ⟨hlt, -⟩ | ⟨hrt, -⟩
        · exact ⟨e.1.y, e.1.x - 1, hlt.2.2.1,
            by have h3 := hlt.1; have h4 := hlt.2.1; omega, hlt.2.2.2⟩
        · exact ⟨e.1.y, e.1.x, hrt.2.1, hrt.1, hrt.2.2⟩
      · exact absurd he (not_mem_ms_other g id e h1 h2)
  · rintro ⟨r, c, hr, hc, hval⟩
    exact ms_nonempty_of_cell g hn hm id r hr c hc hval

/-- Witness for `c6_edge_attribution` at a concrete grid. -/
theorem c6_edge_attribution_witness :
    (1 ≤ (mkGrid 1 2 [[0, 1]]).nrows ∧ 1 ≤ (mkGrid 1 2 [[0, 1]]).ncols) ∧
      ((⟨1, 0⟩, ⟨1, 1⟩) : GEdge) ∈ marching_squares (mkGrid 1 2 [[0, 1]]) 0 ∧
      ((⟨1, 0⟩, ⟨1, 1⟩) : GEdge) ∈ marching_squares (mkGrid 1 2 [[0, 1]]) 1 :=
  ⟨⟨by decide, by decide⟩,
    (c6_edge_attribution (mkGrid 1 2 [[0, 1]]) (by decide) (by decide)).1 0 0
      (by decide) (by decide) (by decide)⟩

/-- Witness for `c10_keys_are_grid_labels` at a concrete grid. -/
theorem c10_keys_witness :
    (1 ≤ (mkGrid 1 2 [[0, 1]]).nrows ∧ 1 ≤ (mkGrid 1 2 [[0, 1]]).ncols) ∧
      (marching_squares (mkGrid 1 2 [[0, 1]]) 1 ≠ [] ↔
        ∃ r c, r < (mkGrid 1 2 [[0, 1]]).nrows ∧ c < (mkGrid 1 2 [[0, 1]]).ncols ∧
          (mkGrid 1 2 [[0, 1]]).val r c = 1) :=
  ⟨⟨by decide, by decide⟩, c10_keys_are_grid_labels (mkGrid 1 2 [[0, 1]]) (by decide) (by decide) 1⟩

theorem coord_ext {a b : Coord} (hx : a.x = b.x) (hy : a.y = b.y) : a = b := by
  cases a
  cases b
  cases hx
  cases hy
  rfl

theorem coord_eq_iff {a b : Coord} : a = b ↔ a.x = b.x ∧ a.y = b.y :=
  ⟨fun h => by rw [h]; exact ⟨rfl, rfl⟩, fun h => coord_ext h.1 h.2⟩

theorem count_adjOf (W : List GEdge) (v u : Coord) :
    (adjOf W v).count u = W.count (v, u) + W.count (u, v) := by
  induction W with
  | nil => rfl
  | cons e t ih =>
    rw [adjOf, List.flatMap_cons, List.count_append, List.count_append, ← adjOf,
      List.count_cons, List.count_cons, ih]
    simp only [beq_iff_eq]
    have h1 : ((if e.1 = v then [e.2] else []).count u) = if e = (v, u) then 1 else 0 := by
      by_cases h : e.1 = v
      · by_cases h2 : e.2 = u
        · have hvu : e = (v, u) := by rw [← h, ← h2]
          simp [h, h2, hvu]
        · have hvu : ¬ (e = (v, u)) := fun hh => h2 (by rw [hh])
          have h2s : ¬ (u = e.2) := fun hh => h2 hh.symm
          simp [h, h2s, hvu]
      · have hvu : ¬ (e = (v, u)) := fun hh => h (by rw [hh])
        simp [h, hvu]
    have h2 : ((if e.2 = v then [e.1] else []).count u) = if e = (u, v) then 1 else 0 := by
      by_cases h : e.2 = v
      · by_cases h2 : e.1 = u
        · have hvu : e = (u, v) := by rw [← h, ← h2]
          simp [h, h2, hvu]
        · have hvu : ¬ (e = (u, v)) := fun hh => h2 (by rw [hh])
          have h2s : ¬ (u = e.1) := fun hh => h2 hh.symm
          simp [h, h2s, hvu]
      · have hvu : ¬ (e = (u, v)) := fun hh => h (by rw [hh])
        simp [h, hvu]
    rw [h1, h2]
    omega

theorem mem_adjOf {W : List GEdge} {v u : Coord} :
    u ∈ adjOf W v ↔ ∃ e ∈ W, e = (v, u) ∨ e = (u, v) := by
  rw [adjOf, List.mem_flatMap]
  constructor
  · rintro ⟨e, he, hu⟩
    rw [List.mem_append] at hu
    rcases hu with hu | hu
    · by_cases h : e.1 = v
      · rw [if_pos h, List.mem_singleton] at hu
        exact ⟨e, he, Or.inl (by rw [← h, hu])⟩
      · rw [if_neg h] at hu
        exact absurd hu (List.not_mem_nil u)
    · by_cases h : e.2 = v
      · rw [if_pos h, List.mem_singleton] at hu
        exact ⟨e, he, Or.inr (by rw [← h, hu])⟩
      · rw [if_neg h] at hu
        exact absurd hu (List.not_mem_nil u)
  · rintro ⟨e, he, heq | heq⟩ <;> subst heq
    · exact ⟨(v, u), he, by simp⟩
    · exact ⟨(u, v), he, by simp⟩

/-- Every edge in a label's extracted list is a stored-form unit edge whose
coordinates lie within the vertex lattice of the grid. -/
theorem ms_shape {α : Type} [DecidableEq α] (g : Array2 α) (hn : 1 ≤ g.nrows)
    (hm : 1 ≤ g.ncols) (id : α) (e : GEdge) (he : e ∈ marching_squares g id) :
    (e.2 = ⟨e.1.x + 1, e.1.y⟩ ∧ e.1.x + 1 ≤ g.ncols ∧ e.1.y ≤ g.nrows) ∨
    (e.2 = ⟨e.1.x, e.1.y + 1⟩ ∧ e.1.x ≤ g.ncols ∧ e.1.y + 1 ≤ g.nrows) := by
  have heq : e = ((⟨e.1.x, e.1.y⟩ : Coord), e.2) := rfl
  by_cases h1 : e.2 = ⟨e.1.x + 1, e.1.y⟩
  · rw [heq, h1, mem_ms_horizontal_iff g hn hm] at he
    refine Or.inl ⟨h1, ?_⟩
    rcases he with ⟨hup, -⟩ | ⟨hdn, -⟩
    · obtain ⟨a, b, c, -⟩ := hup
      omega
    · obtain ⟨a, b, -⟩ := hdn
      omega
  · by_cases h2 : e.2 = ⟨e.1.x, e.1.y + 1⟩
    · rw [heq, h2, mem_ms_vertical_iff g hn hm] at he
      refine Or.inr ⟨h2, ?_⟩
      rcases he with ⟨hlt, -⟩ | ⟨hrt, -⟩
      · obtain ⟨a, b, c, -⟩ := hlt
        omega
      · obtain ⟨a, b, -⟩ := hrt
        omega
    · exact absurd he (not_mem_ms_other g id e h1 h2)

/-- In any sub-multiset of a label's extracted edge list, an adjacency list
never repeats a neighbour. -/
theorem adjOf_nodup {α : Type} [DecidableEq α] (g : Array2 α) (hn : 1 ≤ g.nrows)
    (hm : 1 ≤ g.ncols) (id : α) (W : List GEdge)
    (hW : W.Sublist (marching_squares g id)) (v : Coord) : (adjOf W v).Nodup := by
  rw [List.nodup_iff_count_le_one]
  intro u
  rw [count_adjOf]
  have hc1 : W.count (v, u) ≤ (marching_squares g id).count (v, u) := hW.count_le _
  have hc2 : W.count (u, v) ≤ (marching_squares g id).count (u, v) := hW.count_le _
  by_cases hvu : (v, u) ∈ marching_squares g id
  · by_cases huv : (u, v) ∈ marching_squares g id
    · exfalso
      rcases ms_shape g hn hm id _ hvu with ⟨h1, -⟩ | ⟨h1, -⟩ <;>
        rcases ms_shape g hn hm id _ huv with ⟨h2, -⟩ | ⟨h2, -⟩ <;>
          simp only [coord_eq_iff] at h1 h2 <;> omega
    · have hc3 := count_ms_le_one g hn hm id (v, u)
      have hc4 : (marching_squares g id).count (u, v) = 0 :=
        List.count_eq_zero.2 huv
      omega
  · have hc3 : (marching_squares g id).count (v, u) = 0 := List.count_eq_zero.2 hvu
    have hc4 := count_ms_le_one g hn hm id (u, v)
    omega

/-- Each neighbour in an adjacency list built from extracted edges is one of
the four lattice neighbours of the vertex, with the grid bounds carried
along. -/
theorem adjOf_candidates {α : Type} [DecidableEq α] (g : Array2 α) (hn : 1 ≤ g.nrows)
    (hm : 1 ≤ g.ncols) (id : α) (W : List GEdge)
    (hW : W.Sublist (marching_squares g id)) (v u : Coord) (hu : u ∈ adjOf W v) :
    (u = ⟨v.x + 1, v.y⟩ ∧ v.x + 1 ≤ g.ncols ∧ v.y ≤ g.nrows) ∨
    (u = ⟨v.x, v.y + 1⟩ ∧ v.x ≤ g.ncols ∧ v.y + 1 ≤ g.nrows) ∨
    (u.x + 1 = v.x ∧ u.y = v.y ∧ v.x ≤ g.ncols ∧ v.y ≤ g.nrows) ∨
    (u.x = v.x ∧ u.y + 1 = v.y ∧ v.x ≤ g.ncols ∧ v.y ≤ g.nrows) := by
  obtain ⟨e, he, heq⟩ := mem_adjOf.1 hu
  have heE : e ∈ marching_squares g id := hW.subset he
  rcases heq with heq | heq <;> subst heq <;>
    rcases ms_shape g hn hm id _ heE with ⟨h1, h2⟩ | ⟨h1, h2⟩ <;>
      simp only [coord_eq_iff] at h1 ⊢ <;> dsimp only at h1 h2
  · exact Or.inl ⟨⟨h1.1, h1.2⟩, h2⟩
  · exact Or.inr (Or.inl ⟨⟨h1.1, h1.2⟩, h2⟩)
  · exact Or.inr (Or.inr (Or.inl ⟨by omega, by omega, by omega, by omega⟩))
  · exact Or.inr (Or.inr (Or.inr ⟨by omega, by omega, by omega, by omega⟩))

/-- A vertex whose adjacency list (over a sub-multiset of a label's extracted
edges) has length 4 is an interior lattice vertex of the grid. -/
theorem deg4_interior {α : Type} [DecidableEq α] (g : Array2 α) (hn : 1 ≤ g.nrows)
    (hm : 1 ≤ g.ncols) (id : α) (W : List GEdge)
    (hW : W.Sublist (marching_squares g id)) (v : Coord)
    (h4 : (adjOf W v).length = 4) :
    1 ≤ v.x ∧ v.x + 1 ≤ g.ncols ∧ 1 ≤ v.y ∧ v.y + 1 ≤ g.nrows := by
  have hnd := adjOf_nodup g hn hm id W hW v
  have hlen : ∀ S : List Coord, adjOf W v ⊆ S → (adjOf W v).length ≤ S.length :=
    fun S hS => (hnd.subperm hS).length_le
  have hx1 : 1 ≤ v.x := by
    by_contra hx
    have hx0 : v.x = 0 := by omega
    have hS : adjOf W v ⊆ [⟨v.x + 1, v.y⟩, ⟨v.x, v.y + 1⟩, ⟨v.x, v.y - 1⟩] := by
      intro u hu
      rcases adjOf_candidates g hn hm id W hW v u hu with
        ⟨h, -⟩ | ⟨h, -⟩ | ⟨h, -⟩ | ⟨ha, hb, -⟩
      · simp [h]
      · simp [h]
      · omega
      · have : u = ⟨v.x, v.y - 1⟩ :=
          coord_ext (show u.x = v.x by omega) (show u.y = v.y - 1 by omega)
        simp [this]
    have := hlen _ hS
    simp at this
    omega
  have hy1 : 1 ≤ v.y := by
    by_contra hy
    have hy0 : v.y = 0 := by omega
    have hS : adjOf W v ⊆ [⟨v.x + 1, v.y⟩, ⟨v.x, v.y + 1⟩, ⟨v.x - 1, v.y⟩] := by
      intro u hu
      rcases adjOf_candidates g hn hm id W hW v u hu with
        ⟨h, -⟩ | ⟨h, -⟩ | ⟨ha, hb, -⟩ | ⟨ha, hb, -⟩
      · simp [h]
      · simp [h]
      · have : u = ⟨v.x - 1, v.y⟩ :=
          coord_ext (show u.x = v.x - 1 by omega) (show u.y = v.y by omega)
        simp [this]
      · omega
    have := hlen _ hS
    simp at this
    omega
  have hx2 : v.x + 1 ≤ g.ncols := by
    by_contra hx
    have hS : adjOf W v ⊆ [⟨v.x - 1, v.y⟩, ⟨v.x, v.y + 1⟩, ⟨v.x, v.y - 1⟩] := by
      intro u hu
      rcases adjOf_candidates g hn hm id W hW v u hu with
        ⟨h, hb, -⟩ | ⟨h, -⟩ | ⟨ha, hb, -⟩ | ⟨ha, hb, -⟩
      · omega
      · simp [h]
      · have : u = ⟨v.x - 1, v.y⟩ :=
          coord_ext (show u.x = v.x - 1 by omega) (show u.y = v.y by omega)
        simp [this]
      · have : u = ⟨v.x, v.y - 1⟩ :=
          coord_ext (show u.x = v.x by omega) (show u.y = v.y - 1 by omega)
        simp [this]
    have := hlen _ hS
    simp at this
    omega
  have hy2 : v.y + 1 ≤ g.nrows := by
    by_contra hy
    have hS : adjOf W v ⊆ [⟨v.x + 1, v.y⟩, ⟨v.x - 1, v.y⟩, ⟨v.x, v.y - 1⟩] := by
      intro u hu
      rcases adjOf_candidates g hn hm id W hW v u hu with
        ⟨h, -⟩ | ⟨h, -, hb⟩ | ⟨ha, hb, -⟩ | ⟨ha, hb, -⟩
      · simp [h]
      · omega
      · have : u = ⟨v.x - 1, v.y⟩ :=
          coord_ext (show u.x = v.x - 1 by omega) (show u.y = v.y by omega)
        simp [this]
      · have : u = ⟨v.x, v.y - 1⟩ :=
          coord_ext (show u.x = v.x by omega) (show u.y = v.y - 1 by omega)
        simp [this]
    have := hlen _ hS
    simp at this
    omega
  exact ⟨hx1, hx2, hy1, hy2⟩

/-- For an interior lattice vertex, `adjcoords` never panics: all `usize`
subtractions and grid accesses succeed, whatever the previous vertex is. -/
theorem adjcoords_ok_of_interior {α : Type} [DecidableEq α] (g : Array2 α) (id : α)
    (v : Coord) (hx1 : 1 ≤ v.x) (hx2 : v.x + 1 ≤ g.ncols)
    (hy1 : 1 ≤ v.y) (hy2 : v.y + 1 ≤ g.nrows) (p : Coord) :
    ∃ q : Coord × Coord, adjcoords p v id g = .ok q := by
  have s1 : natSub v.x 1 = .ok (v.x - 1) := by rw [natSub, if_pos hx1]
  have s2 : natSub v.y 1 = .ok (v.y - 1) := by rw [natSub, if_pos hy1]
  have g1 : g.get? (v.y - 1) (v.x - 1) = .ok (g.val (v.y - 1) (v.x - 1)) := by
    rw [Array2.get?, if_pos ⟨by omega, by omega⟩]
  have g2 : g.get? (v.y - 1) v.x = .ok (g.val (v.y - 1) v.x) := by
    rw [Array2.get?, if_pos ⟨by omega, by omega⟩]
  have g3 : g.get? v.y (v.x - 1) = .ok (g.val v.y (v.x - 1)) := by
    rw [Array2.get?, if_pos ⟨by omega, by omega⟩]
  rw [adjcoords]
  simp only [s1, s2, g1, g2, g3, bind, Except.bind]
  split_ifs <;> exact ⟨_, rfl⟩

/-- Claim C9: whenever `aring` consults `adjcoords` during a run over edges
produced by `marching_squares` — i.e. at a vertex whose current adjacency
list has length 4, the working edge set being a sub-multiset (iterated
`filter`) of the extracted list — that vertex is an interior lattice vertex
(`1 ≤ x ≤ cols-1`, `1 ≤ y ≤ rows-1`), and consequently the `usize`
subtractions `c.x - 1`, `row - 1`, `col - 1` and all grid accesses inside
`adjcoords` succeed for every incoming vertex `p`. -/
theorem c9_knots_interior {α : Type} [DecidableEq α] (g : Array2 α)
    (hn : 1 ≤ g.nrows) (hm : 1 ≤ g.ncols) (id : α) (W : List GEdge)
    (hW : W.Sublist (marching_squares g id)) (v : Coord)
    (h4 : (adjOf W v).length = 4) :
    (1 ≤ v.x ∧ v.x ≤ g.ncols - 1 ∧ 1 ≤ v.y ∧ v.y ≤ g.nrows - 1) ∧
    ∀ p : Coord, ∃ q : Coord × Coord, adjcoords p v id g = .ok q := by
  obtain ⟨hx1, hx2, hy1, hy2⟩ := deg4_interior g hn hm id W hW v h4
  exact ⟨⟨hx1, by omega, hy1, by omega⟩,
    adjcoords_ok_of_interior g id v hx1 hx2 hy1 hy2⟩

/-- Witness for `c9_knots_interior` at the knot grid's centre knot `(2,2)`. -/
theorem c9_knots_interior_witness :
    (1 ≤ knotGrid.nrows ∧ 1 ≤ knotGrid.ncols ∧
      (adjOf (marching_squares knotGrid 1) ⟨2, 2⟩).length = 4) ∧
    (1 ≤ (⟨2, 2⟩ : Coord).x ∧ (⟨2, 2⟩ : Coord).x ≤ knotGrid.ncols - 1 ∧
      1 ≤ (⟨2, 2⟩ : Coord).y ∧ (⟨2, 2⟩ : Coord).y ≤ knotGrid.nrows - 1) ∧
    ∀ p : Coord, ∃ q : Coord × Coord, adjcoords p ⟨2, 2⟩ 1 knotGrid = .ok q :=
  ⟨⟨by decide, by decide, by decide⟩,
    c9_knots_interior knotGrid (by decide) (by decide) 1
      (marching_squares knotGrid 1) (List.Sublist.refl _) ⟨2, 2⟩ (by decide)⟩

/-- Two coordinates one grid unit apart (horizontally or vertically). -/
def UnitStep (a b : Coord) : Prop :=
  (b.x = a.x + 1 ∧ b.y = a.y) ∨ (a.x = b.x + 1 ∧ a.y = b.y) ∨
  (b.x = a.x ∧ b.y = a.y + 1) ∨ (b.x = a.x ∧ a.y = b.y + 1)

theorem unitStep_symm {a b : Coord} (h : UnitStep a b) : UnitStep b a := by
  rcases h with h | h | h | h
  · exact Or.inr (Or.inl h)
  · exact Or.inl h
  · exact Or.inr (Or.inr (Or.inr ⟨h.1.symm, h.2⟩))
  · exact Or.inr (Or.inr (Or.inl ⟨h.1.symm, h.2⟩))

theorem unitStep_ne {a b : Coord} (h : UnitStep a b) : a ≠ b := by
  intro he
  subst he
  rcases h with h | h | h | h <;> omega

/-- Neighbours in an adjacency list over extracted edges are one unit away. -/
theorem adjOf_unitStep {α : Type} [DecidableEq α] (g : Array2 α) (hn : 1 ≤ g.nrows)
    (hm : 1 ≤ g.ncols) (id : α) (W : List GEdge)
    (hW : W.Sublist (marching_squares g id)) (v u : Coord) (hu : u ∈ adjOf W v) :
    UnitStep v u := by
  rcases adjOf_candidates g hn hm id W hW v u hu with
    ⟨h, -⟩ | ⟨h, -⟩ | ⟨ha, hb, -⟩ | ⟨ha, hb, -⟩
  · subst h
    exact Or.inl ⟨rfl, rfl⟩
  · subst h
    exact Or.inr (Or.inr (Or.inl ⟨rfl, rfl⟩))
  · exact Or.inr (Or.inl ⟨ha.symm, hb.symm⟩)
  · exact Or.inr (Or.inr (Or.inr ⟨ha, hb.symm⟩))

theorem adjOf_symm {W : List GEdge} {v u : Coord} (h : u ∈ adjOf W v) : v ∈ adjOf W u := by
  obtain ⟨e, he, heq | heq⟩ := mem_adjOf.1 h
  · exact mem_adjOf.2 ⟨e, he, Or.inr heq⟩
  · exact mem_adjOf.2 ⟨e, he, Or.inl heq⟩

/-- At a degree-4 vertex every unit neighbour is present in the adjacency
list. -/
theorem deg4_all_neighbors {α : Type} [DecidableEq α] (g : Array2 α) (hn : 1 ≤ g.nrows)
    (hm : 1 ≤ g.ncols) (id : α) (W : List GEdge)
    (hW : W.Sublist (marching_squares g id)) (v : Coord)
    (h4 : (adjOf W v).length = 4) (u : Coord) (hu : UnitStep v u) :
    u ∈ adjOf W v := by
  obtain ⟨hx1, hx2, hy1, hy2⟩ := deg4_interior g hn hm id W hW v h4
  have hnd := adjOf_nodup g hn hm id W hW v
  have hS : adjOf W v ⊆ [⟨v.x + 1, v.y⟩, ⟨v.x, v.y + 1⟩, ⟨v.x - 1, v.y⟩, ⟨v.x, v.y - 1⟩] := by
    intro w hw
    rcases adjOf_candidates g hn hm id W hW v w hw with
      ⟨h, -⟩ | ⟨h, -⟩ | ⟨ha, hb, -⟩ | ⟨ha, hb, -⟩
    · simp [h]
    · simp [h]
    · have : w = ⟨v.x - 1, v.y⟩ :=
        coord_ext (show w.x = v.x - 1 by omega) (show w.y = v.y by omega)
      simp [this]
    · have : w = ⟨v.x, v.y - 1⟩ :=
        coord_ext (show w.x = v.x by omega) (show w.y = v.y - 1 by omega)
      simp [this]
  have hsp := hnd.subperm hS
  have hperm : (adjOf W v).Perm [⟨v.x + 1, v.y⟩, ⟨v.x, v.y + 1⟩, ⟨v.x - 1, v.y⟩, ⟨v.x, v.y - 1⟩] := by
    refine hsp.perm_of_length_le ?_
    simp [h4]
  have hmem : u ∈ [(⟨v.x + 1, v.y⟩ : Coord), ⟨v.x, v.y + 1⟩, ⟨v.x - 1, v.y⟩, ⟨v.x, v.y - 1⟩] := by
    rcases hu with h | h | h | h
    · have : u = ⟨v.x + 1, v.y⟩ :=
        coord_ext (show u.x = v.x + 1 by omega) (show u.y = v.y by omega)
      simp [this]
    · have : u = ⟨v.x - 1, v.y⟩ :=
        coord_ext (show u.x = v.x - 1 by omega) (show u.y = v.y by omega)
      simp [this]
    · have : u = ⟨v.x, v.y + 1⟩ :=
        coord_ext (show u.x = v.x by omega) (show u.y = v.y + 1 by omega)
      simp [this]
    · have : u = ⟨v.x, v.y - 1⟩ :=
        coord_ext (show u.x = v.x by omega) (show u.y = v.y - 1 by omega)
      simp [this]
  exact hperm.mem_iff.2 hmem

/-- A successful `natSub` certifies that the subtraction did not underflow. -/
theorem natSub_ok {a b x : Nat} (h : natSub a b = .ok x) : b ≤ a ∧ x = a - b := by
  rw [natSub] at h
  split at h
  · next hba =>
    simp only [Except.ok.injEq] at h
    exact ⟨hba, h.symm⟩
  · simp at h

/-- When `adjcoords` succeeds it returns its `prev` argument first, and a
second coordinate one unit from `c` that differs from both `prev` and `c`. -/
theorem adjcoords_next {α : Type} [DecidableEq α] {p c : Coord} {id : α} {g : Array2 α}
    {q : Coord × Coord} (h : adjcoords p c id g = .ok q) :
    q.1 = p ∧ UnitStep c q.2 ∧ q.2 ≠ p ∧ q.2 ≠ c := by
  rw [adjcoords] at h
  simp only [bind, Except.bind, pure, Except.pure] at h
  split at h
  · simp at h
  next cxm1 hcx =>
  obtain ⟨hx1, hxe⟩ := natSub_ok hcx
  subst hxe
  split at h
  · -- travelling rightward: p.x = c.x - 1
    next hpx =>
    split at h
    · simp at h
    next rm1 hrm =>
    obtain ⟨hy1, hye⟩ := natSub_ok hrm
    subst hye
    split at h
    · simp at h
    next cm1 hcm =>
    injection hcm with hce
    subst hce
    split at h
    · simp at h
    next cell hcell =>
    split at h <;>
      (simp only [Except.ok.injEq] at h; subst h; refine ⟨rfl, ?_, ?_, ?_⟩)
    · exact Or.inr (Or.inr (Or.inr ⟨rfl, show c.y = c.y - 1 + 1 by omega⟩))
    · intro he
      rw [coord_eq_iff] at he
      dsimp only at he
      omega
    · intro he
      rw [coord_eq_iff] at he
      dsimp only at he
      omega
    · exact Or.inr (Or.inr (Or.inl ⟨rfl, rfl⟩))
    · intro he
      rw [coord_eq_iff] at he
      dsimp only at he
      omega
    · intro he
      rw [coord_eq_iff] at he
      dsimp only at he
      omega
  next hpx =>
  split at h
  · -- travelling leftward: p.x = c.x + 1
    next hpx2 =>
    split at h
    · simp at h
    next rm1 hrm =>
    obtain ⟨hy1, hye⟩ := natSub_ok hrm
    subst hye
    split at h
    · simp at h
    next cell hcell =>
    split at h <;>
      (simp only [Except.ok.injEq] at h; subst h; refine ⟨rfl, ?_, ?_, ?_⟩)
    · exact Or.inr (Or.inr (Or.inr ⟨rfl, show c.y = c.y - 1 + 1 by omega⟩))
    · intro he
      rw [coord_eq_iff] at he
      dsimp only at he
      omega
    · intro he
      rw [coord_eq_iff] at he
      dsimp only at he
      omega
    · exact Or.inr (Or.inr (Or.inl ⟨rfl, rfl⟩))
    · intro he
      rw [coord_eq_iff] at he
      dsimp only at he
      omega
    · intro he
      rw [coord_eq_iff] at he
      dsimp only at he
      omega
  next hpx2 =>
  split at h
  · simp at h
  next cym1 hcy =>
  obtain ⟨hy1, hye⟩ := natSub_ok hcy
  subst hye
  split at h
  · -- travelling downward: p.y = c.y - 1
    next hpy =>
    split at h
    · simp at h
    next rm1 hrm =>
    injection hrm with hye2
    subst hye2
    split at h
    · simp at h
    next cm1 hcm =>
    injection hcm with hce
    subst hce
    split at h
    · simp at h
    next cell hcell =>
    split at h <;>
      (simp only [Except.ok.injEq] at h; subst h; refine ⟨rfl, ?_, ?_, ?_⟩)
    · exact Or.inr (Or.inl ⟨show c.x = c.x - 1 + 1 by omega, rfl⟩)
    · intro he
      rw [coord_eq_iff] at he
      dsimp only at he
      omega
    · intro he
      rw [coord_eq_iff] at he
      dsimp only at he
      omega
    · exact Or.inl ⟨rfl, rfl⟩
    · intro he
      rw [coord_eq_iff] at he
      dsimp only at he
      omega
    · intro he
      rw [coord_eq_iff] at he
      dsimp only at he
      omega
  next hpy =>
  -- travelling upward
  split at h
  · simp at h
  next cm1 hcm =>
  injection hcm with hce
  subst hce
  split at h
  · simp at h
  next cell hcell =>
  split at h <;>
    (simp only [Except.ok.injEq] at h; subst h; refine ⟨rfl, ?_, ?_, ?_⟩)
  · exact Or.inr (Or.inl ⟨show c.x = c.x - 1 + 1 by omega, rfl⟩)
  · intro he
    rw [coord_eq_iff] at he
    dsimp only at he
    omega
  · intro he
    rw [coord_eq_iff] at he
    dsimp only at he
    omega
  · exact Or.inl ⟨rfl, rfl⟩
  · intro he
    rw [coord_eq_iff] at he
    dsimp only at he
    omega
  · intro he
    rw [coord_eq_iff] at he
    dsimp only at he
    omega

/-- When the degree assertion passed, every vertex with nonempty adjacency
has degree 2 or 4. -/
theorem degreesOk_spec {edges : List GEdge} (hdeg : degreesOk edges = true)
    {v : Coord} (hv : adjOf edges v ≠ []) :
    (adjOf edges v).length = 2 ∨ (adjOf edges v).length = 4 := by
  obtain ⟨u, hu⟩ := List.exists_mem_of_ne_nil _ hv
  obtain ⟨e, he, heq⟩ := mem_adjOf.1 hu
  rw [degreesOk, List.all_eq_true] at hdeg
  have hvmem : v ∈ edges.flatMap fun e => [e.1, e.2] := by
    rw [List.mem_flatMap]
    rcases heq with heq | heq <;> subst heq
    · exact ⟨(v, u), he, by simp⟩
    · exact ⟨(u, v), he, by simp⟩
  have := hdeg v hvmem
  simpa using this

/-- A unit step flips the parity of the coordinate sum. -/
theorem unitStep_parity {a b : Coord} (h : UnitStep a b) :
    (a.x + a.y + 1) % 2 = (b.x + b.y) % 2 := by
  rcases h with h | h | h | h <;> omega

/-- Along a chain of unit steps, the parity of the coordinate sum advances
with the number of steps. -/
theorem chain_parity : ∀ (l : List Coord) (a b : Coord),
    List.Chain UnitStep a l → (a :: l).getLast? = some b →
    (a.x + a.y + l.length) % 2 = (b.x + b.y) % 2 := by
  intro l
  induction l with
  | nil =>
    intro a b _ hb
    simp only [List.getLast?_singleton, Option.some.injEq] at hb
    subst hb
    simp
  | cons c t ih =>
    intro a b hch hb
    rw [List.chain_cons] at hch
    have h1 := unitStep_parity hch.1
    have h2 := ih c b hch.2 (by simpa using hb)
    simp only [List.length_cons]
    omega

/-- One `aring` tracing run, specified: on success the ring extends the
accumulator with the current vertex, a tail of traced vertices and the
closing `start`; successive vertices (including the incoming `prev`) are one
unit apart; and no step immediately backtracks. -/
theorem aringLoop_spec {α : Type} [DecidableEq α] (g : Array2 α) (hn : 1 ≤ g.nrows)
    (hm : 1 ≤ g.ncols) (id : α) (edges : List GEdge)
    (hW : edges.Sublist (marching_squares g id)) (hdeg : degreesOk edges = true)
    (start : Coord) :
    ∀ fuel prev cur acc ring,
      aringLoop edges start id g fuel prev cur acc = .ok ring →
      prev ∈ adjOf edges cur →
      ∃ t, ring = acc ++ cur :: t ++ [start] ∧
        List.Chain' UnitStep (prev :: cur :: t ++ [start]) ∧
        List.Chain' (fun pq rs => pq.1 ≠ rs.2)
          (windows2 (prev :: cur :: t ++ [start])) := by
  intro fuel
  induction fuel with
  | zero =>
    intro prev cur acc ring h _
    simp [aringLoop] at h
  | succ fuel ih =>
    intro prev cur acc ring h hprev
    have hne : adjOf edges cur ≠ [] := by
      intro he
      rw [he] at hprev
      exact absurd hprev (List.not_mem_nil prev)
    have hpc : UnitStep prev cur :=
      unitStep_symm (adjOf_unitStep g hn hm id edges hW cur prev hprev)
    simp only [aringLoop, adjLookup, bind, Except.bind, pure, Except.pure,
      if_neg hne] at h
    by_cases hlen : (adjOf edges cur).length = 4
    · rw [if_pos hlen] at h
      split at h
      · simp at h
      next n hadj =>
      obtain ⟨hn1, hustep, hnp, hnc⟩ := adjcoords_next hadj
      by_cases hs : n.2 = start
      · have hc1 : ¬ (prev = n.1 ∧ n.2 ≠ start) := fun hc => hc.2 hs
        have hc2 : ¬ (prev = n.2 ∧ n.1 ≠ start) := fun hc => hnp hc.1.symm
        rw [if_neg hc1, if_neg hc2] at h
        simp only [Except.ok.injEq] at h
        subst h
        refine ⟨[], by simp, ?_, ?_⟩
        · exact List.Chain'.cons hpc
            (List.Chain'.cons (hs ▸ hustep) (List.chain'_singleton _))
        · simp only [windows2]
          exact List.Chain'.cons
            (show prev ≠ start from fun he => hnp (hs.trans he.symm))
            (List.chain'_singleton _)
      · have hc1 : prev = n.1 ∧ n.2 ≠ start := ⟨hn1.symm, hs⟩
        rw [if_pos hc1] at h
        have hmem : n.2 ∈ adjOf edges cur :=
          deg4_all_neighbors g hn hm id edges hW cur hlen n.2 hustep
        obtain ⟨t, hr, hch, hnb⟩ := ih cur n.2 (acc ++ [cur]) ring h (adjOf_symm hmem)
        refine ⟨n.2 :: t, by simpa using hr, ?_, ?_⟩
        · exact List.Chain'.cons hpc hch
        · simp only [windows2] at hnb ⊢
          exact List.Chain'.cons (show prev ≠ n.2 from fun he => hnp he.symm) hnb
    · rw [if_neg hlen] at h
      simp only [listGet2] at h
      split at h
      · simp at h
      next n heqn =>
      split at heqn
      case h_2 => simp at heqn
      next a b rest heq =>
      injection heqn with heqn2
      subst heqn2
      have hlen2 : (adjOf edges cur).length = 2 := by
        rcases degreesOk_spec hdeg hne with h2 | h4
        · exact h2
        · exact absurd h4 hlen
      have hrest : rest = [] := by
        rw [heq] at hlen2
        simpa using hlen2
      subst hrest
      have hnd := adjOf_nodup g hn hm id edges hW cur
      rw [heq] at hnd
      have hab : a ≠ b := by
        simp only [List.nodup_cons, List.mem_singleton] at hnd
        exact hnd.1
      have hamem : a ∈ adjOf edges cur := by
        rw [heq]
        exact List.mem_cons_self a _
      have hbmem : b ∈ adjOf edges cur := by
        rw [heq]
        exact List.mem_cons_of_mem a (List.mem_cons_self b _)
      have husa : UnitStep cur a := adjOf_unitStep g hn hm id edges hW cur a hamem
      have husb : UnitStep cur b := adjOf_unitStep g hn hm id edges hW cur b hbmem
      have hpab : prev = a ∨ prev = b := by
        rw [heq] at hprev
        simpa using hprev
      dsimp only at h
      by_cases hc1 : prev = a ∧ b ≠ start
      · rw [if_pos hc1] at h
        obtain ⟨t, hr, hch, hnb⟩ := ih cur b (acc ++ [cur]) ring h (adjOf_symm hbmem)
        refine ⟨b :: t, by simpa using hr, ?_, ?_⟩
        · exact List.Chain'.cons hpc hch
        · simp only [windows2] at hnb ⊢
          exact List.Chain'.cons
            (show prev ≠ b from fun he => hab (hc1.1.symm.trans he)) hnb
      · rw [if_neg hc1] at h
        by_cases hc2 : prev = b ∧ a ≠ start
        · rw [if_pos hc2] at h
          obtain ⟨t, hr, hch, hnb⟩ := ih cur a (acc ++ [cur]) ring h (adjOf_symm hamem)
          refine ⟨a :: t, by simpa using hr, ?_, ?_⟩
          · exact List.Chain'.cons hpc hch
          · simp only [windows2] at hnb ⊢
            exact List.Chain'.cons
              (show prev ≠ a from fun he => hab (he.symm.trans hc2.1)) hnb
        · rw [if_neg hc2] at h
          simp only [Except.ok.injEq] at h
          subst h
          have hys : UnitStep cur start ∧ prev ≠ start := by
            rcases hpab with hp | hp
            · have hbs : b = start := by
                by_contra hbs
                exact hc1 ⟨hp, hbs⟩
              exact ⟨hbs ▸ husb, fun he => hab ((hp.symm.trans he).trans hbs.symm)⟩
            · have has : a = start := by
                by_contra has
                exact hc2 ⟨hp, has⟩
              exact ⟨has ▸ husa, fun he => hab (has.trans (he.symm.trans hp))⟩
          refine ⟨[], by simp, ?_, ?_⟩
          · exact List.Chain'.cons hpc
              (List.Chain'.cons hys.1 (List.chain'_singleton _))
          · simp only [windows2]
            exact List.Chain'.cons hys.2 (List.chain'_singleton _)

/-- A successful `aring` run returns a ring that starts and ends at `start`
and contains at least five coordinates. -/
theorem aring_spec {α : Type} [DecidableEq α] (g : Array2 α) (hn : 1 ≤ g.nrows)
    (hm : 1 ≤ g.ncols) (id : α) (edges : List GEdge)
    (hW : edges.Sublist (marching_squares g id)) (hdeg : degreesOk edges = true)
    (start : Coord) (fuel : Nat) (ring : List Coord)
    (h : aring edges start id g fuel = .ok ring) :
    ∃ t, ring = start :: t ++ [start] ∧ 3 ≤ t.length := by
  rw [aring] at h
  simp only [adjLookup, bind, Except.bind, pure, Except.pure] at h
  split at h
  · simp at h
  next nl heqnl =>
  split at heqnl
  · simp at heqnl
  next hne =>
  injection heqnl with heqnl2
  subst heqnl2
  obtain ⟨n0, tail, heq2⟩ := List.exists_cons_of_ne_nil hne
  simp only [heq2] at h
  have hn0 : n0 ∈ adjOf edges start := by
    rw [heq2]
    exact List.mem_cons_self n0 tail
  have hloop : aringLoop edges start id g fuel n0 start [] = .ok ring := by
    split at h
    · split at h
      · simp at h
      · exact h
    · exact h
  obtain ⟨t, hr, hch, hnb⟩ :=
    aringLoop_spec g hn hm id edges hW hdeg start fuel n0 start [] ring hloop hn0
  refine ⟨t, by simpa using hr, ?_⟩
  have hch2 : List.Chain UnitStep start (t ++ [start]) := hch.tail
  have hlast : (start :: (t ++ [start])).getLast? = some start := by
    have hsp : start :: (t ++ [start]) = (start :: t) ++ [start] := by simp
    rw [hsp, List.getLast?_concat]
  have hpar := chain_parity (t ++ [start]) start start hch2 hlast
  simp only [List.length_append, List.length_singleton] at hpar
  by_cases h1 : t.length = 1
  · obtain ⟨v, hv⟩ := List.length_eq_one.1 h1
    subst hv
    simp only [List.cons_append, List.nil_append, windows2] at hnb
    have hbad := (List.chain'_cons.1 (List.chain'_cons.1 hnb).2).1
    exact absurd rfl hbad
  · omega

/-- Every ring returned by the assembly loop over a working set that is a
sub-multiset of the extracted edges starts and ends at the same vertex and
has a tail of at least three traced vertices. -/
theorem etmLoop_rings {α : Type} [DecidableEq α] (g : Array2 α) (hn : 1 ≤ g.nrows)
    (hm : 1 ≤ g.ncols) (id : α) :
    ∀ fuel edges rings, edges.Sublist (marching_squares g id) →
      etmLoop id g fuel edges = .ok rings →
      ∀ ring ∈ rings, ∃ s t, ring = s :: t ++ [s] ∧ 3 ≤ t.length := by
  intro fuel
  induction fuel with
  | zero =>
    intro edges rings _ h
    simp [etmLoop] at h
  | succ fuel ih =>
    intro edges rings hW h
    rw [etmLoop] at h
    split at h
    · simp only [Except.ok.injEq] at h
      subst h
      intro ring hring
      exact absurd hring (List.not_mem_nil ring)
    next hney =>
    split at h
    swap
    · simp at h
    next hdeg =>
    simp only [bind, Except.bind, pure, Except.pure] at h
    split at h
    · simp at h
    next ring0 haring =>
    split at h
    · simp at h
    next rest hrest =>
    simp only [Except.ok.injEq] at h
    subst h
    intro ring hring
    rcases List.mem_cons.1 hring with hr0 | hrmem
    · subst hr0
      obtain ⟨t, hrt, hlen⟩ := aring_spec g hn hm id edges hW hdeg _ _ ring haring
      exact ⟨_, t, hrt, hlen⟩
    · exact ih _ rest ((List.filter_sublist _).trans hW) hrest ring hrmem

/-- Claim C3: for every grid (with at least one row and one column) and every
label, every ring returned by `edges_to_multilinestring` on the edges
extracted for that label by `marching_squares` is closed — its first
coordinate equals its last — and contains at least 5 coordinates. -/
theorem c3_rings_closed {α : Type} [DecidableEq α] (g : Array2 α)
    (hn : 1 ≤ g.nrows) (hm : 1 ≤ g.ncols) (id : α) (fuel : Nat)
    (rings : List (List Coord))
    (h : edges_to_multilinestring id (marching_squares g id) g fuel = .ok rings)
    (ring : List Coord) (hring : ring ∈ rings) :
    ∃ s, ring.head? = some s ∧ ring.getLast? = some s ∧ 5 ≤ ring.length := by
  obtain ⟨s, t, hrt, hlen⟩ :=
    etmLoop_rings g hn hm id fuel (marching_squares g id) rings
      (List.Sublist.refl _) h ring hring
  subst hrt
  refine ⟨s, rfl, ?_, ?_⟩
  · rw [List.getLast?_concat]
  · simp only [List.length_cons, List.length_append, List.length_singleton]
    omega

/-- Witness: on the knot grid with label 1 and fuel 10, the first returned
ring is closed and has 5 coordinates. -/
theorem c3_rings_closed_witness :
    (1 ≤ knotGrid.nrows ∧ 1 ≤ knotGrid.ncols) ∧
    ∃ s, ([⟨1, 0⟩, ⟨1, 1⟩, ⟨2, 1⟩, ⟨2, 0⟩, ⟨1, 0⟩] : List Coord).head? = some s ∧
      ([⟨1, 0⟩, ⟨1, 1⟩, ⟨2, 1⟩, ⟨2, 0⟩, ⟨1, 0⟩] : List Coord).getLast? = some s ∧
      5 ≤ ([⟨1, 0⟩, ⟨1, 1⟩, ⟨2, 1⟩, ⟨2, 0⟩, ⟨1, 0⟩] : List Coord).length :=
  ⟨⟨by decide, by decide⟩,
    c3_rings_closed knotGrid (by decide) (by decide) 1 10
      [[⟨1, 0⟩, ⟨1, 1⟩, ⟨2, 1⟩, ⟨2, 0⟩, ⟨1, 0⟩],
       [⟨1, 3⟩, ⟨1, 2⟩, ⟨2, 2⟩, ⟨2, 3⟩, ⟨1, 3⟩],
       [⟨0, 1⟩, ⟨1, 1⟩, ⟨1, 2⟩, ⟨0, 2⟩, ⟨0, 1⟩],
       [⟨3, 1⟩, ⟨2, 1⟩, ⟨2, 2⟩, ⟨3, 2⟩, ⟨3, 1⟩]] (by rfl)
      [⟨1, 0⟩, ⟨1, 1⟩, ⟨2, 1⟩, ⟨2, 0⟩, ⟨1, 0⟩] (List.mem_cons_self _ _)⟩

variable {α : Type} [DecidableEq α]

/-- The grid cell with column `cx` and row `cy` is in bounds and carries
label `id`. -/
def cellId (g : Array2 α) (id : α) (cx cy : Nat) : Prop :=
  cx < g.ncols ∧ cy < g.nrows ∧ g.val cy cx = id

instance (g : Array2 α) (id : α) (cx cy : Nat) : Decidable (cellId g id cx cy) := by
  unfold cellId
  infer_instance

/-- Directed step `a → b` of one grid unit that keeps an `id`-labelled cell
on its right-hand side (with y growing downwards): the boundary orientation
the tracer maintains. -/
def goodStep (g : Array2 α) (id : α) (a b : Coord) : Prop :=
  (b.x = a.x + 1 ∧ b.y = a.y ∧ 1 ≤ a.y ∧ cellId g id a.x (a.y - 1)) ∨
  (a.x = b.x + 1 ∧ a.y = b.y ∧ cellId g id b.x a.y) ∨
  (b.x = a.x ∧ b.y = a.y + 1 ∧ cellId g id a.x a.y) ∨
  (b.x = a.x ∧ a.y = b.y + 1 ∧ 1 ≤ a.x ∧ cellId g id (a.x - 1) (a.y - 1))

instance (g : Array2 α) (id : α) (a b : Coord) : Decidable (goodStep g id a b) := by
  unfold goodStep
  infer_instance

/-- A traversed pair reoriented into the storage orientation of
`marching_squares` (second coordinate one step right or down of the first). -/
def normEdge (w : Coord × Coord) : GEdge :=
  if w.2 = ⟨w.1.x + 1, w.1.y⟩ ∨ w.2 = ⟨w.1.x, w.1.y + 1⟩ then (w.1, w.2) else (w.2, w.1)

theorem goodStep_right_into (g : Array2 α) (id : α) (v : Coord) :
    goodStep g id ⟨v.x + 1, v.y⟩ v ↔ cellId g id v.x v.y := by
  constructor
  · rintro (⟨h1, -⟩ | ⟨-, -, h⟩ | ⟨h1, -⟩ | ⟨h1, -⟩)
    · dsimp only at h1
      omega
    · exact h
    · dsimp only at h1
      omega
    · dsimp only at h1
      omega
  · intro h
    exact Or.inr (Or.inl ⟨rfl, rfl, h⟩)

theorem goodStep_right_out (g : Array2 α) (id : α) (v : Coord) :
    goodStep g id v ⟨v.x + 1, v.y⟩ ↔ 1 ≤ v.y ∧ cellId g id v.x (v.y - 1) := by
  constructor
  · rintro (⟨-, -, h⟩ | ⟨h1, -⟩ | ⟨h1, -⟩ | ⟨h1, -⟩)
    · exact h
    · dsimp only at h1
      omega
    · dsimp only at h1
      omega
    · dsimp only at h1
      omega
  · intro h
    exact Or.inl ⟨rfl, rfl, h.1, h.2⟩

theorem goodStep_down_into (g : Array2 α) (id : α) (v : Coord) :
    goodStep g id ⟨v.x, v.y + 1⟩ v ↔ 1 ≤ v.x ∧ cellId g id (v.x - 1) v.y := by
  constructor
  · rintro (⟨-, h2, -⟩ | ⟨h1, -⟩ | ⟨-, h2, -⟩ | ⟨-, -, h3, h⟩)
    · dsimp only at h2
      omega
    · dsimp only at h1
      omega
    · dsimp only at h2
      omega
    · exact ⟨h3, h⟩
  · intro h
    exact Or.inr (Or.inr (Or.inr ⟨rfl, rfl, h.1, h.2⟩))

theorem goodStep_down_out (g : Array2 α) (id : α) (v : Coord) :
    goodStep g id v ⟨v.x, v.y + 1⟩ ↔ cellId g id v.x v.y := by
  constructor
  · rintro (⟨h1, -⟩ | ⟨h1, -⟩ | ⟨-, -, h⟩ | ⟨-, h2, -⟩)
    · dsimp only at h1
      omega
    · dsimp only at h1
      omega
    · exact h
    · dsimp only at h2
      omega
  · intro h
    exact Or.inr (Or.inr (Or.inl ⟨rfl, rfl, h⟩))

theorem goodStep_left_into (g : Array2 α) (id : α) (v : Coord) (hx : 1 ≤ v.x) :
    goodStep g id ⟨v.x - 1, v.y⟩ v ↔ 1 ≤ v.y ∧ cellId g id (v.x - 1) (v.y - 1) := by
  constructor
  · rintro (⟨-, -, h3, h⟩ | ⟨h1, -⟩ | ⟨h1, -⟩ | ⟨h1, -⟩)
    · exact ⟨h3, h⟩
    · dsimp only at h1
      omega
    · dsimp only at h1
      omega
    · dsimp only at h1
      omega
  · intro h
    exact Or.inl ⟨show v.x = v.x - 1 + 1 by omega, rfl, h.1, h.2⟩

theorem goodStep_left_out (g : Array2 α) (id : α) (v : Coord) (hx : 1 ≤ v.x) :
    goodStep g id v ⟨v.x - 1, v.y⟩ ↔ cellId g id (v.x - 1) v.y := by
  constructor
  · rintro (⟨h1, -⟩ | ⟨-, -, h⟩ | ⟨h1, -⟩ | ⟨h1, -⟩)
    · dsimp only at h1
      omega
    · exact h
    · dsimp only at h1
      omega
    · dsimp only at h1
      omega
  · intro h
    exact Or.inr (Or.inl ⟨show v.x = v.x - 1 + 1 by omega, rfl, h⟩)

theorem goodStep_up_into (g : Array2 α) (id : α) (v : Coord) (hy : 1 ≤ v.y) :
    goodStep g id ⟨v.x, v.y - 1⟩ v ↔ cellId g id v.x (v.y - 1) := by
  constructor
  · rintro (⟨h1, -⟩ | ⟨h1, -⟩ | ⟨-, -, h⟩ | ⟨-, h2, -⟩)
    · dsimp only at h1
      omega
    · dsimp only at h1
      omega
    · exact h
    · dsimp only at h2
      omega
  · intro h
    exact Or.inr (Or.inr (Or.inl ⟨rfl, show v.y = v.y - 1 + 1 by omega, h⟩))

theorem goodStep_up_out (g : Array2 α) (id : α) (v : Coord) (hy : 1 ≤ v.y) :
    goodStep g id v ⟨v.x, v.y - 1⟩ ↔ 1 ≤ v.x ∧ cellId g id (v.x - 1) (v.y - 1) := by
  constructor
  · rintro (⟨-, h2, -⟩ | ⟨h1, -⟩ | ⟨-, h2, -⟩ | ⟨-, -, h3, h⟩)
    · dsimp only at h2
      omega
    · dsimp only at h1
      omega
    · dsimp only at h2
      omega
    · exact ⟨h3, h⟩
  · intro h
    exact Or.inr (Or.inr (Or.inr ⟨rfl, show v.y = v.y - 1 + 1 by omega, h.1, h.2⟩))

theorem upCell_iff (g : Array2 α) (id : α) (x y : Nat) :
    upCell g id x y ↔ 1 ≤ y ∧ cellId g id x (y - 1) := by
  unfold upCell cellId
  constructor
  · rintro ⟨h1, h2, h3, h4⟩
    exact ⟨h1, h3, by omega, h4⟩
  · rintro ⟨h1, h3, h2, h4⟩
    exact ⟨h1, by omega, h3, h4⟩

theorem dnCell_iff (g : Array2 α) (id : α) (x y : Nat) :
    dnCell g id x y ↔ cellId g id x y := by
  unfold dnCell cellId
  constructor
  · rintro ⟨h1, h2, h3⟩
    exact ⟨h2, h1, h3⟩
  · rintro ⟨h1, h2, h3⟩
    exact ⟨h2, h1, h3⟩

theorem ltCell_iff (g : Array2 α) (id : α) (x y : Nat) :
    ltCell g id x y ↔ 1 ≤ x ∧ cellId g id (x - 1) y := by
  unfold ltCell cellId
  constructor
  · rintro ⟨h1, h2, h3, h4⟩
    exact ⟨h1, by omega, h3, h4⟩
  · rintro ⟨h1, h2, h3, h4⟩
    exact ⟨h1, by omega, h3, h4⟩

theorem rtCell_iff (g : Array2 α) (id : α) (x y : Nat) :
    rtCell g id x y ↔ cellId g id x y := by
  unfold rtCell cellId
  constructor
  · rintro ⟨h1, h2, h3⟩
    exact ⟨h1, h2, h3⟩
  · rintro ⟨h1, h2, h3⟩
    exact ⟨h1, h2, h3⟩

/-- Every extracted edge has exactly one orientation that keeps the label on
its right: the `id`-carrying side of the edge is unique. -/
theorem ms_good_orientation (g : Array2 α) (hn : 1 ≤ g.nrows) (hm : 1 ≤ g.ncols)
    (id : α) (e : GEdge) (he : e ∈ marching_squares g id) :
    Xor' (goodStep g id e.1 e.2) (goodStep g id e.2 e.1) := by
  have heq : e = ((⟨e.1.x, e.1.y⟩ : Coord), e.2) := rfl
  rcases ms_shape g hn hm id e he with ⟨h1, -⟩ | ⟨h1, -⟩
  · rw [heq, h1, mem_ms_horizontal_iff g hn hm] at he
    rw [h1]
    have hfwd := goodStep_right_out g id e.1
    have hbwd : goodStep g id (⟨e.1.x + 1, e.1.y⟩ : Coord) e.1 ↔ cellId g id e.1.x e.1.y := by
      have := goodStep_right_into g id e.1
      exact this
    rw [Xor'] at he ⊢
    rw [upCell_iff, dnCell_iff] at he
    rw [hfwd, hbwd]
    exact he
  · rw [heq, h1, mem_ms_vertical_iff g hn hm] at he
    rw [h1]
    have hfwd := goodStep_down_out g id e.1
    have hbwd := goodStep_down_into g id e.1
    rw [Xor'] at he ⊢
    rw [ltCell_iff, rtCell_iff] at he
    rw [hfwd, hbwd]
    exact Or.elim he (fun hh => Or.inr hh) (fun hh => Or.inl hh)

variable {α : Type} [DecidableEq α]

/-- The cell up-left of vertex `v` exists and carries `id`. -/
def qUL (g : Array2 α) (id : α) (v : Coord) : Prop :=
  1 ≤ v.x ∧ 1 ≤ v.y ∧ cellId g id (v.x - 1) (v.y - 1)

/-- The cell up-right of vertex `v` exists and carries `id`. -/
def qUR (g : Array2 α) (id : α) (v : Coord) : Prop :=
  1 ≤ v.y ∧ cellId g id v.x (v.y - 1)

/-- The cell down-left of vertex `v` exists and carries `id`. -/
def qDL (g : Array2 α) (id : α) (v : Coord) : Prop :=
  1 ≤ v.x ∧ cellId g id (v.x - 1) v.y

/-- The cell down-right of vertex `v` exists and carries `id`. -/
def qDR (g : Array2 α) (id : α) (v : Coord) : Prop :=
  cellId g id v.x v.y

/-- The extracted edge list holds each edge at most once. -/
theorem nodup_of_count_le_one : ∀ {l : List GEdge}, (∀ e : GEdge, l.count e ≤ 1) → l.Nodup := by
  intro l
  induction l with
  | nil => intro h; exact List.nodup_nil
  | cons a t ih =>
    intro h
    rw [List.nodup_cons]
    constructor
    · intro hmem
      have h1 := h a
      rw [List.count_cons_self] at h1
      have h2 := List.count_pos_iff.2 hmem
      omega
    · refine ih fun e => ?_
      have h1 := h e
      rw [List.count_cons] at h1
      split at h1 <;> omega

theorem ms_nodup (g : Array2 α) (hn : 1 ≤ g.nrows) (hm : 1 ≤ g.ncols) (id : α) :
    (marching_squares g id).Nodup :=
  nodup_of_count_le_one fun e => count_ms_le_one g hn hm id e

theorem mem_adj_right (g : Array2 α) (hn : 1 ≤ g.nrows) (hm : 1 ≤ g.ncols)
    (id : α) (v : Coord) :
    (⟨v.x + 1, v.y⟩ : Coord) ∈ adjOf (marching_squares g id) v ↔
      Xor' (qUR g id v) (qDR g id v) := by
  rw [mem_adjOf]
  constructor
  · rintro ⟨e, he, heq | heq⟩ <;> subst heq
    · rw [mem_ms_horizontal_iff g hn hm id v.x v.y] at he
      rw [Xor', qUR, qDR]
      rw [Xor', upCell_iff, dnCell_iff] at he
      exact he
    · exact absurd he (not_mem_ms_other g id _
        (by intro hc; rw [coord_eq_iff] at hc; dsimp only at hc; omega)
        (by intro hc; rw [coord_eq_iff] at hc; dsimp only at hc; omega))
  · intro hx
    refine ⟨(v, ⟨v.x + 1, v.y⟩), ?_, Or.inl rfl⟩
    rw [mem_ms_horizontal_iff g hn hm id v.x v.y, Xor', upCell_iff, dnCell_iff]
    rw [Xor', qUR, qDR] at hx
    exact hx

theorem mem_adj_down (g : Array2 α) (hn : 1 ≤ g.nrows) (hm : 1 ≤ g.ncols)
    (id : α) (v : Coord) :
    (⟨v.x, v.y + 1⟩ : Coord) ∈ adjOf (marching_squares g id) v ↔
      Xor' (qDL g id v) (qDR g id v) := by
  rw [mem_adjOf]
  constructor
  · rintro ⟨e, he, heq | heq⟩ <;> subst heq
    · rw [mem_ms_vertical_iff g hn hm id v.x v.y] at he
      rw [Xor', qDL, qDR]
      rw [Xor', ltCell_iff, rtCell_iff] at he
      exact he
    · exact absurd he (not_mem_ms_other g id _
        (by intro hc; rw [coord_eq_iff] at hc; dsimp only at hc; omega)
        (by intro hc; rw [coord_eq_iff] at hc; dsimp only at hc; omega))
  · intro hx
    refine ⟨(v, ⟨v.x, v.y + 1⟩), ?_, Or.inl rfl⟩
    rw [mem_ms_vertical_iff g hn hm id v.x v.y, Xor', ltCell_iff, rtCell_iff]
    rw [Xor', qDL, qDR] at hx
    exact hx

theorem mem_adj_left (g : Array2 α) (hn : 1 ≤ g.nrows) (hm : 1 ≤ g.ncols)
    (id : α) (v : Coord) :
    (⟨v.x - 1, v.y⟩ : Coord) ∈ adjOf (marching_squares g id) v ↔
      Xor' (qUL g id v) (qDL g id v) := by
  by_cases hx : 1 ≤ v.x
  · rw [mem_adjOf]
    constructor
    · rintro ⟨e, he, heq | heq⟩ <;> subst heq
      · exact absurd he (not_mem_ms_other g id _
          (by intro hc; rw [coord_eq_iff] at hc; dsimp only at hc; omega)
          (by intro hc; rw [coord_eq_iff] at hc; dsimp only at hc; omega))
      · have hco : (⟨(v.x - 1) + 1, v.y⟩ : Coord) = v :=
          coord_ext (by dsimp only; omega) rfl
        have hms := mem_ms_horizontal_iff g hn hm id (v.x - 1) v.y
        rw [hco] at hms
        rw [hms] at he
        rw [Xor', qUL, qDL]
        rw [Xor', upCell_iff, dnCell_iff] at he
        rcases he with ⟨h1, h2⟩ | ⟨h1, h2⟩
        · exact Or.inl ⟨⟨hx, h1.1, h1.2⟩, fun hc => h2 hc.2⟩
        · exact Or.inr ⟨⟨hx, h1⟩, fun hc => h2 ⟨hc.2.1, hc.2.2⟩⟩
    · intro hq
      refine ⟨((⟨v.x - 1, v.y⟩ : Coord), v), ?_, Or.inr rfl⟩
      have hco : (⟨(v.x - 1) + 1, v.y⟩ : Coord) = v :=
        coord_ext (by dsimp only; omega) rfl
      have hms := mem_ms_horizontal_iff g hn hm id (v.x - 1) v.y
      rw [hco] at hms
      rw [hms]
      rw [Xor', upCell_iff, dnCell_iff]
      rw [Xor', qUL, qDL] at hq
      rcases hq with ⟨h1, h2⟩ | ⟨h1, h2⟩
      · exact Or.inl ⟨⟨h1.2.1, h1.2.2⟩, fun hc => h2 ⟨hx, hc⟩⟩
      · exact Or.inr ⟨h1.2, fun hc => h2 ⟨hx, hc.1, hc.2⟩⟩
  · constructor
    · intro hmem
      obtain ⟨e, he, heq | heq⟩ := mem_adjOf.1 hmem <;> subst heq <;>
        refine absurd he (not_mem_ms_other g id _ ?_ ?_) <;>
          (intro hc; rw [coord_eq_iff] at hc; dsimp only at hc; omega)
    · rintro (⟨h1, -⟩ | ⟨h1, -⟩)
      · exact absurd h1.1 hx
      · exact absurd h1.1 hx

theorem mem_adj_up (g : Array2 α) (hn : 1 ≤ g.nrows) (hm : 1 ≤ g.ncols)
    (id : α) (v : Coord) :
    (⟨v.x, v.y - 1⟩ : Coord) ∈ adjOf (marching_squares g id) v ↔
      Xor' (qUL g id v) (qUR g id v) := by
  by_cases hy : 1 ≤ v.y
  · rw [mem_adjOf]
    constructor
    · rintro ⟨e, he, heq | heq⟩ <;> subst heq
      · exact absurd he (not_mem_ms_other g id _
          (by intro hc; rw [coord_eq_iff] at hc; dsimp only at hc; omega)
          (by intro hc; rw [coord_eq_iff] at hc; dsimp only at hc; omega))
      · have hco : (⟨v.x, (v.y - 1) + 1⟩ : Coord) = v :=
          coord_ext rfl (by dsimp only; omega)
        have hms := mem_ms_vertical_iff g hn hm id v.x (v.y - 1)
        rw [hco] at hms
        rw [hms] at he
        rw [Xor', qUL, qUR]
        rw [Xor', ltCell_iff, rtCell_iff] at he
        rcases he with ⟨h1, h2⟩ | ⟨h1, h2⟩
        · exact Or.inl ⟨⟨h1.1, hy, h1.2⟩, fun hc => h2 hc.2⟩
        · exact Or.inr ⟨⟨hy, h1⟩, fun hc => h2 ⟨hc.1, hc.2.2⟩⟩
    · intro hq
      refine ⟨((⟨v.x, v.y - 1⟩ : Coord), v), ?_, Or.inr rfl⟩
      have hco : (⟨v.x, (v.y - 1) + 1⟩ : Coord) = v :=
        coord_ext rfl (by dsimp only; omega)
      have hms := mem_ms_vertical_iff g hn hm id v.x (v.y - 1)
      rw [hco] at hms
      rw [hms]
      rw [Xor', ltCell_iff, rtCell_iff]
      rw [Xor', qUL, qUR] at hq
      rcases hq with ⟨h1, h2⟩ | ⟨h1, h2⟩
      · exact Or.inl ⟨⟨h1.1, h1.2.2⟩, fun hc => h2 ⟨hy, hc⟩⟩
      · exact Or.inr ⟨h1.2, fun hc => h2 ⟨hc.1, hy, hc.2⟩⟩
  · constructor
    · intro hmem
      obtain ⟨e, he, heq | heq⟩ := mem_adjOf.1 hmem <;> subst heq <;>
        refine absurd he (not_mem_ms_other g id _ ?_ ?_) <;>
          (intro hc; rw [coord_eq_iff] at hc; dsimp only at hc; omega)
    · rintro (⟨h1, -⟩ | ⟨h1, -⟩)
      · exact absurd h1.2.1 hy
      · exact absurd h1.1 hy

variable {α : Type} [DecidableEq α]

/-- Number of working edges at `v` whose label-on-the-right orientation
points into `v`. -/
def goodInto (g : Array2 α) (id : α) (W : List GEdge) (v : Coord) : Nat :=
  ((adjOf W v).filter fun u => decide (goodStep g id u v)).length

/-- Number of working edges at `v` whose label-on-the-right orientation
points out of `v`. -/
def goodOut (g : Array2 α) (id : α) (W : List GEdge) (v : Coord) : Nat :=
  ((adjOf W v).filter fun u => decide (goodStep g id v u)).length

/-- At every vertex the working set has as many inward- as outward-oriented
edges. -/
def balanced (g : Array2 α) (id : α) (W : List GEdge) : Prop :=
  ∀ v : Coord, goodInto g id W v = goodOut g id W v

instance (g : Array2 α) (id : α) (v : Coord) : Decidable (qUL g id v) := by
  unfold qUL
  infer_instance

instance (g : Array2 α) (id : α) (v : Coord) : Decidable (qUR g id v) := by
  unfold qUR
  infer_instance

instance (g : Array2 α) (id : α) (v : Coord) : Decidable (qDL g id v) := by
  unfold qDL
  infer_instance

instance (g : Array2 α) (id : α) (v : Coord) : Decidable (qDR g id v) := by
  unfold qDR
  infer_instance

instance (p q : Prop) [Decidable p] [Decidable q] : Decidable (Xor' p q) := by
  unfold Xor'
  infer_instance

theorem perm_of_nodup_ext {β : Type} {l₁ l₂ : List β} (h1 : l₁.Nodup) (h2 : l₂.Nodup)
    (h : ∀ u, u ∈ l₁ ↔ u ∈ l₂) : l₁.Perm l₂ :=
  (h1.subperm fun u hu => (h u).1 hu).antisymm (h2.subperm fun u hu => (h u).2 hu)

theorem filter_length_via_candidates {l c : List Coord} (hl : l.Nodup) (hc : c.Nodup)
    (hsub : l ⊆ c) (p : Coord → Bool) :
    (l.filter p).length = (c.filter fun u => decide (u ∈ l) && p u).length := by
  apply List.Perm.length_eq
  apply perm_of_nodup_ext (hl.filter p) (hc.filter _)
  intro u
  simp only [List.mem_filter, Bool.and_eq_true, decide_eq_true_eq]
  constructor
  · rintro ⟨hu, hp⟩
    exact ⟨hsub hu, hu, hp⟩
  · rintro ⟨-, hu, hp⟩
    exact ⟨hu, hp⟩

theorem len_filter_cons (p : Coord → Bool) (a : Coord) (l : List Coord) :
    (List.filter p (a :: l)).length =
      (if p a = true then 1 else 0) + (List.filter p l).length := by
  rw [List.filter_cons]
  split
  · rw [List.length_cons]
    omega
  · omega

/-- The full extracted edge set is balanced: around any vertex, boundary
transitions into the label equal transitions out of it. -/
theorem balance_ms (g : Array2 α) (hn : 1 ≤ g.nrows) (hm : 1 ≤ g.ncols) (id : α)
    (v : Coord) :
    goodInto g id (marching_squares g id) v = goodOut g id (marching_squares g id) v := by
  have hnd := adjOf_nodup g hn hm id _ (List.Sublist.refl (marching_squares g id)) v
  by_cases hgx : 1 ≤ v.x <;> by_cases hgy : 1 ≤ v.y
  · have hcnd : ([⟨v.x + 1, v.y⟩, ⟨v.x, v.y + 1⟩, ⟨v.x - 1, v.y⟩,
        ⟨v.x, v.y - 1⟩] : List Coord).Nodup := by
      simp [coord_eq_iff]
      omega
    have hsub : adjOf (marching_squares g id) v ⊆
        ([⟨v.x + 1, v.y⟩, ⟨v.x, v.y + 1⟩, ⟨v.x - 1, v.y⟩, ⟨v.x, v.y - 1⟩] : List Coord) := by
      intro u hu
      rcases adjOf_candidates g hn hm id _ (List.Sublist.refl _) v u hu with
        ⟨h, -⟩ | ⟨h, -⟩ | ⟨h1, h2, -⟩ | ⟨h1, h2, -⟩
      · simp [h]
      · simp [h]
      · have hue : u = ⟨v.x - 1, v.y⟩ :=
          coord_ext (show u.x = v.x - 1 by omega) (show u.y = v.y by omega)
        simp [hue]
      · have hue : u = ⟨v.x, v.y - 1⟩ :=
          coord_ext (show u.x = v.x by omega) (show u.y = v.y - 1 by omega)
        simp [hue]
    rw [goodInto, goodOut, filter_length_via_candidates hnd hcnd hsub,
      filter_length_via_candidates hnd hcnd hsub]
    simp only [len_filter_cons, List.filter_nil, List.length_nil, Bool.and_eq_true,
      decide_eq_true_eq,
      mem_adj_right g hn hm id v, mem_adj_down g hn hm id v,
      mem_adj_left g hn hm id v, mem_adj_up g hn hm id v,
      goodStep_right_into, goodStep_right_out, goodStep_down_into, goodStep_down_out,
      goodStep_left_into g id v hgx, goodStep_left_out g id v hgx,
      goodStep_up_into g id v hgy, goodStep_up_out g id v hgy]
    by_cases hA : cellId g id (v.x - 1) (v.y - 1) <;>
      by_cases hB : cellId g id v.x (v.y - 1) <;>
      by_cases hC : cellId g id (v.x - 1) v.y <;>
      by_cases hD : cellId g id v.x v.y <;>
      simp [qUL, qUR, qDL, qDR, Xor', hgx, hgy, hA, hB, hC, hD]
  · have hcnd : ([⟨v.x + 1, v.y⟩, ⟨v.x, v.y + 1⟩,
        ⟨v.x - 1, v.y⟩] : List Coord).Nodup := by
      simp [coord_eq_iff]
      omega
    have hsub : adjOf (marching_squares g id) v ⊆
        ([⟨v.x + 1, v.y⟩, ⟨v.x, v.y + 1⟩, ⟨v.x - 1, v.y⟩] : List Coord) := by
      intro u hu
      rcases adjOf_candidates g hn hm id _ (List.Sublist.refl _) v u hu with
        ⟨h, -⟩ | ⟨h, -⟩ | ⟨h1, h2, -⟩ | ⟨h1, h2, -⟩
      · simp [h]
      · simp [h]
      · have hue : u = ⟨v.x - 1, v.y⟩ :=
          coord_ext (show u.x = v.x - 1 by omega) (show u.y = v.y by omega)
        simp [hue]
      · exact absurd h2 (by omega)
    rw [goodInto, goodOut, filter_length_via_candidates hnd hcnd hsub,
      filter_length_via_candidates hnd hcnd hsub]
    simp only [len_filter_cons, List.filter_nil, List.length_nil, Bool.and_eq_true,
      decide_eq_true_eq,
      mem_adj_right g hn hm id v, mem_adj_down g hn hm id v, mem_adj_left g hn hm id v,
      goodStep_right_into, goodStep_right_out, goodStep_down_into, goodStep_down_out,
      goodStep_left_into g id v hgx, goodStep_left_out g id v hgx]
    by_cases hB : cellId g id v.x (v.y - 1) <;>
      by_cases hC : cellId g id (v.x - 1) v.y <;>
      by_cases hD : cellId g id v.x v.y <;>
      simp [qUL, qUR, qDL, qDR, Xor', hgx, hgy, hB, hC, hD]
  · have hcnd : ([⟨v.x + 1, v.y⟩, ⟨v.x, v.y + 1⟩,
        ⟨v.x, v.y - 1⟩] : List Coord).Nodup := by
      simp [coord_eq_iff]
      omega
    have hsub : adjOf (marching_squares g id) v ⊆
        ([⟨v.x + 1, v.y⟩, ⟨v.x, v.y + 1⟩, ⟨v.x, v.y - 1⟩] : List Coord) := by
      intro u hu
      rcases adjOf_candidates g hn hm id _ (List.Sublist.refl _) v u hu with
        ⟨h, -⟩ | ⟨h, -⟩ | ⟨h1, h2, -⟩ | ⟨h1, h2, -⟩
      · simp [h]
      · simp [h]
      · exact absurd h1 (by omega)
      · have hue : u = ⟨v.x, v.y - 1⟩ :=
          coord_ext (show u.x = v.x by omega) (show u.y = v.y - 1 by omega)
        simp [hue]
    rw [goodInto, goodOut, filter_length_via_candidates hnd hcnd hsub,
      filter_length_via_candidates hnd hcnd hsub]
    simp only [len_filter_cons, List.filter_nil, List.length_nil, Bool.and_eq_true,
      decide_eq_true_eq,
      mem_adj_right g hn hm id v, mem_adj_down g hn hm id v, mem_adj_up g hn hm id v,
      goodStep_right_into, goodStep_right_out, goodStep_down_into, goodStep_down_out,
      goodStep_up_into g id v hgy, goodStep_up_out g id v hgy]
    by_cases hA : cellId g id (v.x - 1) (v.y - 1) <;>
      by_cases hB : cellId g id v.x (v.y - 1) <;>
      by_cases hD : cellId g id v.x v.y <;>
      simp [qUL, qUR, qDL, qDR, Xor', hgx, hgy, hA, hB, hD]
  · have hcnd : ([⟨v.x + 1, v.y⟩, ⟨v.x, v.y + 1⟩] : List Coord).Nodup := by
      simp [coord_eq_iff]
    have hsub : adjOf (marching_squares g id) v ⊆
        ([⟨v.x + 1, v.y⟩, ⟨v.x, v.y + 1⟩] : List Coord) := by
      intro u hu
      rcases adjOf_candidates g hn hm id _ (List.Sublist.refl _) v u hu with
        ⟨h, -⟩ | ⟨h, -⟩ | ⟨h1, h2, -⟩ | ⟨h1, h2, -⟩
      · simp [h]
      · simp [h]
      · exact absurd h1 (by omega)
      · exact absurd h2 (by omega)
    rw [goodInto, goodOut, filter_length_via_candidates hnd hcnd hsub,
      filter_length_via_candidates hnd hcnd hsub]
    simp only [len_filter_cons, List.filter_nil, List.length_nil, Bool.and_eq_true,
      decide_eq_true_eq,
      mem_adj_right g hn hm id v, mem_adj_down g hn hm id v,
      goodStep_right_into, goodStep_right_out, goodStep_down_into, goodStep_down_out]
    by_cases hB : cellId g id v.x (v.y - 1) <;>
      by_cases hD : cellId g id v.x v.y <;>
      simp [qUL, qUR, qDL, qDR, Xor', hgx, hgy, hB, hD]

theorem adjOf_cons (e : GEdge) (t : List GEdge) (v : Coord) :
    adjOf (e :: t) v =
      ((if e.1 = v then [e.2] else []) ++ (if e.2 = v then [e.1] else [])) ++ adjOf t v := by
  rw [adjOf, adjOf, List.flatMap_cons]

/-- Filtering edges by an orientation-symmetric predicate filters each
adjacency list pointwise. -/
theorem adjOf_filter (W : List GEdge) (p : GEdge → Bool)
    (hp : ∀ a b : Coord, p (a, b) = p (b, a)) (v : Coord) :
    adjOf (W.filter p) v = (adjOf W v).filter fun u => p (v, u) := by
  induction W with
  | nil => rfl
  | cons e t ih =>
    obtain ⟨ea, eb⟩ := e
    rw [List.filter_cons]
    by_cases hpe : p (ea, eb) = true
    · rw [if_pos hpe, adjOf_cons, adjOf_cons, List.filter_append, ← ih]
      congr 1
      dsimp only
      by_cases h1 : ea = v <;> by_cases h2 : eb = v
      · subst h1
        subst h2
        simp [hpe]
      · subst h1
        simp [h2, hpe]
      · subst h2
        have hq : p (eb, ea) = true := by rw [hp]; exact hpe
        simp [h1, hq]
      · simp [h1, h2]
    · rw [if_neg hpe, adjOf_cons, List.filter_append, ← ih]
      have hz : (((if (ea, eb).1 = v then [(ea, eb).2] else []) ++
          (if (ea, eb).2 = v then [(ea, eb).1] else [])).filter fun u => p (v, u)) = [] := by
        dsimp only
        by_cases h1 : ea = v <;> by_cases h2 : eb = v
        · subst h1
          subst h2
          simp [hpe]
        · subst h1
          simp [h2, hpe]
        · subst h2
          have hq : p (eb, ea) = false := by
            rw [hp]
            simpa using hpe
          simp [h1, hq]
        · simp [h1, h2]
      rw [hz, List.nil_append]

theorem windows2_heads (v : Coord) : ∀ l : List Coord,
    ((windows2 l).filter fun w => decide (w.1 = v)).length =
      (l.dropLast.filter fun x => decide (x = v)).length := by
  intro l
  induction l with
  | nil => rfl
  | cons a l ih =>
    cases l with
    | nil => rfl
    | cons b t =>
      rw [show windows2 (a :: b :: t) = (a, b) :: windows2 (b :: t) from rfl,
        show (a :: b :: t).dropLast = a :: (b :: t).dropLast from rfl,
        List.filter_cons, List.filter_cons]
      by_cases ha : a = v
      · rw [if_pos (by simpa using ha), if_pos (by simpa using ha),
          List.length_cons, List.length_cons, ih]
      · rw [if_neg (by simpa using ha), if_neg (by simpa using ha), ih]

theorem windows2_tails (v : Coord) : ∀ l : List Coord,
    ((windows2 l).filter fun w => decide (w.2 = v)).length =
      (l.tail.filter fun x => decide (x = v)).length := by
  intro l
  induction l with
  | nil => rfl
  | cons a l ih =>
    cases l with
    | nil => rfl
    | cons b t =>
      rw [show windows2 (a :: b :: t) = (a, b) :: windows2 (b :: t) from rfl,
        List.filter_cons]
      by_cases hb : b = v
      · rw [if_pos (by simpa using hb), List.length_cons, ih,
          show (a :: b :: t).tail = b :: t from rfl, List.filter_cons,
          if_pos (by simpa using hb), List.length_cons]
        rfl
      · rw [if_neg (by simpa using hb), ih,
          show (a :: b :: t).tail = b :: t from rfl, List.filter_cons,
          if_neg (by simpa using hb)]
        rfl

theorem windows2_concat : ∀ (l : List Coord) (hl : l ≠ []) (x : Coord),
    windows2 (l ++ [x]) = windows2 l ++ [(l.getLast hl, x)] := by
  intro l
  induction l with
  | nil => intro hl; exact absurd rfl hl
  | cons a l ih =>
    intro _ x
    cases l with
    | nil => rfl
    | cons b t =>
      rw [List.cons_append]
      rw [show windows2 (a :: ((b :: t) ++ [x])) = (a, b) :: windows2 ((b :: t) ++ [x]) from rfl]
      rw [ih (by simp) x]
      rfl

variable {α : Type} [DecidableEq α]

theorem xor_iff_not {X Y : Prop} (h : Xor' X Y) : X ↔ ¬Y := by
  rcases h with ⟨h1, h2⟩ | ⟨h1, h2⟩
  · exact iff_of_true h1 h2
  · exact ⟨fun hx => absurd hx h2, fun hy => absurd h1 hy⟩

theorem xor_resolve_left {X Y : Prop} (h : Xor' X Y) (hX : X) : ¬Y :=
  (xor_iff_not h).1 hX

theorem xor_resolve_right {X Y : Prop} (h : Xor' X Y) (hX : ¬X) : Y :=
  by_contra fun hy => hX ((xor_iff_not h).2 hy)

theorem adjOf_mono {W E : List GEdge} (hWE : W.Sublist E) {v u : Coord}
    (hu : u ∈ adjOf W v) : u ∈ adjOf E v := by
  obtain ⟨e, he, hor⟩ := mem_adjOf.1 hu
  exact mem_adjOf.2 ⟨e, hWE.subset he, hor⟩

/-- Every working edge, seen from either endpoint, has exactly one
orientation keeping the label on the right. -/
theorem adj_xor (g : Array2 α) (hn : 1 ≤ g.nrows) (hm : 1 ≤ g.ncols) (id : α)
    (W : List GEdge) (hW : W.Sublist (marching_squares g id)) {v u : Coord}
    (hu : u ∈ adjOf W v) :
    Xor' (goodStep g id u v) (goodStep g id v u) := by
  obtain ⟨e, he, hor⟩ := mem_adjOf.1 hu
  have hx := ms_good_orientation g hn hm id e (hW.subset he)
  rcases hor with heq | heq <;> subst heq
  · dsimp only at hx
    rcases hx with ⟨h1, h2⟩ | ⟨h1, h2⟩
    · exact Or.inr ⟨h1, h2⟩
    · exact Or.inl ⟨h1, h2⟩
  · dsimp only at hx
    exact hx

/-- At a vertex of remaining degree 2, the tracer's continuation preserves
the orientation class: entering with the label on the right leaves with the
label on the right, and likewise for the reverse class. -/
theorem deg2_class (g : Array2 α) (hn : 1 ≤ g.nrows) (hm : 1 ≤ g.ncols) (id : α)
    (W : List GEdge) (hW : W.Sublist (marching_squares g id)) {cur a b : Coord}
    (hbal : goodInto g id W cur = goodOut g id W cur)
    (heq : adjOf W cur = [a, b]) :
    (goodStep g id a cur ↔ goodStep g id cur b) ∧
    (goodStep g id b cur ↔ goodStep g id cur a) := by
  have ha : a ∈ adjOf W cur := by
    rw [heq]
    exact List.mem_cons_self a _
  have hb : b ∈ adjOf W cur := by
    rw [heq]
    exact List.mem_cons_of_mem a (List.mem_cons_self b _)
  have xa := adj_xor g hn hm id W hW ha
  have xb := adj_xor g hn hm id W hW hb
  rw [goodInto, goodOut, heq] at hbal
  by_cases hA : goodStep g id a cur <;> by_cases hB : goodStep g id b cur
  · have hA' := xor_resolve_left xa hA
    have hB' := xor_resolve_left xb hB
    simp [hA, hB, hA', hB'] at hbal
  · have hA' := xor_resolve_left xa hA
    have hB' := xor_resolve_right xb hB
    exact ⟨iff_of_true hA hB', iff_of_false hB hA'⟩
  · have hA' := xor_resolve_right xa hA
    have hB' := xor_resolve_left xb hB
    exact ⟨iff_of_false hA hB', iff_of_true hB hA'⟩
  · have hA' := xor_resolve_right xa hA
    have hB' := xor_resolve_right xb hB
    simp [hA, hB, hA', hB'] at hbal

/-- At a knot (remaining degree 4), the grid lookup of `adjcoords` preserves
the orientation class. -/
theorem knot_class (g : Array2 α) (hn : 1 ≤ g.nrows) (hm : 1 ≤ g.ncols) (id : α)
    (W : List GEdge) (hW : W.Sublist (marching_squares g id)) {cur prev : Coord}
    {n : Coord × Coord} (h4 : (adjOf W cur).length = 4)
    (hprev : prev ∈ adjOf W cur) (hadj : adjcoords prev cur id g = .ok n) :
    goodStep g id prev cur ↔ goodStep g id cur n.2 := by
  obtain ⟨hx1, hx2, hy1, hy2⟩ := deg4_interior g hn hm id W hW cur h4
  -- the four boundary edges around `cur` are all extracted
  have hmemR : (⟨cur.x + 1, cur.y⟩ : Coord) ∈ adjOf (marching_squares g id) cur :=
    adjOf_mono hW (deg4_all_neighbors g hn hm id W hW cur h4 _ (Or.inl ⟨rfl, rfl⟩))
  have hmemD : (⟨cur.x, cur.y + 1⟩ : Coord) ∈ adjOf (marching_squares g id) cur :=
    adjOf_mono hW (deg4_all_neighbors g hn hm id W hW cur h4 _
      (Or.inr (Or.inr (Or.inl ⟨rfl, rfl⟩))))
  have hmemL : (⟨cur.x - 1, cur.y⟩ : Coord) ∈ adjOf (marching_squares g id) cur :=
    adjOf_mono hW (deg4_all_neighbors g hn hm id W hW cur h4 _
      (Or.inr (Or.inl ⟨by dsimp only; omega, rfl⟩)))
  have hmemU : (⟨cur.x, cur.y - 1⟩ : Coord) ∈ adjOf (marching_squares g id) cur :=
    adjOf_mono hW (deg4_all_neighbors g hn hm id W hW cur h4 _
      (Or.inr (Or.inr (Or.inr ⟨rfl, by dsimp only; omega⟩))))
  have hXR := (mem_adj_right g hn hm id cur).1 hmemR
  have hXD := (mem_adj_down g hn hm id cur).1 hmemD
  have hXL := (mem_adj_left g hn hm id cur).1 hmemL
  have hXU := (mem_adj_up g hn hm id cur).1 hmemU
  -- quadrant label values
  have hA : qUL g id cur ↔ g.val (cur.y - 1) (cur.x - 1) = id := by
    unfold qUL cellId
    constructor
    · rintro ⟨-, -, -, -, h⟩
      exact h
    · intro h
      exact ⟨hx1, hy1, by omega, by omega, h⟩
  have hB : qUR g id cur ↔ g.val (cur.y - 1) cur.x = id := by
    unfold qUR cellId
    constructor
    · rintro ⟨-, -, -, h⟩
      exact h
    · intro h
      exact ⟨hy1, by omega, by omega, h⟩
  have hC : qDL g id cur ↔ g.val cur.y (cur.x - 1) = id := by
    unfold qDL cellId
    constructor
    · rintro ⟨-, -, -, h⟩
      exact h
    · intro h
      exact ⟨hx1, by omega, by omega, h⟩
  have hD : qDR g id cur ↔ g.val cur.y cur.x = id := by
    unfold qDR cellId
    constructor
    · rintro ⟨-, -, h⟩
      exact h
    · intro h
      exact ⟨by omega, by omega, h⟩
  -- checkerboard: diagonal quadrants agree, adjacent quadrants differ
  have hAB : qUL g id cur ↔ ¬ qUR g id cur := xor_iff_not hXU
  have hAC : qUL g id cur ↔ ¬ qDL g id cur := xor_iff_not hXL
  have hCD : qDL g id cur ↔ ¬ qDR g id cur := xor_iff_not hXD
  have hBD : qUR g id cur ↔ ¬ qDR g id cur := xor_iff_not hXR
  -- goodStep at the four directions, via the quadrants
  have hGRin : goodStep g id (⟨cur.x + 1, cur.y⟩ : Coord) cur ↔ qDR g id cur :=
    goodStep_right_into g id cur
  have hGRout : goodStep g id cur (⟨cur.x + 1, cur.y⟩ : Coord) ↔ qUR g id cur :=
    goodStep_right_out g id cur
  have hGDin : goodStep g id (⟨cur.x, cur.y + 1⟩ : Coord) cur ↔ qDL g id cur :=
    goodStep_down_into g id cur
  have hGDout : goodStep g id cur (⟨cur.x, cur.y + 1⟩ : Coord) ↔ qDR g id cur :=
    goodStep_down_out g id cur
  have hGLin : goodStep g id (⟨cur.x - 1, cur.y⟩ : Coord) cur ↔ qUL g id cur := by
    rw [goodStep_left_into g id cur hx1, qUL]
    exact ⟨fun h => ⟨hx1, h.1, h.2⟩, fun h => ⟨h.2.1, h.2.2⟩⟩
  have hGLout : goodStep g id cur (⟨cur.x - 1, cur.y⟩ : Coord) ↔ qDL g id cur := by
    rw [goodStep_left_out g id cur hx1, qDL]
    exact ⟨fun h => ⟨hx1, h⟩, fun h => h.2⟩
  have hGUin : goodStep g id (⟨cur.x, cur.y - 1⟩ : Coord) cur ↔ qUR g id cur := by
    rw [goodStep_up_into g id cur hy1, qUR]
    exact ⟨fun h => ⟨hy1, h⟩, fun h => h.2⟩
  have hGUout : goodStep g id cur (⟨cur.x, cur.y - 1⟩ : Coord) ↔ qUL g id cur := by
    rw [goodStep_up_out g id cur hy1, qUL]
    exact ⟨fun h => ⟨h.1, hy1, h.2⟩, fun h => ⟨h.1, h.2.2⟩⟩
  -- evaluate adjcoords at the interior vertex
  have s1 : natSub cur.x 1 = .ok (cur.x - 1) := by rw [natSub, if_pos hx1]
  have s2 : natSub cur.y 1 = .ok (cur.y - 1) := by rw [natSub, if_pos hy1]
  have g1 : g.get? (cur.y - 1) (cur.x - 1) = .ok (g.val (cur.y - 1) (cur.x - 1)) := by
    rw [Array2.get?, if_pos ⟨by omega, by omega⟩]
  have g2 : g.get? (cur.y - 1) cur.x = .ok (g.val (cur.y - 1) cur.x) := by
    rw [Array2.get?, if_pos ⟨by omega, by omega⟩]
  have g3 : g.get? cur.y (cur.x - 1) = .ok (g.val cur.y (cur.x - 1)) := by
    rw [Array2.get?, if_pos ⟨by omega, by omega⟩]
  rw [adjcoords] at hadj
  simp only [s1, s2, g1, g2, g3, bind, Except.bind, pure, Except.pure] at hadj
  rcases adjOf_candidates g hn hm id W hW cur prev hprev with
    ⟨hp, -⟩ | ⟨hp, -⟩ | ⟨hp1, hp2, -⟩ | ⟨hp1, hp2, -⟩
  · -- prev is the right neighbour: entering leftward
    have hpx : prev.x = cur.x + 1 := by rw [hp]
    have hpeq : prev = ⟨cur.x + 1, cur.y⟩ := hp
    rw [if_neg (show ¬ prev.x = cur.x - 1 by omega), if_pos hpx] at hadj
    rw [hpeq, hGRin]
    by_cases hval : g.val (cur.y - 1) cur.x = id
    · rw [if_pos hval] at hadj
      simp only [Except.ok.injEq] at hadj
      subst hadj
      dsimp only
      rw [hGUout]
      have hB' : qUR g id cur := hB.2 hval
      exact iff_of_false (fun hd => (hBD.1 hB') hd) (fun ha => (hAB.1 ha) hB')
    · rw [if_neg hval] at hadj
      simp only [Except.ok.injEq] at hadj
      subst hadj
      dsimp only
      rw [hGDout]
  · -- prev is the down neighbour: entering upward
    have hpx : prev.x = cur.x := by rw [hp]
    have hpy : prev.y = cur.y + 1 := by rw [hp]
    have hpeq : prev = ⟨cur.x, cur.y + 1⟩ := hp
    rw [if_neg (show ¬ prev.x = cur.x - 1 by omega),
      if_neg (show ¬ prev.x = cur.x + 1 by omega),
      if_neg (show ¬ prev.y = cur.y - 1 by omega)] at hadj
    rw [hpeq, hGDin]
    by_cases hval : g.val cur.y (cur.x - 1) = id
    · rw [if_pos hval] at hadj
      simp only [Except.ok.injEq] at hadj
      subst hadj
      dsimp only
      rw [hGLout]
    · rw [if_neg hval] at hadj
      simp only [Except.ok.injEq] at hadj
      subst hadj
      dsimp only
      rw [hGRout]
      have hC' : ¬ qDL g id cur := fun hq => hval (hC.1 hq)
      have hA' : qUL g id cur := hAC.2 hC'
      have hB' : ¬ qUR g id cur := hAB.1 hA'
      exact iff_of_false hC' hB'
  · -- prev is the left neighbour: entering rightward
    have hpx : prev.x = cur.x - 1 := by omega
    have hpeq : prev = ⟨cur.x - 1, cur.y⟩ :=
      coord_ext (show prev.x = cur.x - 1 by omega) (show prev.y = cur.y by omega)
    rw [if_pos hpx] at hadj
    rw [hpeq, hGLin]
    by_cases hval : g.val (cur.y - 1) (cur.x - 1) = id
    · rw [if_pos hval] at hadj
      simp only [Except.ok.injEq] at hadj
      subst hadj
      dsimp only
      rw [hGUout]
    · rw [if_neg hval] at hadj
      simp only [Except.ok.injEq] at hadj
      subst hadj
      dsimp only
      rw [hGDout]
      have hA' : ¬ qUL g id cur := fun hq => hval (hA.1 hq)
      have hD' : ¬ qDR g id cur := by
        intro hd
        exact hA' (hAC.2 fun hc => (hCD.1 hc) hd)
      exact iff_of_false hA' hD'
  · -- prev is the up neighbour: entering downward
    have hpy : prev.y = cur.y - 1 := by omega
    have hpeq : prev = ⟨cur.x, cur.y - 1⟩ :=
      coord_ext (show prev.x = cur.x by omega) (show prev.y = cur.y - 1 by omega)
    rw [if_neg (show ¬ prev.x = cur.x - 1 by omega),
      if_neg (show ¬ prev.x = cur.x + 1 by omega),
      if_pos hpy] at hadj
    rw [hpeq, hGUin]
    by_cases hval : g.val (cur.y - 1) (cur.x - 1) = id
    · rw [if_pos hval] at hadj
      simp only [Except.ok.injEq] at hadj
      subst hadj
      dsimp only
      rw [hGLout]
      have hA' : qUL g id cur := hA.2 hval
      have hB' : ¬ qUR g id cur := hAB.1 hA'
      have hC' : ¬ qDL g id cur := hAC.1 hA'
      exact iff_of_false hB' hC'
    · rw [if_neg hval] at hadj
      simp only [Except.ok.injEq] at hadj
      subst hadj
      dsimp only
      rw [hGRout]

variable {α : Type} [DecidableEq α]

/-- One unfolding of the tracing loop when the neighbour lookup and the
next-pair computation succeed. -/
theorem aringLoop_step (edges : List GEdge) (start : Coord) (id : α) (g : Array2 α)
    (fuel : Nat) (p c : Coord) (acc : List Coord) (hne : adjOf edges c ≠ [])
    (n : Coord × Coord)
    (hnv : (if (adjOf edges c).length = 4 then adjcoords p c id g
      else listGet2 (adjOf edges c)) = .ok n) :
    aringLoop edges start id g (fuel + 1) p c acc =
      if p = n.1 ∧ n.2 ≠ start then aringLoop edges start id g fuel c n.2 (acc ++ [c])
      else if p = n.2 ∧ n.1 ≠ start then aringLoop edges start id g fuel c n.1 (acc ++ [c])
      else .ok (acc ++ [c] ++ [start]) := by
  by_cases hlen : (adjOf edges c).length = 4
  · rw [if_pos hlen] at hnv
    simp only [aringLoop, adjLookup, bind, Except.bind, pure, Except.pure, if_neg hne,
      if_pos hlen, hnv]
  · rw [if_neg hlen] at hnv
    simp only [aringLoop, adjLookup, bind, Except.bind, pure, Except.pure, if_neg hne,
      if_neg hlen, hnv]

/-- One unfolding of the tracing loop when the next-pair computation fails. -/
theorem aringLoop_step_err (edges : List GEdge) (start : Coord) (id : α) (g : Array2 α)
    (fuel : Nat) (p c : Coord) (acc : List Coord) (hne : adjOf edges c ≠ [])
    (e : PErr)
    (hnv : (if (adjOf edges c).length = 4 then adjcoords p c id g
      else listGet2 (adjOf edges c)) = .error e) :
    aringLoop edges start id g (fuel + 1) p c acc = .error e := by
  by_cases hlen : (adjOf edges c).length = 4
  · rw [if_pos hlen] at hnv
    simp only [aringLoop, adjLookup, bind, Except.bind, pure, Except.pure, if_neg hne,
      if_pos hlen, hnv]
  · rw [if_neg hlen] at hnv
    simp only [aringLoop, adjLookup, bind, Except.bind, pure, Except.pure, if_neg hne,
      if_neg hlen, hnv]

/-- One unfolding of the tracing loop when the neighbour lookup panics. -/
theorem aringLoop_panic (edges : List GEdge) (start : Coord) (id : α) (g : Array2 α)
    (fuel : Nat) (p c : Coord) (acc : List Coord) (hne : adjOf edges c = []) :
    aringLoop edges start id g (fuel + 1) p c acc = .error .panic := by
  simp only [aringLoop, adjLookup, bind, Except.bind, if_pos hne]

/-- The tracing loop only ever appends to its accumulator: a run from any
accumulator produces the same suffix. -/
theorem aringLoop_acc (edges : List GEdge) (start : Coord) (id : α) (g : Array2 α) :
    ∀ fuel p c acc1 r1, aringLoop edges start id g fuel p c acc1 = .ok r1 →
      ∃ s, r1 = acc1 ++ s ∧
        ∀ acc2, aringLoop edges start id g fuel p c acc2 = .ok (acc2 ++ s) := by
  intro fuel
  induction fuel with
  | zero =>
    intro p c acc1 r1 h
    simp [aringLoop] at h
  | succ fuel ih =>
    intro p c acc1 r1 h
    by_cases hne : adjOf edges c = []
    · rw [aringLoop_panic edges start id g fuel p c acc1 hne] at h
      exact absurd h (by simp)
    cases hsc : (if (adjOf edges c).length = 4 then adjcoords p c id g
        else listGet2 (adjOf edges c)) with
    | error e =>
      rw [aringLoop_step_err edges start id g fuel p c acc1 hne e hsc] at h
      exact absurd h (by simp)
    | ok n =>
      rw [aringLoop_step edges start id g fuel p c acc1 hne n hsc] at h
      by_cases hc1 : p = n.1 ∧ n.2 ≠ start
      · rw [if_pos hc1] at h
        obtain ⟨s, hs, hall⟩ := ih c n.2 (acc1 ++ [c]) r1 h
        refine ⟨c :: s, by simpa using hs, ?_⟩
        intro acc2
        rw [aringLoop_step edges start id g fuel p c acc2 hne n hsc, if_pos hc1,
          hall (acc2 ++ [c])]
        simp
      · rw [if_neg hc1] at h
        by_cases hc2 : p = n.2 ∧ n.1 ≠ start
        · rw [if_pos hc2] at h
          obtain ⟨s, hs, hall⟩ := ih c n.1 (acc1 ++ [c]) r1 h
          refine ⟨c :: s, by simpa using hs, ?_⟩
          intro acc2
          rw [aringLoop_step edges start id g fuel p c acc2 hne n hsc, if_neg hc1,
            if_pos hc2, hall (acc2 ++ [c])]
          simp
        · rw [if_neg hc2] at h
          simp only [Except.ok.injEq] at h
          refine ⟨[c, start], by rw [← h]; simp, ?_⟩
          intro acc2
          rw [aringLoop_step edges start id g fuel p c acc2 hne n hsc, if_neg hc1,
            if_neg hc2]
          simp

/-- The tracing loop is deterministic in its state: two successful runs from
the same state produce the same suffix, whatever their fuel. -/
theorem aringLoop_det (edges : List GEdge) (start : Coord) (id : α) (g : Array2 α) :
    ∀ fuel fuel' p c r r', aringLoop edges start id g fuel p c [] = .ok r →
      aringLoop edges start id g fuel' p c [] = .ok r' → r = r' := by
  intro fuel
  induction fuel with
  | zero =>
    intro fuel' p c r r' h
    simp [aringLoop] at h
  | succ fuel ih =>
    intro fuel' p c r r' h h'
    cases fuel' with
    | zero => simp [aringLoop] at h'
    | succ fuel' =>
    by_cases hne : adjOf edges c = []
    · rw [aringLoop_panic edges start id g fuel p c [] hne] at h
      exact absurd h (by simp)
    cases hsc : (if (adjOf edges c).length = 4 then adjcoords p c id g
        else listGet2 (adjOf edges c)) with
    | error e =>
      rw [aringLoop_step_err edges start id g fuel p c [] hne e hsc] at h
      exact absurd h (by simp)
    | ok n =>
      rw [aringLoop_step edges start id g fuel p c [] hne n hsc] at h
      rw [aringLoop_step edges start id g fuel' p c [] hne n hsc] at h'
      by_cases hc1 : p = n.1 ∧ n.2 ≠ start
      · rw [if_pos hc1] at h h'
        obtain ⟨s, hs, hall⟩ := aringLoop_acc edges start id g fuel c n.2 [c] r h
        obtain ⟨s', hs', hall'⟩ := aringLoop_acc edges start id g fuel' c n.2 [c] r' h'
        have h1 := hall []
        have h2 := hall' []
        rw [List.nil_append] at h1 h2
        rw [hs, hs', ih fuel' c n.2 s s' h1 h2]
      · rw [if_neg hc1] at h h'
        by_cases hc2 : p = n.2 ∧ n.1 ≠ start
        · rw [if_pos hc2] at h h'
          obtain ⟨s, hs, hall⟩ := aringLoop_acc edges start id g fuel c n.1 [c] r h
          obtain ⟨s', hs', hall'⟩ := aringLoop_acc edges start id g fuel' c n.1 [c] r' h'
          have h1 := hall []
          have h2 := hall' []
          rw [List.nil_append] at h1 h2
          rw [hs, hs', ih fuel' c n.1 s s' h1 h2]
        · rw [if_neg hc2] at h h'
          simp only [Except.ok.injEq] at h h'
          rw [← h, ← h']

/-- Each traced vertex, with the tail it was visited with, is the result of
its own successful sub-run. -/
def runChain (edges : List GEdge) (start : Coord) (id : α) (g : Array2 α) :
    Coord → List Coord → Prop
  | _, [] => True
  | c, w :: t =>
    (∃ f, aringLoop edges start id g f c w [] = .ok (w :: t ++ [start])) ∧
      runChain edges start id g w t

variable {α : Type} [DecidableEq α]

theorem listGet2_ok {l : List Coord} {n : Coord × Coord} (h : listGet2 l = .ok n) :
    ∃ rest, l = n.1 :: n.2 :: rest := by
  cases l with
  | nil => exact absurd h (by simp [listGet2])
  | cons a l2 =>
    cases l2 with
    | nil => exact absurd h (by simp [listGet2])
    | cons b t =>
      rw [show listGet2 (a :: b :: t) = .ok (a, b) from rfl] at h
      simp only [Except.ok.injEq] at h
      subst h
      exact ⟨t, rfl⟩

/-- The full trace invariant of one `aring` run: the ring closes at `start`,
never revisits `start` inside the tail, steps only along working edges,
keeps a constant orientation class throughout, and every traced state has a
successful sub-run. -/
theorem aringLoop_trace (g : Array2 α) (hn : 1 ≤ g.nrows) (hm : 1 ≤ g.ncols)
    (id : α) (edges : List GEdge) (hW : edges.Sublist (marching_squares g id))
    (hdeg : degreesOk edges = true) (hbal : balanced g id edges) (start : Coord) :
    ∀ fuel prev cur ring,
      aringLoop edges start id g fuel prev cur [] = .ok ring →
      prev ∈ adjOf edges cur →
      ∃ t, ring = cur :: t ++ [start] ∧
        (∀ x ∈ t, x ≠ start) ∧
        (∀ w ∈ windows2 (prev :: cur :: t ++ [start]), w.2 ∈ adjOf edges w.1) ∧
        (goodStep g id prev cur →
          ∀ w ∈ windows2 (prev :: cur :: t ++ [start]), goodStep g id w.1 w.2) ∧
        (goodStep g id cur prev →
          ∀ w ∈ windows2 (prev :: cur :: t ++ [start]), goodStep g id w.2 w.1) ∧
        runChain edges start id g cur t := by
  intro fuel
  induction fuel with
  | zero =>
    intro prev cur ring h _
    simp [aringLoop] at h
  | succ fuel ih =>
    intro prev cur ring h hprev
    have hne : adjOf edges cur ≠ [] := by
      intro he
      rw [he] at hprev
      exact absurd hprev (List.not_mem_nil prev)
    have hx := adj_xor g hn hm id edges hW hprev
    by_cases hlen : (adjOf edges cur).length = 4
    · cases hadj : adjcoords prev cur id g with
      | error e =>
        have hsc : (if (adjOf edges cur).length = 4 then adjcoords prev cur id g
            else listGet2 (adjOf edges cur)) = .error e := by
          rw [if_pos hlen]
          exact hadj
        rw [aringLoop_step_err edges start id g fuel prev cur [] hne e hsc] at h
        exact absurd h (by simp)
      | ok n =>
        have hsc : (if (adjOf edges cur).length = 4 then adjcoords prev cur id g
            else listGet2 (adjOf edges cur)) = .ok n := by
          rw [if_pos hlen]
          exact hadj
        rw [aringLoop_step edges start id g fuel prev cur [] hne n hsc] at h
        obtain ⟨hn1, hustep, hnp, hnc⟩ := adjcoords_next hadj
        have hcls := knot_class g hn hm id edges hW hlen hprev hadj
        have hmem2 : n.2 ∈ adjOf edges cur :=
          deg4_all_neighbors g hn hm id edges hW cur hlen n.2 hustep
        have hx2 := adj_xor g hn hm id edges hW hmem2
        by_cases hs : n.2 = start
        · rw [if_neg (show ¬ (prev = n.1 ∧ n.2 ≠ start) from fun hc => hc.2 hs),
            if_neg (show ¬ (prev = n.2 ∧ n.1 ≠ start) from fun hc => hnp hc.1.symm)] at h
          simp only [Except.ok.injEq] at h
          subst h
          refine ⟨[], by simp, ?_, ?_, ?_, ?_, trivial⟩
          · intro x hx'
            exact absurd hx' (List.not_mem_nil x)
          · intro w hw
            rcases List.mem_cons.1 hw with rfl | hw2
            · exact adjOf_symm hprev
            · rcases List.mem_cons.1 hw2 with rfl | hw3
              · exact hs ▸ hmem2
              · exact absurd hw3 (List.not_mem_nil w)
          · intro hg w hw
            rcases List.mem_cons.1 hw with rfl | hw2
            · exact hg
            · rcases List.mem_cons.1 hw2 with rfl | hw3
              · exact hs ▸ (hcls.1 hg)
              · exact absurd hw3 (List.not_mem_nil w)
          · intro hgb w hw
            have hnpc : ¬ goodStep g id prev cur := fun hgg => (xor_resolve_left hx hgg) hgb
            have hout : ¬ goodStep g id cur n.2 := fun hgg => hnpc (hcls.2 hgg)
            have hin : goodStep g id n.2 cur := by
              rcases hx2 with ⟨h1, -⟩ | ⟨h1, -⟩
              · exact h1
              · exact absurd h1 hout
            rcases List.mem_cons.1 hw with rfl | hw2
            · exact hgb
            · rcases List.mem_cons.1 hw2 with rfl | hw3
              · exact hs ▸ hin
              · exact absurd hw3 (List.not_mem_nil w)
        · rw [if_pos ⟨hn1.symm, hs⟩] at h
          obtain ⟨s, hs1, hall⟩ := aringLoop_acc edges start id g fuel cur n.2 ([] ++ [cur]) ring h
          have h0 := hall []
          rw [List.nil_append] at h0
          obtain ⟨t', ht1, hts, hadjw, hgf, hgb, hrc⟩ :=
            ih cur n.2 s h0 (adjOf_symm hmem2)
          refine ⟨n.2 :: t', ?_, ?_, ?_, ?_, ?_, ?_⟩
          · rw [hs1, ht1]
            simp
          · intro x hx'
            rcases List.mem_cons.1 hx' with rfl | hx2'
            · exact hs
            · exact hts x hx2'
          · intro w hw
            rcases List.mem_cons.1 hw with rfl | hw2
            · exact adjOf_symm hprev
            · exact hadjw w hw2
          · intro hg w hw
            rcases List.mem_cons.1 hw with rfl | hw2
            · exact hg
            · exact hgf (hcls.1 hg) w hw2
          · intro hgb0 w hw
            have hnpc : ¬ goodStep g id prev cur := fun hgg => (xor_resolve_left hx hgg) hgb0
            have hout : ¬ goodStep g id cur n.2 := fun hgg => hnpc (hcls.2 hgg)
            have hin : goodStep g id n.2 cur := by
              rcases hx2 with ⟨h1, -⟩ | ⟨h1, -⟩
              · exact h1
              · exact absurd h1 hout
            rcases List.mem_cons.1 hw with rfl | hw2
            · exact hgb0
            · exact hgb hin w hw2
          · exact ⟨⟨fuel, by rw [h0, ht1]⟩, hrc⟩
    · cases hlg : listGet2 (adjOf edges cur) with
      | error e =>
        have hsc : (if (adjOf edges cur).length = 4 then adjcoords prev cur id g
            else listGet2 (adjOf edges cur)) = .error e := by
          rw [if_neg hlen]
          exact hlg
        rw [aringLoop_step_err edges start id g fuel prev cur [] hne e hsc] at h
        exact absurd h (by simp)
      | ok n =>
        have hsc : (if (adjOf edges cur).length = 4 then adjcoords prev cur id g
            else listGet2 (adjOf edges cur)) = .ok n := by
          rw [if_neg hlen]
          exact hlg
        rw [aringLoop_step edges start id g fuel prev cur [] hne n hsc] at h
        obtain ⟨rest, heq0⟩ := listGet2_ok hlg
        have hlen2 : (adjOf edges cur).length = 2 :=
          (degreesOk_spec hdeg hne).resolve_right hlen
        have hrest : rest = [] := by
          rw [heq0] at hlen2
          simpa using hlen2
        subst hrest
        obtain ⟨a, b⟩ := n
        dsimp only at heq0 h
        have heq : adjOf edges cur = [a, b] := heq0
        have hamem : a ∈ adjOf edges cur := by
          rw [heq]
          exact List.mem_cons_self a _
        have hbmem : b ∈ adjOf edges cur := by
          rw [heq]
          exact List.mem_cons_of_mem a (List.mem_cons_self b _)
        have hxa := adj_xor g hn hm id edges hW hamem
        have hxb := adj_xor g hn hm id edges hW hbmem
        have hcd := deg2_class g hn hm id edges hW (hbal cur) heq
        have hpab : prev = a ∨ prev = b := by
          rw [heq] at hprev
          simpa using hprev
        by_cases hc1 : prev = a ∧ b ≠ start
        · rw [if_pos hc1] at h
          obtain ⟨s, hs1, hall⟩ := aringLoop_acc edges start id g fuel cur b ([] ++ [cur]) ring h
          have h0 := hall []
          rw [List.nil_append] at h0
          obtain ⟨t', ht1, hts, hadjw, hgf, hgb, hrc⟩ :=
            ih cur b s h0 (adjOf_symm hbmem)
          refine ⟨b :: t', ?_, ?_, ?_, ?_, ?_, ?_⟩
          · rw [hs1, ht1]
            simp
          · intro x hx'
            rcases List.mem_cons.1 hx' with rfl | hx2'
            · exact hc1.2
            · exact hts x hx2'
          · intro w hw
            rcases List.mem_cons.1 hw with rfl | hw2
            · exact adjOf_symm hprev
            · exact hadjw w hw2
          · intro hg w hw
            have hg2 : goodStep g id cur b := hcd.1.1 (hc1.1 ▸ hg)
            rcases List.mem_cons.1 hw with rfl | hw2
            · exact hg
            · exact hgf hg2 w hw2
          · intro hgb0 w hw
            have hg2 : goodStep g id b cur := hcd.2.2 (hc1.1 ▸ hgb0)
            rcases List.mem_cons.1 hw with rfl | hw2
            · exact hgb0
            · exact hgb hg2 w hw2
          · exact ⟨⟨fuel, by rw [h0, ht1]⟩, hrc⟩
        · rw [if_neg hc1] at h
          by_cases hc2 : prev = b ∧ a ≠ start
          · rw [if_pos hc2] at h
            obtain ⟨s, hs1, hall⟩ := aringLoop_acc edges start id g fuel cur a ([] ++ [cur]) ring h
            have h0 := hall []
            rw [List.nil_append] at h0
            obtain ⟨t', ht1, hts, hadjw, hgf, hgb, hrc⟩ :=
              ih cur a s h0 (adjOf_symm hamem)
            refine ⟨a :: t', ?_, ?_, ?_, ?_, ?_, ?_⟩
            · rw [hs1, ht1]
              simp
            · intro x hx'
              rcases List.mem_cons.1 hx' with rfl | hx2'
              · exact hc2.2
              · exact hts x hx2'
            · intro w hw
              rcases List.mem_cons.1 hw with rfl | hw2
              · exact adjOf_symm hprev
              · exact hadjw w hw2
            · intro hg w hw
              have hg2 : goodStep g id cur a := hcd.2.1 (hc2.1 ▸ hg)
              rcases List.mem_cons.1 hw with rfl | hw2
              · exact hg
              · exact hgf hg2 w hw2
            · intro hgb0 w hw
              have hg2 : goodStep g id a cur := hcd.1.2 (hc2.1 ▸ hgb0)
              rcases List.mem_cons.1 hw with rfl | hw2
              · exact hgb0
              · exact hgb hg2 w hw2
            · exact ⟨⟨fuel, by rw [h0, ht1]⟩, hrc⟩
          · rw [if_neg hc2] at h
            simp only [Except.ok.injEq] at h
            subst h
            have hkey : goodStep g id cur start = goodStep g id cur start := rfl
            have hstart : (start ∈ adjOf edges cur) ∧
                (goodStep g id prev cur → goodStep g id cur start) ∧
                (goodStep g id cur prev → goodStep g id start cur) := by
              rcases hpab with hp | hp
              · have hbs : b = start := by
                  by_contra hbs
                  exact hc1 ⟨hp, hbs⟩
                subst hbs
                exact ⟨hbmem, fun hg => hcd.1.1 (hp ▸ hg),
                  fun hg => hcd.2.2 (hp ▸ hg)⟩
              · have has : a = start := by
                  by_contra has
                  exact hc2 ⟨hp, has⟩
                subst has
                exact ⟨hamem, fun hg => hcd.2.1 (hp ▸ hg),
                  fun hg => hcd.1.2 (hp ▸ hg)⟩
            refine ⟨[], by simp, ?_, ?_, ?_, ?_, trivial⟩
            · intro x hx'
              exact absurd hx' (List.not_mem_nil x)
            · intro w hw
              rcases List.mem_cons.1 hw with rfl | hw2
              · exact adjOf_symm hprev
              · rcases List.mem_cons.1 hw2 with rfl | hw3
                · exact hstart.1
                · exact absurd hw3 (List.not_mem_nil w)
            · intro hg w hw
              rcases List.mem_cons.1 hw with rfl | hw2
              · exact hg
              · rcases List.mem_cons.1 hw2 with rfl | hw3
                · exact hstart.2.1 hg
                · exact absurd hw3 (List.not_mem_nil w)
            · intro hgb w hw
              rcases List.mem_cons.1 hw with rfl | hw2
              · exact hgb
              · rcases List.mem_cons.1 hw2 with rfl | hw3
                · exact hstart.2.2 hgb
                · exact absurd hw3 (List.not_mem_nil w)

variable {α : Type} [DecidableEq α]

/-- Every state along a traced chain has a successful sub-run, of bounded
result length. -/
theorem runChain_window_runs (edges : List GEdge) (start : Coord) (id : α)
    (g : Array2 α) :
    ∀ (t : List Coord) (c : Coord), runChain edges start id g c t →
      ∀ w ∈ windows2 (c :: t), ∃ f r,
        aringLoop edges start id g f w.1 w.2 [] = .ok r ∧ r.length ≤ t.length + 1 := by
  intro t
  induction t with
  | nil =>
    intro c _ w hw
    exact absurd hw (List.not_mem_nil w)
  | cons w0 t ih =>
    intro c hrc w hw
    obtain ⟨⟨f, hrun⟩, hrc'⟩ := hrc
    rcases List.mem_cons.1 hw with rfl | hw2
    · exact ⟨f, w0 :: t ++ [start], hrun, by simp⟩
    · obtain ⟨f', r', hr', hlen⟩ := ih w0 hrc' w hw2
      refine ⟨f', r', hr', ?_⟩
      rw [List.length_cons]
      omega

/-- The directed steps of a successfully traced ring are pairwise distinct:
a repeated state would repeat its whole suffix, contradicting the strictly
shrinking remainder. -/
theorem runChain_windows_nodup (edges : List GEdge) (start : Coord) (id : α)
    (g : Array2 α) :
    ∀ (t : List Coord) (c : Coord), runChain edges start id g c t →
      (∀ x ∈ t, x ≠ start) → (windows2 (c :: t ++ [start])).Nodup := by
  intro t
  induction t with
  | nil =>
    intro c _ _
    exact List.nodup_singleton _
  | cons w0 t ih =>
    intro c hrc hts
    obtain ⟨⟨f, hrun⟩, hrc'⟩ := hrc
    have hnd : (windows2 (w0 :: t ++ [start])).Nodup :=
      ih w0 hrc' fun x hx => hts x (List.mem_cons_of_mem w0 hx)
    refine List.nodup_cons.2 ⟨?_, hnd⟩
    intro hmem
    simp only [List.append_eq] at hmem
    have hconc := windows2_concat (w0 :: t) (by simp) start
    rw [List.cons_append] at hconc
    rw [hconc] at hmem
    rcases List.mem_append.1 hmem with hmem1 | hmem2
    · obtain ⟨f', r', hr', hlen⟩ := runChain_window_runs edges start id g t w0 hrc'
        (c, w0) hmem1
      have hdet := aringLoop_det edges start id g f f' c w0
        (w0 :: t ++ [start]) r' hrun hr'
      rw [← hdet] at hlen
      simp at hlen
    · have : (c, w0) = ((w0 :: t).getLast (by simp), start) := by
        simpa using hmem2
      have hw0 : w0 = start := congrArg Prod.snd this
      exact hts w0 (List.mem_cons_self w0 t) hw0

theorem filter_split_len {β : Type} (l : List β) (p q : β → Bool) :
    (l.filter fun a => p a && q a).length + (l.filter fun a => p a && !q a).length =
      (l.filter p).length := by
  induction l with
  | nil => rfl
  | cons a t ih =>
    simp only [List.filter_cons]
    by_cases hp : p a = true <;> by_cases hq : q a = true <;>
      simp [hp, hq] <;> omega

/-- A stored-orientation pair is fixed by normalisation. -/
theorem norm_fix {e : GEdge}
    (h : e.2 = ⟨e.1.x + 1, e.1.y⟩ ∨ e.2 = ⟨e.1.x, e.1.y + 1⟩) : normEdge e = e := by
  rw [normEdge, if_pos h]

/-- The reverse of a stored-orientation pair normalises back to it. -/
theorem norm_swap {e : GEdge}
    (h : e.2 = ⟨e.1.x + 1, e.1.y⟩ ∨ e.2 = ⟨e.1.x, e.1.y + 1⟩) :
    normEdge (e.2, e.1) = e := by
  have hnc : ¬ (((e.2, e.1) : Coord × Coord).2 = ⟨(e.2, e.1).1.x + 1, (e.2, e.1).1.y⟩ ∨
      ((e.2, e.1) : Coord × Coord).2 = ⟨(e.2, e.1).1.x, (e.2, e.1).1.y + 1⟩) := by
    dsimp only
    rcases h with h | h <;> rw [coord_eq_iff] at h <;> dsimp only at h <;>
      rintro (hc | hc) <;> rw [coord_eq_iff] at hc <;> dsimp only at hc <;> omega
  rw [normEdge, if_neg hnc]

/-- Every working edge is stored in `+x`/`+y` orientation. -/
theorem edge_shape {g : Array2 α} {id : α} {W : List GEdge}
    (hW : W.Sublist (marching_squares g id)) (hn : 1 ≤ g.nrows) (hm : 1 ≤ g.ncols)
    {e : GEdge} (he : e ∈ W) :
    e.2 = ⟨e.1.x + 1, e.1.y⟩ ∨ e.2 = ⟨e.1.x, e.1.y + 1⟩ := by
  rcases ms_shape g hn hm id e (hW.subset he) with ⟨h, -⟩ | ⟨h, -⟩
  · exact Or.inl h
  · exact Or.inr h

variable {α : Type} [DecidableEq α]

theorem filter_len_eq_tails {l : List Coord} {P : List (Coord × Coord)} {v : Coord}
    (hl : l.Nodup) (hP : P.Nodup) (p : Coord → Bool)
    (hiff : ∀ u, (u ∈ l ∧ p u = true) ↔ (u, v) ∈ P) :
    (l.filter p).length = (P.filter fun w => decide (w.2 = v)).length := by
  have h1 : (l.filter p).Nodup := hl.filter p
  have h2 : ((P.filter fun w => decide (w.2 = v)).map Prod.fst).Nodup := by
    refine (hP.filter _).map_on ?_
    intro w1 h1' w2 h2' he
    have e1 : w1.2 = v := by simpa using (List.mem_filter.1 h1').2
    have e2 : w2.2 = v := by simpa using (List.mem_filter.1 h2').2
    exact Prod.ext he (e1.trans e2.symm)
  have hperm : (l.filter p).Perm ((P.filter fun w => decide (w.2 = v)).map Prod.fst) := by
    refine perm_of_nodup_ext h1 h2 ?_
    intro u
    rw [List.mem_filter, List.mem_map]
    constructor
    · rintro ⟨hu, hp'⟩
      exact ⟨(u, v), List.mem_filter.2 ⟨(hiff u).1 ⟨hu, hp'⟩, by simp⟩, rfl⟩
    · rintro ⟨w, hw, hfst⟩
      have hw' := List.mem_filter.1 hw
      have hweq : w = (u, v) := Prod.ext hfst (by simpa using hw'.2)
      rw [hweq] at hw'
      exact (hiff u).2 hw'.1
  rw [hperm.length_eq, List.length_map]

theorem filter_len_eq_heads {l : List Coord} {P : List (Coord × Coord)} {v : Coord}
    (hl : l.Nodup) (hP : P.Nodup) (p : Coord → Bool)
    (hiff : ∀ u, (u ∈ l ∧ p u = true) ↔ (v, u) ∈ P) :
    (l.filter p).length = (P.filter fun w => decide (w.1 = v)).length := by
  have h1 : (l.filter p).Nodup := hl.filter p
  have h2 : ((P.filter fun w => decide (w.1 = v)).map Prod.snd).Nodup := by
    refine (hP.filter _).map_on ?_
    intro w1 h1' w2 h2' he
    have e1 : w1.1 = v := by simpa using (List.mem_filter.1 h1').2
    have e2 : w2.1 = v := by simpa using (List.mem_filter.1 h2').2
    exact Prod.ext (e1.trans e2.symm) he
  have hperm : (l.filter p).Perm ((P.filter fun w => decide (w.1 = v)).map Prod.snd) := by
    refine perm_of_nodup_ext h1 h2 ?_
    intro u
    rw [List.mem_filter, List.mem_map]
    constructor
    · rintro ⟨hu, hp'⟩
      exact ⟨(v, u), List.mem_filter.2 ⟨(hiff u).1 ⟨hu, hp'⟩, by simp⟩, rfl⟩
    · rintro ⟨w, hw, hfst⟩
      have hw' := List.mem_filter.1 hw
      have hweq : w = (v, u) := Prod.ext (by simpa using hw'.2) hfst
      rw [hweq] at hw'
      exact (hiff u).2 hw'.1
  rw [hperm.length_eq, List.length_map]

variable {α : Type} [DecidableEq α]

/-- The normalised directed steps of a class-consistent, duplicate-free
traversal are exactly the working edges its windows match. -/
theorem pairs_removal_perm (g : Array2 α) (hn : 1 ≤ g.nrows) (hm : 1 ≤ g.ncols)
    (id : α) (W : List GEdge) (hW : W.Sublist (marching_squares g id))
    (P : List (Coord × Coord)) (hPnd : P.Nodup)
    (hadjw : ∀ w ∈ P, w.2 ∈ adjOf W w.1)
    (hclass : (∀ w ∈ P, goodStep g id w.1 w.2) ∨ (∀ w ∈ P, goodStep g id w.2 w.1)) :
    (P.map normEdge).Perm (W.filter fun e => decide (e ∈ P ∨ (e.2, e.1) ∈ P)) := by
  have hWnd : W.Nodup := hW.nodup (ms_nodup g hn hm id)
  have no_both : ∀ w ∈ P, (w.2, w.1) ∉ P := by
    intro w hw hsw
    have hx := adj_xor g hn hm id W hW (hadjw w hw)
    rcases hclass with hg | hg
    · have a1 := hg w hw
      have a2 := hg _ hsw
      dsimp only at a2
      rcases hx with ⟨-, hn2⟩ | ⟨-, hn2⟩
      · exact hn2 a1
      · exact hn2 a2
    · have a1 := hg w hw
      have a2 := hg _ hsw
      dsimp only at a2
      rcases hx with ⟨-, hn2⟩ | ⟨-, hn2⟩
      · exact hn2 a2
      · exact hn2 a1
  have wedge : ∀ w ∈ P, normEdge w ∈ W ∧
      (normEdge w = (w.1, w.2) ∨ normEdge w = (w.2, w.1)) := by
    intro w hw
    obtain ⟨e, he, hor⟩ := mem_adjOf.1 (hadjw w hw)
    have hsh := edge_shape hW hn hm he
    rcases hor with heq | heq
    · have hwe : w = e := heq.symm
      constructor
      · rw [hwe, norm_fix hsh]
        exact he
      · left
        rw [hwe, norm_fix hsh]
    · have hwe : w = (e.2, e.1) := by rw [heq]
      constructor
      · rw [hwe, norm_swap hsh]
        exact he
      · right
        rw [hwe, norm_swap hsh]
  apply perm_of_nodup_ext
  · refine hPnd.map_on ?_
    intro w1 h1 w2 h2 he
    obtain ⟨-, ho1⟩ := wedge w1 h1
    obtain ⟨-, ho2⟩ := wedge w2 h2
    rcases ho1 with ha | ha <;> rcases ho2 with hb | hb
    · exact show w1 = w2 from (ha.symm.trans (he.trans hb) : (w1.1, w1.2) = (w2.1, w2.2))
    · exfalso
      have e1 : w1 = (w2.2, w2.1) := (ha.symm.trans (he.trans hb) : (w1.1, w1.2) = (w2.2, w2.1))
      exact no_both w2 h2 (e1 ▸ h1)
    · exfalso
      have e1 : w2 = (w1.2, w1.1) :=
        (hb.symm.trans (he.symm.trans ha) : (w2.1, w2.2) = (w1.2, w1.1))
      exact no_both w1 h1 (e1 ▸ h2)
    · have e1 : (w1.2, w1.1) = (w2.2, w2.1) := ha.symm.trans (he.trans hb)
      have c1 : w1.2 = w2.2 := congrArg Prod.fst e1
      have c2 : w1.1 = w2.1 := congrArg Prod.snd e1
      exact Prod.ext c2 c1
  · exact hWnd.filter _
  · intro x
    rw [List.mem_map, List.mem_filter]
    constructor
    · rintro ⟨w, hw, rfl⟩
      obtain ⟨hin, hor⟩ := wedge w hw
      refine ⟨hin, ?_⟩
      rw [decide_eq_true_eq]
      rcases hor with hh | hh
      · left
        rw [hh]
        exact hw
      · right
        rw [hh]
        dsimp only
        exact hw
    · rintro ⟨hxW, hm'⟩
      rw [decide_eq_true_eq] at hm'
      have hsh := edge_shape hW hn hm hxW
      rcases hm' with hxP | hxP
      · exact ⟨x, hxP, norm_fix hsh⟩
      · exact ⟨(x.2, x.1), hxP, norm_swap hsh⟩

/-- Removing the edges matched by a class-consistent closed traversal keeps
the working set balanced. -/
theorem pairs_removal_balance (g : Array2 α) (hn : 1 ≤ g.nrows) (hm : 1 ≤ g.ncols)
    (id : α) (W : List GEdge) (hW : W.Sublist (marching_squares g id))
    (hbal : balanced g id W) (P : List (Coord × Coord)) (hPnd : P.Nodup)
    (hadjw : ∀ w ∈ P, w.2 ∈ adjOf W w.1)
    (hclass : (∀ w ∈ P, goodStep g id w.1 w.2) ∨ (∀ w ∈ P, goodStep g id w.2 w.1))
    (hHT : ∀ v : Coord, (P.filter fun w => decide (w.1 = v)).length =
      (P.filter fun w => decide (w.2 = v)).length) :
    balanced g id (W.filter fun e => decide (¬ (e ∈ P ∨ (e.2, e.1) ∈ P))) := by
  intro v
  have hp : ∀ a b : Coord,
      (fun e : GEdge => decide (¬ (e ∈ P ∨ (e.2, e.1) ∈ P))) (a, b) =
      (fun e : GEdge => decide (¬ (e ∈ P ∨ (e.2, e.1) ∈ P))) (b, a) := by
    intro a b
    dsimp only
    rw [decide_eq_decide]
    exact not_congr or_comm
  have hfil := adjOf_filter W (fun e : GEdge => decide (¬ (e ∈ P ∨ (e.2, e.1) ∈ P))) hp v
  have hlnd := adjOf_nodup g hn hm id W hW v
  have hbool : ∀ u : Coord,
      (decide (¬ ((v, u) ∈ P ∨ ((v, u).2, (v, u).1) ∈ P)) = true →
        True) := fun _ _ => trivial
  rw [goodInto, goodOut, hfil, List.filter_filter, List.filter_filter]
  have hmIn : ∀ u ∈ adjOf W v,
      ((fun u : Coord => decide (goodStep g id u v)) u &&
        (fun u : Coord => decide (¬ ((v, u) ∈ P ∨ ((v, u).2, (v, u).1) ∈ P))) u) =
      ((fun u : Coord => decide (goodStep g id u v)) u &&
        !((fun u : Coord => decide ((v, u) ∈ P ∨ (u, v) ∈ P)) u)) := by
    intro u _
    dsimp only
    congr 1
    rw [decide_not]
  have hmOut : ∀ u ∈ adjOf W v,
      ((fun u : Coord => decide (goodStep g id v u)) u &&
        (fun u : Coord => decide (¬ ((v, u) ∈ P ∨ ((v, u).2, (v, u).1) ∈ P))) u) =
      ((fun u : Coord => decide (goodStep g id v u)) u &&
        !((fun u : Coord => decide ((v, u) ∈ P ∨ (u, v) ∈ P)) u)) := by
    intro u _
    dsimp only
    congr 1
    rw [decide_not]
  rw [List.filter_congr hmIn, List.filter_congr hmOut]
  have hIn := filter_split_len (adjOf W v) (fun u => decide (goodStep g id u v))
    (fun u => decide ((v, u) ∈ P ∨ (u, v) ∈ P))
  have hOut := filter_split_len (adjOf W v) (fun u => decide (goodStep g id v u))
    (fun u => decide ((v, u) ∈ P ∨ (u, v) ∈ P))
  have hbalv := hbal v
  rw [goodInto, goodOut] at hbalv
  have hHTv := hHT v
  have hIn2 : ((adjOf W v).filter fun a => decide (goodStep g id a v) &&
      decide ((v, a) ∈ P ∨ (a, v) ∈ P)).length +
      ((adjOf W v).filter fun a => decide (goodStep g id a v) &&
      !decide ((v, a) ∈ P ∨ (a, v) ∈ P)).length =
      ((adjOf W v).filter fun a => decide (goodStep g id a v)).length := hIn
  have hOut2 : ((adjOf W v).filter fun a => decide (goodStep g id v a) &&
      decide ((v, a) ∈ P ∨ (a, v) ∈ P)).length +
      ((adjOf W v).filter fun a => decide (goodStep g id v a) &&
      !decide ((v, a) ∈ P ∨ (a, v) ∈ P)).length =
      ((adjOf W v).filter fun a => decide (goodStep g id v a)).length := hOut
  show ((adjOf W v).filter fun a => decide (goodStep g id a v) &&
      !decide ((v, a) ∈ P ∨ (a, v) ∈ P)).length =
    ((adjOf W v).filter fun a => decide (goodStep g id v a) &&
      !decide ((v, a) ∈ P ∨ (a, v) ∈ P)).length
  rcases hclass with hg | hg
  · have hrIn : ((adjOf W v).filter fun u => decide (goodStep g id u v) &&
        decide ((v, u) ∈ P ∨ (u, v) ∈ P)).length =
        (P.filter fun w => decide (w.2 = v)).length := by
      refine filter_len_eq_tails hlnd hPnd _ ?_
      intro u
      simp only [Bool.and_eq_true, decide_eq_true_eq]
      constructor
      · rintro ⟨hu, hgood, hmm | hmm⟩
        · exfalso
          have := hg (v, u) hmm
          dsimp only at this
          have hx := adj_xor g hn hm id W hW hu
          rcases hx with ⟨-, hn2⟩ | ⟨-, hn2⟩
          · exact hn2 this
          · exact hn2 hgood
        · exact hmm
      · intro hmm
        have hgood := hg (u, v) hmm
        dsimp only at hgood
        have hu : u ∈ adjOf W v := by
          have := hadjw (u, v) hmm
          dsimp only at this
          exact adjOf_symm this
        exact ⟨hu, hgood, Or.inr hmm⟩
    have hrOut : ((adjOf W v).filter fun u => decide (goodStep g id v u) &&
        decide ((v, u) ∈ P ∨ (u, v) ∈ P)).length =
        (P.filter fun w => decide (w.1 = v)).length := by
      refine filter_len_eq_heads hlnd hPnd _ ?_
      intro u
      simp only [Bool.and_eq_true, decide_eq_true_eq]
      constructor
      · rintro ⟨hu, hgood, hmm | hmm⟩
        · exact hmm
        · exfalso
          have := hg (u, v) hmm
          dsimp only at this
          have hx := adj_xor g hn hm id W hW hu
          rcases hx with ⟨-, hn2⟩ | ⟨-, hn2⟩
          · exact hn2 hgood
          · exact hn2 this
      · intro hmm
        have hgood := hg (v, u) hmm
        dsimp only at hgood
        have hu : u ∈ adjOf W v := by
          have := hadjw (v, u) hmm
          dsimp only at this
          exact this
        exact ⟨hu, hgood, Or.inl hmm⟩
    omega
  · have hrIn : ((adjOf W v).filter fun u => decide (goodStep g id u v) &&
        decide ((v, u) ∈ P ∨ (u, v) ∈ P)).length =
        (P.filter fun w => decide (w.1 = v)).length := by
      refine filter_len_eq_heads hlnd hPnd _ ?_
      intro u
      simp only [Bool.and_eq_true, decide_eq_true_eq]
      constructor
      · rintro ⟨hu, hgood, hmm | hmm⟩
        · exact hmm
        · exfalso
          have := hg (u, v) hmm
          dsimp only at this
          have hx := adj_xor g hn hm id W hW hu
          rcases hx with ⟨-, hn2⟩ | ⟨-, hn2⟩
          · exact hn2 this
          · exact hn2 hgood
      · intro hmm
        have hgood := hg (v, u) hmm
        dsimp only at hgood
        have hu : u ∈ adjOf W v := by
          have := hadjw (v, u) hmm
          dsimp only at this
          exact this
        exact ⟨hu, hgood, Or.inl hmm⟩
    have hrOut : ((adjOf W v).filter fun u => decide (goodStep g id v u) &&
        decide ((v, u) ∈ P ∨ (u, v) ∈ P)).length =
        (P.filter fun w => decide (w.2 = v)).length := by
      refine filter_len_eq_tails hlnd hPnd _ ?_
      intro u
      simp only [Bool.and_eq_true, decide_eq_true_eq]
      constructor
      · rintro ⟨hu, hgood, hmm | hmm⟩
        · exfalso
          have := hg (v, u) hmm
          dsimp only at this
          have hx := adj_xor g hn hm id W hW hu
          rcases hx with ⟨-, hn2⟩ | ⟨-, hn2⟩
          · exact hn2 hgood
          · exact hn2 this
        · exact hmm
      · intro hmm
        have hgood := hg (u, v) hmm
        dsimp only at hgood
        have hu : u ∈ adjOf W v := by
          have := hadjw (u, v) hmm
          dsimp only at this
          exact adjOf_symm this
        exact ⟨hu, hgood, Or.inr hmm⟩
    omega

variable {α : Type} [DecidableEq α]

/-- A closed traversal enters every vertex as often as it leaves it. -/
theorem ring_heads_tails (s : Coord) (t : List Coord) (v : Coord) :
    ((windows2 (s :: t ++ [s])).filter fun w => decide (w.1 = v)).length =
    ((windows2 (s :: t ++ [s])).filter fun w => decide (w.2 = v)).length := by
  rw [windows2_heads v (s :: t ++ [s]), windows2_tails v (s :: t ++ [s])]
  rw [List.dropLast_concat]
  rw [show ((s :: t) ++ [s]).tail = t ++ [s] from rfl]
  rw [List.filter_cons, List.filter_append]
  by_cases hsv : s = v
  · simp [hsv, Nat.add_comm]
  · simp [hsv]

/-- One completed `aring` run: its normalised windows are exactly the edges
the assembler then removes, and the remaining working set stays balanced. -/
theorem aring_c1 (g : Array2 α) (hn : 1 ≤ g.nrows) (hm : 1 ≤ g.ncols) (id : α)
    (W : List GEdge) (hW : W.Sublist (marching_squares g id))
    (hdeg : degreesOk W = true) (hbal : balanced g id W) (start : Coord)
    (fuel : Nat) (ring : List Coord)
    (h : aring W start id g fuel = .ok ring) :
    ((windows2 ring).map normEdge).Perm
      (W.filter fun e => decide (e ∈ windows2 ring ∨ (e.2, e.1) ∈ windows2 ring)) ∧
    balanced g id (W.filter fun e =>
      decide (¬ (e ∈ windows2 ring ∨ (e.2, e.1) ∈ windows2 ring))) := by
  rw [aring] at h
  simp only [adjLookup, bind, Except.bind, pure, Except.pure] at h
  split at h
  · simp at h
  next nl heqnl =>
  split at heqnl
  · simp at heqnl
  next hne =>
  injection heqnl with heqnl2
  subst heqnl2
  obtain ⟨n0, tail, heq2⟩ := List.exists_cons_of_ne_nil hne
  simp only [heq2] at h
  have hn0 : n0 ∈ adjOf W start := by
    rw [heq2]
    exact List.mem_cons_self n0 tail
  have hloop : aringLoop W start id g fuel n0 start [] = .ok ring := by
    split at h
    · split at h
      · simp at h
      · exact h
    · exact h
  obtain ⟨t, hr, hts, hadjw, hgf, hgb, hrc⟩ :=
    aringLoop_trace g hn hm id W hW hdeg hbal start fuel n0 start ring hloop hn0
  subst hr
  have hadjw' : ∀ w ∈ windows2 (start :: t ++ [start]), w.2 ∈ adjOf W w.1 :=
    fun w hw => hadjw w (List.mem_cons_of_mem (n0, start) hw)
  have hclass : (∀ w ∈ windows2 (start :: t ++ [start]), goodStep g id w.1 w.2) ∨
      (∀ w ∈ windows2 (start :: t ++ [start]), goodStep g id w.2 w.1) := by
    have hx0 := adj_xor g hn hm id W hW hn0
    rcases hx0 with ⟨h1, -⟩ | ⟨h1, -⟩
    · exact Or.inl fun w hw => hgf h1 w (List.mem_cons_of_mem (n0, start) hw)
    · exact Or.inr fun w hw => hgb h1 w (List.mem_cons_of_mem (n0, start) hw)
  have hnd : (windows2 (start :: t ++ [start])).Nodup :=
    runChain_windows_nodup W start id g t start hrc hts
  exact ⟨pairs_removal_perm g hn hm id W hW _ hnd hadjw' hclass,
    pairs_removal_balance g hn hm id W hW hbal _ hnd hadjw' hclass
      (ring_heads_tails start t)⟩

/-- The assembly loop conserves edges: the normalised windows of all the
rings it returns are, as a multiset, exactly the working edge set it
consumed. -/
theorem etmLoop_perm (g : Array2 α) (hn : 1 ≤ g.nrows) (hm : 1 ≤ g.ncols) (id : α) :
    ∀ fuel W rings, W.Sublist (marching_squares g id) → balanced g id W →
      etmLoop id g fuel W = .ok rings →
      (rings.flatMap fun r => (windows2 r).map normEdge).Perm W := by
  intro fuel
  induction fuel with
  | zero =>
    intro W rings _ _ h
    simp [etmLoop] at h
  | succ fuel ih =>
    intro W rings hW hbal h
    rw [etmLoop] at h
    split at h
    · next hemp =>
      simp only [Except.ok.injEq] at h
      subst h
      subst hemp
      exact List.Perm.refl _
    next hney =>
    split at h
    swap
    · simp at h
    next hdeg =>
    simp only [bind, Except.bind, pure, Except.pure] at h
    split at h
    · simp at h
    next ring0 haring =>
    split at h
    · simp at h
    next rest hrest =>
    simp only [Except.ok.injEq] at h
    subst h
    obtain ⟨hperm0, hbal'⟩ :=
      aring_c1 g hn hm id W hW hdeg hbal (W.head hney).1 (aringFuel W) ring0 haring
    have hrestperm := ih _ rest ((List.filter_sublist _).trans hW) hbal' hrest
    rw [List.flatMap_cons]
    have hsplit := List.filter_append_perm
      (fun e => decide (e ∈ windows2 ring0 ∨ (e.2, e.1) ∈ windows2 ring0)) W
    have hfc : (W.filter fun e =>
        !decide (e ∈ windows2 ring0 ∨ (e.2, e.1) ∈ windows2 ring0)) =
        (W.filter fun e =>
        decide (¬ (e ∈ windows2 ring0 ∨ (e.2, e.1) ∈ windows2 ring0))) := by
      refine List.filter_congr ?_
      intro e _
      rw [decide_not]
    rw [hfc] at hsplit
    exact ((hperm0.append hrestperm).trans hsplit)

/-- Claim C1: round-trip edge conservation.  For every grid with at least
one row and one column and every label, whenever ring assembly on the edges
extracted by `marching_squares` for that label returns at all, the combined
edges of the returned rings — each ring contributing the unit segments
between consecutive coordinates, reoriented into storage order — form
exactly the extracted edge list as an unordered multiset: no edge is lost,
duplicated, or shared between two rings. -/
theorem c1_roundtrip (g : Array2 α) (hn : 1 ≤ g.nrows) (hm : 1 ≤ g.ncols) (id : α)
    (fuel : Nat) (rings : List (List Coord))
    (h : edges_to_multilinestring id (marching_squares g id) g fuel = .ok rings) :
    (rings.flatMap fun r => (windows2 r).map normEdge).Perm (marching_squares g id) :=
  etmLoop_perm g hn hm id fuel (marching_squares g id) rings (List.Sublist.refl _)
    (fun v => balance_ms g hn hm id v) h

/-- Witness: on the knot grid with label 1, the four returned rings'
normalised edges are a permutation of the extracted edge list. -/
theorem c1_roundtrip_witness :
    (1 ≤ knotGrid.nrows ∧ 1 ≤ knotGrid.ncols) ∧
    (([[⟨1, 0⟩, ⟨1, 1⟩, ⟨2, 1⟩, ⟨2, 0⟩, ⟨1, 0⟩],
       [⟨1, 3⟩, ⟨1, 2⟩, ⟨2, 2⟩, ⟨2, 3⟩, ⟨1, 3⟩],
       [⟨0, 1⟩, ⟨1, 1⟩, ⟨1, 2⟩, ⟨0, 2⟩, ⟨0, 1⟩],
       [⟨3, 1⟩, ⟨2, 1⟩, ⟨2, 2⟩, ⟨3, 2⟩, ⟨3, 1⟩]] : List (List Coord)).flatMap
        fun r => (windows2 r).map normEdge).Perm (marching_squares knotGrid 1) :=
  ⟨⟨by decide, by decide⟩,
    c1_roundtrip knotGrid (by decide) (by decide) 1 10
      [[⟨1, 0⟩, ⟨1, 1⟩, ⟨2, 1⟩, ⟨2, 0⟩, ⟨1, 0⟩],
       [⟨1, 3⟩, ⟨1, 2⟩, ⟨2, 2⟩, ⟨2, 3⟩, ⟨1, 3⟩],
       [⟨0, 1⟩, ⟨1, 1⟩, ⟨1, 2⟩, ⟨0, 2⟩, ⟨0, 1⟩],
       [⟨3, 1⟩, ⟨2, 1⟩, ⟨2, 2⟩, ⟨3, 2⟩, ⟨3, 1⟩]] (by rfl)⟩

end Characterization

end Geospatial
